import Mathlib

/-
Verification of the python-dtl repository against its natural-language
specification.

This file shallowly embeds the core of the pipeline:
  - the typed IR expression DAG (src/dtl/ir.py),
  - dependency extraction, depth-first traversal and the DAG rewriting
    utility `map` (src/dtl/ir.py),
  - the mapping algebra (src/dtl/mappings.py),
  - the scheduler (src/dtl/ir_to_cmd.py, src/dtl/cmd.py),
  - the evaluator and driver (src/dtl/eval.py),
  - AST to IR lowering (src/dtl/ast_to_ir.py),
  - the lexer (src/dtl/lexer.py, src/dtl/tokens.py).

Modelling conventions, used throughout:
  - Python raises exceptions; fallible embedded functions return
    `Except PyErr _`.  The `PyErr` variants record which kind of Python
    failure occurred (a `raise Exception("compilation error")`, a
    `NotImplementedError` from a missing singledispatch registration, an
    `IndexError`/`KeyError` from indexing, a failed `assert`, ...).
  - Python object identity (ir.Expression dataclasses are declared with
    eq=False, so dict/set membership is by identity) is modelled by
    structural equality on expression trees.  Any two expression objects
    produced by distinct constructor calls in the Python code that are
    identity-distinct but structurally equal collapse to one value here;
    none of the verified claims distinguishes the two readings, and
    comments flag each place where identity is load bearing.
  - Python dicts are insertion-ordered maps; they are modelled as
    association lists with last-write-wins updates that keep the position
    of the first insertion, matching CPython semantics.
  - Source AST location spans (dtl/types.py Location, carried by every
    dtl/nodes.py node and used only to fill the trace manifest, which no
    claim inspects) are dropped from the embedded AST.
  - The reserved JoinLeftEqualExpression and JoinRightEqualExpression IR
    variants are omitted: no code path in the repository constructs them,
    and their dependency extraction and mapping generation both raise
    NotImplementedError unconditionally.
  - `ir.RangeExpression` is referenced by src/dtl/eval.py and
    src/dtl/mappings.py but its class definition is absent from the
    snapshot of src/dtl/ir.py; it is modelled from the spec (section 3.2:
    `Range(shape)` evaluates to `[0 .. shape-1]` with dtype INDEX, and
    section 4.5: an array node depends on its shape) where noted.
-/

namespace DTL

/-- Python exception outcomes, by kind (see section 7 of the spec for the
taxonomy the code is supposed to follow). -/
inductive PyErr where
  /-- A `raise Exception(...)` used by the lowering for user-facing
  compile errors (name resolution, dtype mismatch, "compilation error"). -/
  | compileError (msg : String)
  /-- A `raise NotImplementedError(...)` (missing singledispatch
  registration or unimplemented construct). -/
  | notImplemented (msg : String)
  /-- An uncaught `IndexError` from Python list indexing. -/
  | indexError
  /-- An uncaught `KeyError` from Python dict indexing. -/
  | keyError
  /-- A failed `assert` statement (AssertionError). -/
  | assertionError (msg : String)
  /-- A parse error raised by the parser. -/
  | parseError (msg : String)
  /-- A lexer failure (the tokenizer steps past the end of input, which in
  the source trips the `assert` in `_Tokenizer._bump`). -/
  | lexError
  /-- A runtime failure inside the array runtime (length mismatch,
  index out of bounds, unsupported dtype). -/
  | runtimeError (msg : String)
  /-- An uncaught TypeError from the Python runtime (e.g. iterating a
  non-iterable object). -/
  | typeError (msg : String)
  deriving DecidableEq, Repr

/-- Reduction of an Except `do` bind over a success value. -/
@[simp] theorem Except_ok_bind {ε : Type u} {α β : Type v} (a : α)
    (f : α → Except ε β) : (Except.ok a : Except ε α) >>= f = f a := rfl

/-- Reduction of an Except `do` bind over an error value. -/
@[simp] theorem Except_error_bind {ε : Type u} {α β : Type v} (e : ε)
    (f : α → Except ε β) :
    (Except.error e : Except ε α) >>= f = Except.error e := rfl

/-- dtl/ir.py DType: the closed set of element types. -/
inductive DType where
  | BOOL | INT32 | INT64 | DOUBLE | TEXT | BYTES | INDEX | TIMESTAMP | DATE
  deriving DecidableEq, Repr

mutual

/-- dtl/ir.py ShapeExpression: evaluates at runtime to a row count. -/
inductive ShapeExpression where
  | importShapeExpression (location : String)
  | whereShapeExpression (mask : ArrayExpression)
  | joinShapeExpression (shape_a shape_b : ShapeExpression)
  deriving DecidableEq, Repr

/-- dtl/ir.py ArrayExpression: evaluates at runtime to a typed array.
Every variant carries the `dtype` and `shape` fields of the Python base
class.  Python float literal payloads are kept as their uninterpreted
source text (IEEE doubles are never computed with by any verified claim);
Python bytes payloads are kept as an uninterpreted string. -/
inductive ArrayExpression where
  | booleanLiteralExpression (dtype : DType) (shape : ShapeExpression) (value : Bool)
  | integerLiteralExpression (dtype : DType) (shape : ShapeExpression) (value : Int)
  | floatLiteralExpression (dtype : DType) (shape : ShapeExpression) (value : String)
  | textLiteralExpression (dtype : DType) (shape : ShapeExpression) (value : String)
  | bytesLiteralExpression (dtype : DType) (shape : ShapeExpression) (value : String)
  | importExpression (dtype : DType) (shape : ShapeExpression) (location : String) (name : String)
  | whereExpression (dtype : DType) (shape : ShapeExpression) (source : ArrayExpression) (mask : ArrayExpression)
  | pickExpression (dtype : DType) (shape : ShapeExpression) (source : ArrayExpression) (indexes : ArrayExpression)
  | indexExpression (dtype : DType) (shape : ShapeExpression) (source : ArrayExpression)
  /-- Modelled from the spec: `ir.RangeExpression` (used by eval.py and
  mappings.py, class body missing from the ir.py snapshot); spec section
  3.2: `Range(shape)` is `[0,1,...,shape-1]` with dtype INDEX. -/
  | rangeExpression (dtype : DType) (shape : ShapeExpression)
  | joinLeftExpression (dtype : DType) (shape : ShapeExpression) (shape_a shape_b : ShapeExpression)
  | joinRightExpression (dtype : DType) (shape : ShapeExpression) (shape_a shape_b : ShapeExpression)
  | addExpression (dtype : DType) (shape : ShapeExpression) (source_a source_b : ArrayExpression)
  | subtractExpression (dtype : DType) (shape : ShapeExpression) (source_a source_b : ArrayExpression)
  | multiplyExpression (dtype : DType) (shape : ShapeExpression) (source_a source_b : ArrayExpression)
  | divideExpression (dtype : DType) (shape : ShapeExpression) (source_a source_b : ArrayExpression)
  | equalToExpression (dtype : DType) (shape : ShapeExpression) (source_a source_b : ArrayExpression)
  deriving DecidableEq, Repr

end

/-- dtl/ir.py Expression: common supertype of shape and array expressions
(the Python class hierarchy is modelled as a tagged sum). -/
inductive Expression where
  | shape (s : ShapeExpression)
  | array (a : ArrayExpression)
  deriving DecidableEq, Repr

/-- The `dtype` field of the Python ArrayExpression base class. -/
def ArrayExpression.dtype : ArrayExpression → DType
  | .booleanLiteralExpression d _ _ => d
  | .integerLiteralExpression d _ _ => d
  | .floatLiteralExpression d _ _ => d
  | .textLiteralExpression d _ _ => d
  | .bytesLiteralExpression d _ _ => d
  | .importExpression d _ _ _ => d
  | .whereExpression d _ _ _ => d
  | .pickExpression d _ _ _ => d
  | .indexExpression d _ _ => d
  | .rangeExpression d _ => d
  | .joinLeftExpression d _ _ _ => d
  | .joinRightExpression d _ _ _ => d
  | .addExpression d _ _ _ => d
  | .subtractExpression d _ _ _ => d
  | .multiplyExpression d _ _ _ => d
  | .divideExpression d _ _ _ => d
  | .equalToExpression d _ _ _ => d

/-- The `shape` field of the Python ArrayExpression base class. -/
def ArrayExpression.shape : ArrayExpression → ShapeExpression
  | .booleanLiteralExpression _ s _ => s
  | .integerLiteralExpression _ s _ => s
  | .floatLiteralExpression _ s _ => s
  | .textLiteralExpression _ s _ => s
  | .bytesLiteralExpression _ s _ => s
  | .importExpression _ s _ _ => s
  | .whereExpression _ s _ _ => s
  | .pickExpression _ s _ _ => s
  | .indexExpression _ s _ => s
  | .rangeExpression _ s => s
  | .joinLeftExpression _ s _ _ => s
  | .joinRightExpression _ s _ _ => s
  | .addExpression _ s _ _ => s
  | .subtractExpression _ s _ _ => s
  | .multiplyExpression _ s _ _ => s
  | .divideExpression _ s _ _ => s
  | .equalToExpression _ s _ _ => s

/-- dtl/ir.py `dependencies`: yields the direct dependencies of an
expression, one singledispatch registration per variant, in yield order.
The source registrations for Where/Pick/Index and the binary operations
yield only array operands (not the node's own shape); literals yield only
their shape; JoinLeft/JoinRight yield their two operand shapes.  The
registration for rangeExpression is modelled from the spec (section 4.5:
an array node depends on its shape; Range has no array operand), as the
Range part of ir.py is missing from the snapshot. -/
def dependencies : Expression → List Expression
  | .shape (.importShapeExpression _) => []
  | .shape (.whereShapeExpression mask) => [.array mask]
  | .shape (.joinShapeExpression a b) => [.shape a, .shape b]
  | .array (.booleanLiteralExpression _ s _) => [.shape s]
  | .array (.integerLiteralExpression _ s _) => [.shape s]
  | .array (.floatLiteralExpression _ s _) => [.shape s]
  | .array (.textLiteralExpression _ s _) => [.shape s]
  | .array (.bytesLiteralExpression _ s _) => [.shape s]
  | .array (.importExpression _ _ _ _) => []
  | .array (.whereExpression _ _ source mask) => [.array mask, .array source]
  | .array (.pickExpression _ _ source indexes) => [.array indexes, .array source]
  | .array (.indexExpression _ _ source) => [.array source]
  | .array (.rangeExpression _ s) => [.shape s]
  | .array (.joinLeftExpression _ _ a b) => [.shape a, .shape b]
  | .array (.joinRightExpression _ _ a b) => [.shape a, .shape b]
  | .array (.addExpression _ _ a b) => [.array a, .array b]
  | .array (.subtractExpression _ _ a b) => [.array a, .array b]
  | .array (.multiplyExpression _ _ a b) => [.array a, .array b]
  | .array (.divideExpression _ _ a b) => [.array a, .array b]
  | .array (.equalToExpression _ _ a b) => [.array a, .array b]

/-- The Python class name of an expression (`type(expr).__name__`), used
to reproduce the messages of NotImplementedError exceptions. -/
def Expression.className : Expression → String
  | .shape (.importShapeExpression _) => "ImportShapeExpression"
  | .shape (.whereShapeExpression _) => "WhereShapeExpression"
  | .shape (.joinShapeExpression _ _) => "JoinShapeExpression"
  | .array (.booleanLiteralExpression _ _ _) => "BooleanLiteralExpression"
  | .array (.integerLiteralExpression _ _ _) => "IntegerLiteralExpression"
  | .array (.floatLiteralExpression _ _ _) => "FloatLiteralExpression"
  | .array (.textLiteralExpression _ _ _) => "TextLiteralExpression"
  | .array (.bytesLiteralExpression _ _ _) => "BytesLiteralExpression"
  | .array (.importExpression _ _ _ _) => "ImportExpression"
  | .array (.whereExpression _ _ _ _) => "WhereExpression"
  | .array (.pickExpression _ _ _ _) => "PickExpression"
  | .array (.indexExpression _ _ _) => "IndexExpression"
  | .array (.rangeExpression _ _) => "RangeExpression"
  | .array (.joinLeftExpression _ _ _ _) => "JoinLeftExpression"
  | .array (.joinRightExpression _ _ _ _) => "JoinRightExpression"
  | .array (.addExpression _ _ _ _) => "AddExpression"
  | .array (.subtractExpression _ _ _ _) => "SubtractExpression"
  | .array (.multiplyExpression _ _ _ _) => "MultiplyExpression"
  | .array (.divideExpression _ _ _ _) => "DivideExpression"
  | .array (.equalToExpression _ _ _ _) => "EqualToExpression"

/-- Lookup in the memo dict of dtl/ir.py `map` (a Python dict keyed by
expression identity, modelled structurally; see the file header). -/
def memoLookup (memo : List (Expression × Expression)) (e : Expression) :
    Option Expression :=
  match memo with
  | [] => none
  | p :: rest => if p.1 = e then some p.2 else memoLookup rest e

/-- The result of transforming a child and the isinstance assert that the
source applies to it: the transformed shape must still be a shape
expression, a transformed array still an array expression. -/
def expectShape : Expression → Except PyErr ShapeExpression
  | .shape s => .ok s
  | .array _ => .error (.assertionError "expected ShapeExpression")

/-- Assert counterpart of `expectShape` for array children. -/
def expectArray : Expression → Except PyErr ArrayExpression
  | .array a => .ok a
  | .shape _ => .error (.assertionError "expected ArrayExpression")

mutual

/-- dtl/ir.py `map`'s inner `_transform`: look the node up in the memo
dict, and on a miss transform its children, apply `function`, and record
the result.  Mutually recursive with `transformChildrenApply` below,
which plays the role of `_transform_children`. -/
def transformGo (f : Expression → Expression) (e : Expression)
    (memo : List (Expression × Expression)) :
    Except PyErr (Expression × List (Expression × Expression)) :=
  match memoLookup memo e with
  | some v => .ok (v, memo)
  | none => do
    let (e2, memo2) ← transformChildrenApply f e memo
    let v := f e2
    .ok (v, (e, v) :: memo2)
  termination_by (sizeOf e, 1)

/-- dtl/ir.py `_transform_children` with the recursive `transform`
callback inlined as calls back into `transformGo`.  Registrations exist
only for Import (returns the expression untouched, recursing into no
child), Where, Pick, Index, JoinLeft, JoinRight and Add; each registered
variant transforms its `shape` child first and then its other children
in field order, asserting the kind of each transformed child; every
other variant (all three ShapeExpression variants, the five literals,
Range and Subtract/Multiply/Divide/EqualTo) falls through to the
singledispatch base, which raises NotImplementedError naming the class.
The source's object-identity fast path (`if shape is expr.shape and ...:
return expr`) returns a value structurally equal to the rebuilt node and
is therefore not distinguished here. -/
def transformChildrenApply (f : Expression → Expression) (e : Expression)
    (memo : List (Expression × Expression)) :
    Except PyErr (Expression × List (Expression × Expression)) :=
  match e with
  | .array (.importExpression d s loc nm) =>
    .ok (.array (.importExpression d s loc nm), memo)
  | .array (.whereExpression d s source mask) => do
    let (shapeT, memo1) ← transformGo f (.shape s) memo
    let shape2 ← expectShape shapeT
    let (sourceT, memo2) ← transformGo f (.array source) memo1
    let source2 ← expectArray sourceT
    let (maskT, memo3) ← transformGo f (.array mask) memo2
    let mask2 ← expectArray maskT
    .ok (.array (.whereExpression d shape2 source2 mask2), memo3)
  | .array (.pickExpression d s source indexes) => do
    let (shapeT, memo1) ← transformGo f (.shape s) memo
    let shape2 ← expectShape shapeT
    let (sourceT, memo2) ← transformGo f (.array source) memo1
    let source2 ← expectArray sourceT
    let (indexesT, memo3) ← transformGo f (.array indexes) memo2
    let indexes2 ← expectArray indexesT
    .ok (.array (.pickExpression d shape2 source2 indexes2), memo3)
  | .array (.indexExpression d s source) => do
    let (shapeT, memo1) ← transformGo f (.shape s) memo
    let shape2 ← expectShape shapeT
    let (sourceT, memo2) ← transformGo f (.array source) memo1
    let source2 ← expectArray sourceT
    .ok (.array (.indexExpression d shape2 source2), memo2)
  | .array (.joinLeftExpression d s a b) => do
    let (shapeT, memo1) ← transformGo f (.shape s) memo
    let shape2 ← expectShape shapeT
    let (aT, memo2) ← transformGo f (.shape a) memo1
    let a2 ← expectShape aT
    let (bT, memo3) ← transformGo f (.shape b) memo2
    let b2 ← expectShape bT
    .ok (.array (.joinLeftExpression d shape2 a2 b2), memo3)
  | .array (.joinRightExpression d s a b) => do
    let (shapeT, memo1) ← transformGo f (.shape s) memo
    let shape2 ← expectShape shapeT
    let (aT, memo2) ← transformGo f (.shape a) memo1
    let a2 ← expectShape aT
    let (bT, memo3) ← transformGo f (.shape b) memo2
    let b2 ← expectShape bT
    .ok (.array (.joinRightExpression d shape2 a2 b2), memo3)
  | .array (.addExpression d s a b) => do
    let (shapeT, memo1) ← transformGo f (.shape s) memo
    let shape2 ← expectShape shapeT
    let (aT, memo2) ← transformGo f (.array a) memo1
    let a2 ← expectArray aT
    let (bT, memo3) ← transformGo f (.array b) memo2
    let b2 ← expectArray bT
    .ok (.array (.addExpression d shape2 a2 b2), memo3)
  | .shape s =>
    .error (.notImplemented
      ("_transform_children not implemented for " ++ (Expression.shape s).className))
  | .array (.booleanLiteralExpression d s v) =>
    .error (.notImplemented ("_transform_children not implemented for "
      ++ (Expression.array (.booleanLiteralExpression d s v)).className))
  | .array (.integerLiteralExpression d s v) =>
    .error (.notImplemented ("_transform_children not implemented for "
      ++ (Expression.array (.integerLiteralExpression d s v)).className))
  | .array (.floatLiteralExpression d s v) =>
    .error (.notImplemented ("_transform_children not implemented for "
      ++ (Expression.array (.floatLiteralExpression d s v)).className))
  | .array (.textLiteralExpression d s v) =>
    .error (.notImplemented ("_transform_children not implemented for "
      ++ (Expression.array (.textLiteralExpression d s v)).className))
  | .array (.bytesLiteralExpression d s v) =>
    .error (.notImplemented ("_transform_children not implemented for "
      ++ (Expression.array (.bytesLiteralExpression d s v)).className))
  | .array (.rangeExpression d s) =>
    .error (.notImplemented ("_transform_children not implemented for "
      ++ (Expression.array (.rangeExpression d s)).className))
  | .array (.subtractExpression d s a b) =>
    .error (.notImplemented ("_transform_children not implemented for "
      ++ (Expression.array (.subtractExpression d s a b)).className))
  | .array (.multiplyExpression d s a b) =>
    .error (.notImplemented ("_transform_children not implemented for "
      ++ (Expression.array (.multiplyExpression d s a b)).className))
  | .array (.divideExpression d s a b) =>
    .error (.notImplemented ("_transform_children not implemented for "
      ++ (Expression.array (.divideExpression d s a b)).className))
  | .array (.equalToExpression d s a b) =>
    .error (.notImplemented ("_transform_children not implemented for "
      ++ (Expression.array (.equalToExpression d s a b)).className))
  termination_by (sizeOf e, 0)

end

/-- dtl/ir.py `map`, applied root by root with the shared memo dict. -/
def mapGo (f : Expression → Expression) :
    List Expression → List (Expression × Expression) →
    Except PyErr (List Expression)
  | [], _ => .ok []
  | r :: rs, memo => do
    let (v, memo1) ← transformGo f r memo
    let vs ← mapGo f rs memo1
    .ok (v :: vs)

/-- dtl/ir.py `map`: rebuild the DAG by applying `function` to each node
after its children have been rewritten, memoised per node. -/
def map (function : Expression → Expression) (roots : List Expression) :
    Except PyErr (List Expression) :=
  mapGo function roots []

/-- Is the expression an ImportExpression node?  Import is the only
variant whose `_transform_children` registration does not recurse into
any child. -/
def Expression.isImportExpression : Expression → Bool
  | .array (.importExpression _ _ _ _) => true
  | _ => false

/-- Memo-dict invariant during an identity `map` run over import-only
roots: every entry maps an ImportExpression key to itself. -/
def MemoImports (memo : List (Expression × Expression)) : Prop :=
  ∀ p ∈ memo, p.2 = p.1 ∧ p.1.isImportExpression = true

theorem memoLookup_mem {memo : List (Expression × Expression)}
    {e v : Expression} (h : memoLookup memo e = some v) : (e, v) ∈ memo := by
  induction memo with
  | nil => simp [memoLookup] at h
  | cons p rest ih =>
    rcases p with ⟨pk, pv⟩
    simp only [memoLookup] at h
    by_cases hpe : pk = e
    · subst hpe
      rw [if_pos rfl] at h
      cases h
      exact List.mem_cons_self _ _
    · rw [if_neg hpe] at h
      exact List.mem_cons_of_mem _ (ih h)

theorem memoLookup_memoImports_eq {memo : List (Expression × Expression)}
    {e v : Expression} (hinv : MemoImports memo)
    (h : memoLookup memo e = some v) : v = e := by
  have hm := memoLookup_mem h
  have := (hinv _ hm).1
  simpa using this

theorem memoLookup_shape_none {memo : List (Expression × Expression)}
    (hinv : MemoImports memo) (s : ShapeExpression) :
    memoLookup memo (.shape s) = none := by
  induction memo with
  | nil => rfl
  | cons p rest ih =>
    simp only [memoLookup]
    have h1 := hinv p (by simp)
    have hne : p.1 ≠ Expression.shape s := by
      intro hcontra
      rw [hcontra] at h1
      simp [Expression.isImportExpression] at h1
    simp [hne]
    exact ih fun q hq => hinv q (by simp [hq])

theorem transformGo_import {d : DType} {s : ShapeExpression}
    {loc nm : String} {memo : List (Expression × Expression)}
    (hinv : MemoImports memo) :
    ∃ memo2, transformGo id (.array (.importExpression d s loc nm)) memo
        = .ok (.array (.importExpression d s loc nm), memo2)
      ∧ MemoImports memo2 := by
  rw [transformGo]
  cases hlk : memoLookup memo (.array (.importExpression d s loc nm)) with
  | some v =>
    have hv := memoLookup_memoImports_eq hinv hlk
    subst hv
    exact ⟨memo, rfl, hinv⟩
  | none =>
    rw [transformChildrenApply]
    refine ⟨_, rfl, ?_⟩
    intro p hp
    rcases List.mem_cons.mp hp with hp1 | hp2
    · subst hp1
      exact ⟨rfl, rfl⟩
    · exact hinv p hp2

theorem transformGo_nonimport {e : Expression}
    {memo : List (Expression × Expression)} (hinv : MemoImports memo)
    (hne : e.isImportExpression = false) :
    ∃ msg, transformGo id e memo = .error (.notImplemented msg) := by
  have hshape : ∀ s, ∃ m, transformGo id (Expression.shape s) memo
      = Except.error (PyErr.notImplemented m) := by
    intro s
    refine ⟨"_transform_children not implemented for "
      ++ (Expression.shape s).className, ?_⟩
    rw [transformGo, memoLookup_shape_none hinv, transformChildrenApply]
    rfl
  have hmiss : ∀ a, memoLookup memo (Expression.array a) = none ∨
      (Expression.array a).isImportExpression = true := by
    intro a
    cases hlk : memoLookup memo (Expression.array a) with
    | none => exact Or.inl rfl
    | some w => exact Or.inr ((hinv _ (memoLookup_mem hlk)).2)
  cases e with
  | shape s => exact hshape s
  | array a =>
    rcases hmiss a with hlk | himp
    case inr => rw [himp] at hne; cases hne
    cases a with
    | importExpression d s loc nm =>
      simp [Expression.isImportExpression] at hne
    | whereExpression d s source mask =>
      rcases hshape s with ⟨m, hm⟩
      refine ⟨m, ?_⟩
      rw [transformGo, hlk, transformChildrenApply, hm]
      rfl
    | pickExpression d s source indexes =>
      rcases hshape s with ⟨m, hm⟩
      refine ⟨m, ?_⟩
      rw [transformGo, hlk, transformChildrenApply, hm]
      rfl
    | indexExpression d s source =>
      rcases hshape s with ⟨m, hm⟩
      refine ⟨m, ?_⟩
      rw [transformGo, hlk, transformChildrenApply, hm]
      rfl
    | joinLeftExpression d s a b =>
      rcases hshape s with ⟨m, hm⟩
      refine ⟨m, ?_⟩
      rw [transformGo, hlk, transformChildrenApply, hm]
      rfl
    | joinRightExpression d s a b =>
      rcases hshape s with ⟨m, hm⟩
      refine ⟨m, ?_⟩
      rw [transformGo, hlk, transformChildrenApply, hm]
      rfl
    | addExpression d s a b =>
      rcases hshape s with ⟨m, hm⟩
      refine ⟨m, ?_⟩
      rw [transformGo, hlk, transformChildrenApply, hm]
      rfl
    | booleanLiteralExpression d s v =>
      exact ⟨_, by rw [transformGo, hlk, transformChildrenApply]; rfl⟩
    | integerLiteralExpression d s v =>
      exact ⟨_, by rw [transformGo, hlk, transformChildrenApply]; rfl⟩
    | floatLiteralExpression d s v =>
      exact ⟨_, by rw [transformGo, hlk, transformChildrenApply]; rfl⟩
    | textLiteralExpression d s v =>
      exact ⟨_, by rw [transformGo, hlk, transformChildrenApply]; rfl⟩
    | bytesLiteralExpression d s v =>
      exact ⟨_, by rw [transformGo, hlk, transformChildrenApply]; rfl⟩
    | rangeExpression d s =>
      exact ⟨_, by rw [transformGo, hlk, transformChildrenApply]; rfl⟩
    | subtractExpression d s a b =>
      exact ⟨_, by rw [transformGo, hlk, transformChildrenApply]; rfl⟩
    | multiplyExpression d s a b =>
      exact ⟨_, by rw [transformGo, hlk, transformChildrenApply]; rfl⟩
    | divideExpression d s a b =>
      exact ⟨_, by rw [transformGo, hlk, transformChildrenApply]; rfl⟩
    | equalToExpression d s a b =>
      exact ⟨_, by rw [transformGo, hlk, transformChildrenApply]; rfl⟩

theorem transformGo_miss {f : Expression → Expression} {e : Expression}
    {memo : List (Expression × Expression)}
    (h : memoLookup memo e = none) :
    transformGo f e memo = (transformChildrenApply f e memo) >>= fun p =>
      .ok (f p.1, (e, f p.1) :: p.2) := by
  rw [transformGo, h]

theorem mapGo_imports_ok {roots : List Expression}
    {memo : List (Expression × Expression)} (hinv : MemoImports memo)
    (himp : ∀ r ∈ roots, r.isImportExpression = true) :
    mapGo id roots memo = .ok roots := by
  induction roots generalizing memo with
  | nil => rfl
  | cons r rs ih =>
    have hr := himp r (by simp)
    cases r with
    | shape s => simp [Expression.isImportExpression] at hr
    | array a =>
      cases a with
      | importExpression d s loc nm =>
        rcases transformGo_import hinv with ⟨memo2, heq, hinv2⟩
        rw [mapGo, heq]
        simp only [Except_ok_bind]
        rw [ih hinv2 (fun q hq => himp q (by simp [hq]))]
        rfl
      | booleanLiteralExpression d s v => simp [Expression.isImportExpression] at hr
      | integerLiteralExpression d s v => simp [Expression.isImportExpression] at hr
      | floatLiteralExpression d s v => simp [Expression.isImportExpression] at hr
      | textLiteralExpression d s v => simp [Expression.isImportExpression] at hr
      | bytesLiteralExpression d s v => simp [Expression.isImportExpression] at hr
      | whereExpression d s source mask => simp [Expression.isImportExpression] at hr
      | pickExpression d s source indexes => simp [Expression.isImportExpression] at hr
      | indexExpression d s source => simp [Expression.isImportExpression] at hr
      | rangeExpression d s => simp [Expression.isImportExpression] at hr
      | joinLeftExpression d s a b => simp [Expression.isImportExpression] at hr
      | joinRightExpression d s a b => simp [Expression.isImportExpression] at hr
      | addExpression d s a b => simp [Expression.isImportExpression] at hr
      | subtractExpression d s a b => simp [Expression.isImportExpression] at hr
      | multiplyExpression d s a b => simp [Expression.isImportExpression] at hr
      | divideExpression d s a b => simp [Expression.isImportExpression] at hr
      | equalToExpression d s a b => simp [Expression.isImportExpression] at hr

theorem mapGo_ok_imports {roots vs : List Expression}
    {memo : List (Expression × Expression)} (hinv : MemoImports memo)
    (hok : mapGo id roots memo = .ok vs) :
    ∀ r ∈ roots, r.isImportExpression = true := by
  induction roots generalizing memo vs with
  | nil => intro r hr; simp at hr
  | cons r rs ih =>
    intro q hq
    by_cases hr : r.isImportExpression = true
    · rcases List.mem_cons.mp hq with hq1 | hq2
      · rw [hq1]; exact hr
      · cases r with
        | shape s => simp [Expression.isImportExpression] at hr
        | array a =>
          cases a with
          | importExpression d s loc nm =>
            rcases transformGo_import hinv with ⟨memo2, heq, hinv2⟩
            rw [mapGo, heq] at hok
            simp only [Except_ok_bind] at hok
            cases hvs : mapGo id rs memo2 with
            | error e => rw [hvs, Except_error_bind] at hok; cases hok
            | ok ws => exact ih hinv2 hvs q hq2
          | booleanLiteralExpression d s v => simp [Expression.isImportExpression] at hr
          | integerLiteralExpression d s v => simp [Expression.isImportExpression] at hr
          | floatLiteralExpression d s v => simp [Expression.isImportExpression] at hr
          | textLiteralExpression d s v => simp [Expression.isImportExpression] at hr
          | bytesLiteralExpression d s v => simp [Expression.isImportExpression] at hr
          | whereExpression d s source mask => simp [Expression.isImportExpression] at hr
          | pickExpression d s source indexes => simp [Expression.isImportExpression] at hr
          | indexExpression d s source => simp [Expression.isImportExpression] at hr
          | rangeExpression d s => simp [Expression.isImportExpression] at hr
          | joinLeftExpression d s a b => simp [Expression.isImportExpression] at hr
          | joinRightExpression d s a b => simp [Expression.isImportExpression] at hr
          | addExpression d s a b => simp [Expression.isImportExpression] at hr
          | subtractExpression d s a b => simp [Expression.isImportExpression] at hr
          | multiplyExpression d s a b => simp [Expression.isImportExpression] at hr
          | divideExpression d s a b => simp [Expression.isImportExpression] at hr
          | equalToExpression d s a b => simp [Expression.isImportExpression] at hr
    · exfalso
      have hrf : r.isImportExpression = false := by
        cases hb : r.isImportExpression
        · rfl
        · exact absurd hb hr
      rcases transformGo_nonimport hinv hrf with ⟨msg, hmsg⟩
      rw [mapGo, hmsg, Except_error_bind] at hok
      cases hok

/-- C9 counterexample: `map` with the identity function does not succeed
on every DAG built from the IR's expression variants: on a root that is a
Subtract node it raises NotImplementedError (no `_transform_children`
registration exists for SubtractExpression). -/
theorem C9_map_counterexample :
    map id [.array (.subtractExpression .INT64 (.importShapeExpression "t")
        (.integerLiteralExpression .INT64 (.importShapeExpression "t") 1)
        (.integerLiteralExpression .INT64 (.importShapeExpression "t") 2))]
      = .error (.notImplemented
          "_transform_children not implemented for SubtractExpression") := by
  show mapGo id [.array (.subtractExpression .INT64 (.importShapeExpression "t")
      (.integerLiteralExpression .INT64 (.importShapeExpression "t") 1)
      (.integerLiteralExpression .INT64 (.importShapeExpression "t") 2))] [] = _
  have hm : memoLookup []
      (.array (.subtractExpression .INT64 (.importShapeExpression "t")
        (.integerLiteralExpression .INT64 (.importShapeExpression "t") 1)
        (.integerLiteralExpression .INT64 (.importShapeExpression "t") 2))) = none := rfl
  rw [mapGo, transformGo_miss hm, transformChildrenApply]
  rfl

/-- C9 (amended): `map` rewrites a DAG bottom-up with memoisation, but
its child-rewriting helper `_transform_children` is registered only for
Import, Where, Pick, Index, JoinLeft, JoinRight and Add, and rewriting
any of those variants begins by rewriting its shape child, for which no
shape variant has a registration.  Consequently `map` with the identity
function succeeds, returning the original roots, exactly when every root
is an ImportExpression (whose registration touches no child); any other
root variant makes it raise NotImplementedError. -/
theorem C9_map_amended (roots : List Expression) :
    map id roots = .ok roots ↔ ∀ r ∈ roots, r.isImportExpression = true := by
  constructor
  · intro h
    exact mapGo_ok_imports (fun p hp => by simp at hp) h
  · intro h
    exact mapGo_imports_ok (fun p hp => by simp at hp) h

section Traverse

variable {V : Type}

/-- One step state of dtl/ir.py `traverse_depth_first`, written as a fuel
indexed recursion that mirrors the source's while loops exactly.  The
Python work list is a stack of frames; each frame is read and popped from
its end, so a Python frame is stored here reversed, with its head playing
the role of the Python `stack[-1][-1]`.  The branches are:
  - `stack == []`: the outer `while stack:` loop exits (the generator is
    exhausted), and the yields accumulated in `acc` (stored most recent
    first) are returned;
  - top frame nonempty: the inner expansion loop pushes the dependency
    list of the frame's last element, filtered by the visited set;
  - top frame empty: the consume loop pops it; if the stack is then empty
    the generator is exhausted; otherwise it pops the last element of the
    new top frame, yields it unless already visited, and marks it
    visited.  Popping from an empty frame would be a Python IndexError,
    modelled as `none` (it is proved unreachable below); running out of
    fuel, a pure modelling device for the source's unbounded loop, is
    also `none`. -/
def traverseGo [DecidableEq V] (deps : V → List V) :
    Nat → List (List V) → List V → List V → Option (List V)
  | 0, _, _, _ => none
  | fuel + 1, stack, visited, acc =>
    match stack with
    | [] => some acc.reverse
    | frame :: rest =>
      match frame with
      | next :: _ =>
        traverseGo deps fuel
          (((deps next).filter (fun d => decide (d ∉ visited))).reverse
            :: frame :: rest)
          visited acc
      | [] =>
        match rest with
        | [] => some acc.reverse
        | frame2 :: rest2 =>
          match frame2 with
          | [] => none
          | next :: frame2tail =>
            traverseGo deps fuel (frame2tail :: rest2) (next :: visited)
              (if next ∈ visited then acc else next :: acc)

/-- dtl/ir.py `traverse_depth_first`, over an arbitrary node type with a
dependency function (instantiated with `DTL.dependencies` for the IR).
The initial stack is `[list(roots)]`, reversed per the frame encoding. -/
def traverse_depth_first [DecidableEq V] (deps : V → List V) (fuel : Nat)
    (roots : List V) : Option (List V) :=
  traverseGo deps fuel [roots.reverse] [] []

/-- Reachability from the root list along the dependency function. -/
inductive Reach (deps : V → List V) (roots : List V) : V → Prop where
  | root {x : V} : x ∈ roots → Reach deps roots x
  | step {x y : V} : Reach deps roots x → y ∈ deps x → Reach deps roots y

/-- Invariant linking adjacent stack frames: every frame below the top is
nonempty, and the dependencies of its head (the Python `stack[-1][-1]`
whose dependency frame sits directly above) are either already visited or
still present in the frame above. -/
def FrameChain (deps : V → List V) (visited : List V) :
    List (List V) → Prop
  | [] => True
  | [_] => True
  | f0 :: f1 :: rest =>
    (∃ x t, f1 = x :: t ∧ ∀ d ∈ deps x, d ∈ visited ∨ d ∈ f0)
      ∧ FrameChain deps visited (f1 :: rest)

theorem frameChain_mono {deps : V → List V} {vis vis2 : List V}
    {stack : List (List V)} (h : FrameChain deps vis stack)
    (hsub : ∀ x ∈ vis, x ∈ vis2) : FrameChain deps vis2 stack := by
  induction stack with
  | nil => trivial
  | cons f rest ih =>
    cases rest with
    | nil => trivial
    | cons f1 rest2 =>
      rcases h with ⟨⟨x, t, hft, hcov⟩, hchain⟩
      exact ⟨⟨x, t, hft, fun d hd => (hcov d hd).imp (hsub d) id⟩, ih hchain⟩

theorem traverseGo_spec [DecidableEq V] (deps : V → List V) (roots : List V) :
    ∀ (fuel : Nat) (stack : List (List V)) (visited acc out : List V),
    traverseGo deps fuel stack visited acc = some out →
    acc.Nodup →
    (∀ x ∈ acc, x ∈ visited) →
    (∀ x ∈ visited, x ∈ acc) →
    (∀ x ∈ visited, ∀ d ∈ deps x, d ∈ visited) →
    (∀ pre x suf, acc = pre ++ x :: suf → ∀ d ∈ deps x, d ∈ suf) →
    FrameChain deps visited stack →
    (∀ f ∈ stack, ∀ x ∈ f, Reach deps roots x) →
    (∀ x ∈ visited, Reach deps roots x) →
    (out.Nodup
      ∧ (∀ x ∈ out, ∀ d ∈ deps x, d ∈ out)
      ∧ (∀ pre x suf, out = pre ++ x :: suf → ∀ d ∈ deps x, d ∈ pre)
      ∧ (∀ x ∈ visited, x ∈ out)
      ∧ (∀ f ∈ stack, ∀ x ∈ f, x ∈ out)
      ∧ (∀ x ∈ out, Reach deps roots x)) := by
  intro fuel
  induction fuel with
  | zero =>
    intro stack visited acc out hsome
    simp [traverseGo] at hsome
  | succ fuel ih =>
    intro stack visited acc out hsome hAccNd hAccVis hVisAcc hVisDeps hOrd
      hChain hFReach hVReach
    have terminal : out = acc.reverse →
        (∀ f ∈ stack, ∀ x ∈ f, x ∈ out) →
        (out.Nodup
          ∧ (∀ x ∈ out, ∀ d ∈ deps x, d ∈ out)
          ∧ (∀ pre x suf, out = pre ++ x :: suf → ∀ d ∈ deps x, d ∈ pre)
          ∧ (∀ x ∈ visited, x ∈ out)
          ∧ (∀ f ∈ stack, ∀ x ∈ f, x ∈ out)
          ∧ (∀ x ∈ out, Reach deps roots x)) := by
      intro hout hstk
      subst hout
      have hmemacc : ∀ x : V, x ∈ acc.reverse ↔ x ∈ acc := by
        intro x; exact List.mem_reverse
      refine ⟨List.nodup_reverse.mpr hAccNd, ?_, ?_, ?_, hstk, ?_⟩
      · intro x hx d hd
        exact (hmemacc d).mpr
          (hVisAcc d (hVisDeps x (hAccVis x ((hmemacc x).mp hx)) d hd))
      · intro pre x suf hsplit d hd
        have hacc : acc = suf.reverse ++ x :: pre.reverse := by
          have h2 : acc = (pre ++ x :: suf).reverse := by
            rw [← hsplit, List.reverse_reverse]
          simpa [List.reverse_append] using h2
        have := hOrd suf.reverse x pre.reverse hacc d hd
        exact List.mem_reverse.mp this
      · intro x hx
        exact (hmemacc x).mpr (hVisAcc x hx)
      · intro x hx
        exact hVReach x (hAccVis x ((hmemacc x).mp hx))
    cases stack with
    | nil =>
      simp only [traverseGo, Option.some.injEq] at hsome
      exact terminal hsome.symm (by intro f hf; simp at hf)
    | cons frame rest =>
      cases frame with
      | cons next ftail =>
        simp only [traverseGo] at hsome
        have hnreach : Reach deps roots next :=
          hFReach (next :: ftail) (by simp) next (by simp)
        have := ih _ visited acc out hsome hAccNd hAccVis hVisAcc hVisDeps hOrd
          (by
            refine ⟨⟨next, ftail, rfl, ?_⟩, hChain⟩
            intro d hd
            by_cases hdv : d ∈ visited
            · exact Or.inl hdv
            · refine Or.inr ?_
              rw [List.mem_reverse, List.mem_filter]
              exact ⟨hd, by simpa using hdv⟩)
          (by
            intro f hf z hz
            rcases List.mem_cons.mp hf with hf1 | hf2
            · subst hf1
              rw [List.mem_reverse, List.mem_filter] at hz
              exact Reach.step hnreach hz.1
            · exact hFReach f hf2 z hz)
          hVReach
        refine ⟨this.1, this.2.1, this.2.2.1, this.2.2.2.1, ?_,
          this.2.2.2.2.2⟩
        intro f hf z hz
        exact this.2.2.2.2.1 f (by simp [hf]) z hz
      | nil =>
        cases rest with
        | nil =>
          simp only [traverseGo, Option.some.injEq] at hsome
          exact terminal hsome.symm
            (by intro f hf x hx; simp at hf; subst hf; simp at hx)
        | cons frame2 rest2 =>
          cases frame2 with
          | nil =>
            rcases hChain with ⟨⟨x, t, hft, _⟩, _⟩
            cases hft
          | cons next f2t =>
            simp only [traverseGo] at hsome
            have hchain2 : FrameChain deps visited ((next :: f2t) :: rest2) :=
              hChain.2
            have hdepsvis : ∀ d ∈ deps next, d ∈ visited := by
              rcases hChain with ⟨⟨x, t, hft, hcov⟩, -⟩
              injection hft with hx0 ht0
              subst hx0
              intro d hd
              rcases hcov d hd with h | h
              · exact h
              · simp at h
            have hnreach : Reach deps roots next :=
              hFReach (next :: f2t) (by simp) next (by simp)
            have haccsub : ∀ y ∈ acc, y ∈ (if next ∈ visited then acc
                else next :: acc) := by
              intro y hy
              by_cases hnv : next ∈ visited
              · simpa [hnv] using hy
              · simp [hnv, hy]
            have hnextacc : next ∈ (if next ∈ visited then acc
                else next :: acc) := by
              by_cases hnv : next ∈ visited
              · simpa [hnv] using hVisAcc next hnv
              · simp [hnv]
            have := ih _ (next :: visited) _ out hsome
              (by
                by_cases hnv : next ∈ visited
                · simpa [hnv] using hAccNd
                · have hna : next ∉ acc := fun hc => hnv (hAccVis next hc)
                  simpa [hnv, List.nodup_cons, hna] using hAccNd)
              (by
                intro y hy
                by_cases hnv : next ∈ visited
                · rw [if_pos hnv] at hy
                  exact List.mem_cons_of_mem _ (hAccVis y hy)
                · rw [if_neg hnv] at hy
                  rcases List.mem_cons.mp hy with h | h
                  · subst h; simp
                  · exact List.mem_cons_of_mem _ (hAccVis y h))
              (by
                intro y hy
                rcases List.mem_cons.mp hy with h | h
                · subst h; exact hnextacc
                · exact haccsub y (hVisAcc y h))
              (by
                intro y hy d hd
                rcases List.mem_cons.mp hy with h | h
                · subst h
                  exact List.mem_cons_of_mem _ (hdepsvis d hd)
                · exact List.mem_cons_of_mem _ (hVisDeps y h d hd))
              (by
                intro pre y suf hsplit d hd
                by_cases hnv : next ∈ visited
                · rw [if_pos hnv] at hsplit
                  exact hOrd pre y suf hsplit d hd
                · rw [if_neg hnv] at hsplit
                  cases pre with
                  | nil =>
                    injection hsplit with hy0 hs0
                    subst hy0
                    subst hs0
                    exact hVisAcc d (hdepsvis d hd)
                  | cons p0 pre2 =>
                    injection hsplit with hp0 hrest
                    exact hOrd pre2 y suf hrest d hd)
              (by
                cases rest2 with
                | nil => trivial
                | cons f3 rest3 =>
                  rcases hchain2 with ⟨⟨y, ty, hf3, hcovy⟩, hchain3⟩
                  refine ⟨⟨y, ty, hf3, ?_⟩,
                    frameChain_mono hchain3
                      (fun z hz => List.mem_cons_of_mem _ hz)⟩
                  intro d hd
                  rcases hcovy d hd with h | h
                  · exact Or.inl (List.mem_cons_of_mem _ h)
                  · rcases List.mem_cons.mp h with h1 | h2
                    · exact Or.inl (by simp [h1])
                    · exact Or.inr h2)
              (by
                intro g hg z hz
                rcases List.mem_cons.mp hg with hg1 | hg2
                · exact hFReach (next :: f2t)
                    (List.mem_cons_of_mem _ (List.mem_cons_self _ _)) z
                    (by rw [hg1] at hz; exact List.mem_cons_of_mem _ hz)
                · exact hFReach g
                    (List.mem_cons_of_mem _ (List.mem_cons_of_mem _ hg2)) z hz)
              (by
                intro z hz
                rcases List.mem_cons.mp hz with h | h
                · subst h; exact hnreach
                · exact hVReach z h)
            refine ⟨this.1, this.2.1, this.2.2.1, ?_, ?_, this.2.2.2.2.2⟩
            · intro z hz
              exact this.2.2.2.1 z (List.mem_cons_of_mem _ hz)
            · intro f hf z hz
              rcases List.mem_cons.mp hf with hf1 | hf2
              · rw [hf1] at hz; simp at hz
              · rcases List.mem_cons.mp hf2 with hf3 | hf4
                · rw [hf3] at hz
                  rcases List.mem_cons.mp hz with hz1 | hz2
                  · rw [hz1]
                    exact this.2.2.2.1 next (by simp)
                  · exact this.2.2.2.2.1 f2t (by simp) z hz2
                · exact this.2.2.2.2.1 f (by simp [hf4]) z hz

/-- Cost of visiting a node, computed with a fuel argument so that the
definition is structural; with fuel at least the node's rank (under a
rank function that strictly decreases along dependencies) the value is
fuel independent. -/
def costFuel (deps : V → List V) : Nat → V → Nat
  | 0, _ => 2
  | n + 1, x => 2 + ((deps x).map (costFuel deps n)).sum

theorem costFuel_stable {deps : V → List V} {rank : V → Nat}
    (hrank : ∀ x, ∀ d ∈ deps x, rank d < rank x) :
    ∀ (r : Nat) (x : V), rank x ≤ r → ∀ n m, rank x ≤ n → rank x ≤ m →
      costFuel deps n x = costFuel deps m x := by
  intro r
  induction r with
  | zero =>
    intro x hx n m hn hm
    have hdeps : deps x = [] := by
      cases hd : deps x with
      | nil => rfl
      | cons d rest =>
        have := hrank x d (by rw [hd]; simp)
        omega
    cases n with
    | zero =>
      cases m with
      | zero => rfl
      | succ m1 => simp [costFuel, hdeps]
    | succ n1 =>
      cases m with
      | zero => simp [costFuel, hdeps]
      | succ m1 => simp [costFuel, hdeps]
  | succ r ihr =>
    intro x hx n m hn hm
    by_cases hx0 : rank x = 0
    · have hdeps : deps x = [] := by
        cases hd : deps x with
        | nil => rfl
        | cons d rest =>
          have := hrank x d (by rw [hd]; simp)
          omega
      cases n with
      | zero =>
        cases m with
        | zero => rfl
        | succ m1 => simp [costFuel, hdeps]
      | succ n1 =>
        cases m with
        | zero => simp [costFuel, hdeps]
        | succ m1 => simp [costFuel, hdeps]
    · cases n with
      | zero => omega
      | succ n1 =>
        cases m with
        | zero => omega
        | succ m1 =>
          simp only [costFuel]
          congr 1
          apply congrArg
          apply List.map_congr_left
          intro d hd
          have hdr : rank d < rank x := hrank x d hd
          exact ihr d (by omega) n1 m1 (by omega) (by omega)

/-- Cost of visiting a node: two steps for the node itself (one expansion
and one consume per placement) plus the cost of its dependencies. -/
def cost (deps : V → List V) (rank : V → Nat) (x : V) : Nat :=
  costFuel deps (rank x) x

theorem cost_eq {deps : V → List V} {rank : V → Nat}
    (hrank : ∀ x, ∀ d ∈ deps x, rank d < rank x) (x : V) :
    cost deps rank x = 2 + ((deps x).map (cost deps rank)).sum := by
  unfold cost
  cases hr : rank x with
  | zero =>
    have hdeps : deps x = [] := by
      cases hd : deps x with
      | nil => rfl
      | cons d rest =>
        have := hrank x d (by rw [hd]; simp)
        omega
    simp [costFuel, hdeps]
  | succ k =>
    simp only [costFuel]
    congr 1
    apply congrArg
    apply List.map_congr_left
    intro d hd
    have hdr : rank d < rank x := hrank x d hd
    exact costFuel_stable hrank k d (by omega) k (rank d) (by omega)
      (by omega)

/-- Potential of the traversal state: the cost of every element of the
top frame, plus, for every frame below the top, one unit for the pending
consume of its head (whose expansion has already been paid for) and the
cost of its remaining elements. -/
def Phi (c : V → Nat) : List (List V) → Nat
  | [] => 0
  | f :: rest =>
    (f.map c).sum + (rest.map (fun g => 1 + (g.tail.map c).sum)).sum

/-- Every frame strictly below the top of the stack is nonempty. -/
def NonemptyBelow : List (List V) → Prop
  | [] => True
  | _ :: rest => ∀ g ∈ rest, g ≠ []

theorem sum_map_filter_le (c : V → Nat) (p : V → Bool) (l : List V) :
    (((l.filter p).map c).sum) ≤ ((l.map c).sum) := by
  induction l with
  | nil => simp
  | cons x rest ih =>
    by_cases hp : p x
    · simp only [List.filter_cons, hp, if_pos]
      simp only [List.map_cons, List.sum_cons]
      omega
    · simp only [List.filter_cons]
      rw [if_neg (by simpa using hp)]
      simp only [List.map_cons, List.sum_cons]
      omega

theorem traverseGo_total [DecidableEq V] {deps : V → List V}
    {rank : V → Nat} (hrank : ∀ x, ∀ d ∈ deps x, rank d < rank x) :
    ∀ (fuel : Nat) (stack : List (List V)) (visited acc : List V),
    NonemptyBelow stack →
    Phi (cost deps rank) stack < fuel →
    ∃ out, traverseGo deps fuel stack visited acc = some out := by
  intro fuel
  induction fuel with
  | zero =>
    intro stack visited acc hne hphi
    omega
  | succ fuel ih =>
    intro stack visited acc hne hphi
    cases stack with
    | nil => exact ⟨acc.reverse, by simp [traverseGo]⟩
    | cons frame rest =>
      cases frame with
      | cons next ftail =>
        have hcost := cost_eq hrank next
        have hfilter : ((((deps next).filter
              (fun d => decide (d ∉ visited))).reverse.map
                (cost deps rank)).sum)
            ≤ (((deps next).map (cost deps rank)).sum) := by
          rw [List.map_reverse, List.sum_reverse]
          exact sum_map_filter_le _ _ _
        have hphi2 : Phi (cost deps rank)
            ((((deps next).filter (fun d => decide (d ∉ visited))).reverse)
              :: (next :: ftail) :: rest) < fuel := by
          simp only [Phi, List.map_cons, List.sum_cons, List.tail_cons]
            at hphi ⊢
          omega
        have hne2 : NonemptyBelow
            ((((deps next).filter (fun d => decide (d ∉ visited))).reverse)
              :: (next :: ftail) :: rest) := by
          intro g hg
          rcases List.mem_cons.mp hg with h | h
          · rw [h]; simp
          · exact hne g h
        rcases ih _ visited acc hne2 hphi2 with ⟨out, hout⟩
        exact ⟨out, by simp only [traverseGo]; exact hout⟩
      | nil =>
        cases rest with
        | nil => exact ⟨acc.reverse, by simp [traverseGo]⟩
        | cons frame2 rest2 =>
          have hf2 : frame2 ≠ [] := hne frame2 (by simp)
          cases frame2 with
          | nil => exact absurd rfl hf2
          | cons next f2t =>
            have hphi2 : Phi (cost deps rank) (f2t :: rest2) < fuel := by
              simp only [Phi, List.map_cons, List.sum_cons, List.tail_cons,
                List.map_nil, List.sum_nil] at hphi ⊢
              omega
            have hne2 : NonemptyBelow (f2t :: rest2) := by
              intro g hg
              exact hne g (by simp [hg])
            rcases ih (f2t :: rest2) (next :: visited)
              (if next ∈ visited then acc else next :: acc) hne2 hphi2
              with ⟨out, hout⟩
            exact ⟨out, by simp only [traverseGo]; exact hout⟩

end Traverse
/-- Example dependency function on Nat used to witness the traversal
theorem at a concrete input. -/
def exDeps (x : Nat) : List Nat :=
  if x = 2 then [1, 0] else if x = 1 then [0] else []

/-- C2: for every finite acyclic dependency graph (presented by a rank
function that strictly decreases along dependencies, which exists exactly
when the graph is acyclic) and every list of roots,
`traverse_depth_first` completes (for sufficient fuel, which models the
source's unbounded while loop), and every completed run yields a list
that contains every expression reachable from the roots exactly once (no
repeats and no omissions) and in which every node appears strictly after
all of its dependencies. -/
theorem C2_traverse_depth_first_correct {V : Type} [DecidableEq V]
    (deps : V → List V) (rank : V → Nat) (roots : List V)
    (hrank : ∀ x, ∀ d ∈ deps x, rank d < rank x) :
    (∀ fuel out, traverse_depth_first deps fuel roots = some out →
      (out.Nodup
        ∧ (∀ x, x ∈ out ↔ Reach deps roots x)
        ∧ ∀ pre x suf, out = pre ++ x :: suf → ∀ d ∈ deps x, d ∈ pre))
    ∧ (∃ fuel out, traverse_depth_first deps fuel roots = some out) := by
  constructor
  · intro fuel out hsome
    have master := traverseGo_spec deps roots fuel [roots.reverse] [] [] out
      hsome (by simp) (by simp) (by simp) (by simp) (by simp)
      (by trivial)
      (by
        intro f hf x hx
        simp only [List.mem_singleton] at hf
        subst hf
        exact Reach.root (List.mem_reverse.mp hx))
      (by simp)
    refine ⟨master.1, ?_, master.2.2.1⟩
    intro x
    constructor
    · exact master.2.2.2.2.2 x
    · intro hr
      induction hr with
      | root h =>
        exact master.2.2.2.2.1 roots.reverse (by simp) _
          (List.mem_reverse.mpr h)
      | step hx hd ih => exact master.2.1 _ ih _ hd
  · refine ⟨Phi (cost deps rank) [roots.reverse] + 1, ?_⟩
    exact traverseGo_total hrank _ [roots.reverse] [] []
      (by intro g hg; simp at hg) (by omega)

/-- C2 witness: the traversal theorem applied to a concrete three node
graph, together with a concrete evaluation of the traversal itself. -/
theorem C2_traverse_depth_first_witness :
    (∀ x, ∀ d ∈ exDeps x, d < x)
    ∧ ((∀ fuel out, traverse_depth_first exDeps fuel [2] = some out →
          (out.Nodup
            ∧ (∀ x, x ∈ out ↔ Reach exDeps [2] x)
            ∧ ∀ pre x suf, out = pre ++ x :: suf → ∀ d ∈ exDeps x, d ∈ pre))
        ∧ (∃ fuel out, traverse_depth_first exDeps fuel [2] = some out))
    ∧ traverse_depth_first exDeps 32 [2] = some [0, 1, 2] := by
  have hrank : ∀ x, ∀ d ∈ exDeps x, d < x := by
    intro x d hd
    by_cases h2 : x = 2
    · subst h2
      simp [exDeps] at hd
      omega
    · by_cases h1 : x = 1
      · subst h1
        simp [exDeps] at hd
        omega
      · simp [exDeps, h2, h1] at hd
  exact ⟨hrank, C2_traverse_depth_first_correct exDeps (fun x => x) [2] hrank,
    by decide⟩

/-- dtl/mappings.py Mapping and its four subclasses. -/
inductive Mapping where
  | identityMapping (src tgt : ArrayExpression)
  | manyToOneMapping (src tgt tgt_index : ArrayExpression)
  | oneToManyMapping (src tgt src_index : ArrayExpression)
  | manyToManyMapping (src tgt src_index tgt_index : ArrayExpression)
  deriving DecidableEq, Repr

/-- The `src` field of the Python Mapping base class. -/
def Mapping.src : Mapping → ArrayExpression
  | .identityMapping s _ => s
  | .manyToOneMapping s _ _ => s
  | .oneToManyMapping s _ _ => s
  | .manyToManyMapping s _ _ _ => s

/-- The `tgt` field of the Python Mapping base class. -/
def Mapping.tgt : Mapping → ArrayExpression
  | .identityMapping _ t => t
  | .manyToOneMapping _ t _ => t
  | .oneToManyMapping _ t _ => t
  | .manyToManyMapping _ t _ _ => t

/-- dtl/mappings.py `_mappings_for_expression`: the candidate mappings a
single node contributes, per singledispatch registration.  Shape
expressions, literals, Import, JoinLeft and JoinRight yield nothing;
Where yields two ManyToMany mappings (mask to output and source to
output) sharing a masked Range source index and a Range target index;
Pick yields an Identity from its index array and a ManyToMany from its
source; Index yields an Identity from its source; the five binary
operations yield an Identity from each operand.  RangeExpression has no
registration in the visible source (such nodes are only created by this
module itself and never traversed), so it falls to the singledispatch
base, which raises a bare NotImplementedError. -/
def mappingsForExpression : Expression → Except PyErr (List Mapping)
  | .shape _ => .ok []
  | .array (.booleanLiteralExpression _ _ _) => .ok []
  | .array (.integerLiteralExpression _ _ _) => .ok []
  | .array (.floatLiteralExpression _ _ _) => .ok []
  | .array (.textLiteralExpression _ _ _) => .ok []
  | .array (.bytesLiteralExpression _ _ _) => .ok []
  | .array (.importExpression _ _ _ _) => .ok []
  | .array (.whereExpression d s source mask) =>
    let full_src_index := ArrayExpression.rangeExpression .INDEX mask.shape
    let masked_src_index :=
      ArrayExpression.whereExpression .INDEX s full_src_index mask
    let tgt_index := ArrayExpression.rangeExpression .INDEX s
    .ok [.manyToManyMapping mask (.whereExpression d s source mask)
           masked_src_index tgt_index,
         .manyToManyMapping source (.whereExpression d s source mask)
           masked_src_index tgt_index]
  | .array (.pickExpression d s source indexes) =>
    .ok [.identityMapping indexes (.pickExpression d s source indexes),
         .manyToManyMapping source (.pickExpression d s source indexes)
           (.rangeExpression .INDEX s) indexes]
  | .array (.indexExpression d s source) =>
    .ok [.identityMapping source (.indexExpression d s source)]
  | .array (.rangeExpression _ _) => .error (.notImplemented "")
  | .array (.joinLeftExpression _ _ _ _) => .ok []
  | .array (.joinRightExpression _ _ _ _) => .ok []
  | .array (.addExpression d s a b) =>
    .ok [.identityMapping a (.addExpression d s a b),
         .identityMapping b (.addExpression d s a b)]
  | .array (.subtractExpression d s a b) =>
    .ok [.identityMapping a (.subtractExpression d s a b),
         .identityMapping b (.subtractExpression d s a b)]
  | .array (.multiplyExpression d s a b) =>
    .ok [.identityMapping a (.multiplyExpression d s a b),
         .identityMapping b (.multiplyExpression d s a b)]
  | .array (.divideExpression d s a b) =>
    .ok [.identityMapping a (.divideExpression d s a b),
         .identityMapping b (.divideExpression d s a b)]
  | .array (.equalToExpression d s a b) =>
    .ok [.identityMapping a (.equalToExpression d s a b),
         .identityMapping b (.equalToExpression d s a b)]

/-- Sequential flat map in the Except monad (the shape of the generator
fed by `_generate_candidate_mappings`). -/
def flatMapExcept {α β : Type} (f : α → Except PyErr (List β)) :
    List α → Except PyErr (List β)
  | [] => .ok []
  | x :: xs => do
    let ys ← f x
    let rest ← flatMapExcept f xs
    .ok (ys ++ rest)

/-- dtl/mappings.py `_generate_candidate_mappings`: mappings of every
node reachable from the roots, in traversal order.  The fuel feeds the
traversal's loop (a modelling device); an incomplete traversal is
reported as an error. -/
def generateCandidateMappings (fuel : Nat) (roots : List Expression) :
    Except PyErr (List Mapping) :=
  match traverse_depth_first dependencies fuel roots with
  | none => .error (.runtimeError "traversal incomplete")
  | some order => flatMapExcept mappingsForExpression order

/-- dtl/mappings.py `_merge_mapping_pair`: compose two mappings that meet
in the middle.  Identity composes with anything by substitution; two
ManyToMany mappings compose through the synthetic equality join built in
the IR; every combination involving ManyToOne or OneToMany raises
NotImplementedError.  The initial `assert fst.tgt == snd.src` is an
identity comparison in Python, modelled structurally. -/
def mergeMappingPair (fst snd : Mapping) : Except PyErr Mapping :=
  if fst.tgt ≠ snd.src then
    .error (.assertionError "fst.tgt == snd.src")
  else
    match fst, snd with
    | .identityMapping s1 _, .identityMapping _ t2 =>
      .ok (.identityMapping s1 t2)
    | .identityMapping s1 _, .manyToManyMapping _ t2 si ti =>
      .ok (.manyToManyMapping s1 t2 si ti)
    | .manyToManyMapping s1 _ si ti, .identityMapping _ t2 =>
      .ok (.manyToManyMapping s1 t2 si ti)
    | .manyToManyMapping s1 _ si1 ti1, .manyToManyMapping _ t2 si2 ti2 =>
      let shape_full := ShapeExpression.joinShapeExpression
        ti1.shape si2.shape
      let fst_index_full := ArrayExpression.joinLeftExpression .INDEX
        shape_full ti1.shape si2.shape
      let snd_index_full := ArrayExpression.joinRightExpression .INDEX
        shape_full ti1.shape si2.shape
      let src_index_full := ArrayExpression.pickExpression ti1.dtype
        shape_full ti1 fst_index_full
      let tgt_index_full := ArrayExpression.pickExpression si2.dtype
        shape_full si2 snd_index_full
      let mask := ArrayExpression.equalToExpression .BOOL shape_full
        src_index_full tgt_index_full
      let shape := ShapeExpression.whereShapeExpression mask
      let fst_index := ArrayExpression.whereExpression .INDEX shape
        fst_index_full mask
      let snd_index := ArrayExpression.whereExpression .INDEX shape
        snd_index_full mask
      let src_index := ArrayExpression.pickExpression si1.dtype shape
        si1 fst_index
      let tgt_index := ArrayExpression.pickExpression ti2.dtype shape
        ti2 snd_index
      .ok (.manyToManyMapping s1 t2 src_index tgt_index)
    | _, _ => .error (.notImplemented "cannot merge")

/-- An association map from array expressions to lists of mappings.  The
Python original is a dict of sets: dict keys are expression identities
(structural here; see the file header) and the sets hold identity
distinct Mapping objects, so the sets are modelled as lists counted with
multiplicity. -/
abbrev ExprMappings : Type := List (ArrayExpression × List Mapping)

/-- Python `d.setdefault(k, set()).add(v)`. -/
def setdefaultAdd (m : ExprMappings) (k : ArrayExpression) (v : Mapping) :
    ExprMappings :=
  match m with
  | [] => [(k, [v])]
  | (k2, vs) :: rest =>
    if k2 = k then (k2, vs ++ [v]) :: rest
    else (k2, vs) :: setdefaultAdd rest k v

/-- Python `d.pop(k, set())`: the entry's mappings (empty when the key is
absent) and the map without the key. -/
def popEntry (m : ExprMappings) (k : ArrayExpression) :
    List Mapping × ExprMappings :=
  match m with
  | [] => ([], [])
  | (k2, vs) :: rest =>
    if k2 = k then (vs, rest)
    else
      let r := popEntry rest k
      (r.1, (k2, vs) :: r.2)

/-- Python `d[k].add(v)`: KeyError when the key is absent. -/
def lookupAdd (m : ExprMappings) (k : ArrayExpression) (v : Mapping) :
    Except PyErr ExprMappings :=
  match m with
  | [] => .error .keyError
  | (k2, vs) :: rest =>
    if k2 = k then .ok ((k2, vs ++ [v]) :: rest)
    else do
      let r ← lookupAdd rest k v
      .ok ((k2, vs) :: r)

/-- Python `d[k].remove(v)`: KeyError when the key is absent or the value
is not in the set. -/
def removeMapping (m : ExprMappings) (k : ArrayExpression) (v : Mapping) :
    Except PyErr ExprMappings :=
  match m with
  | [] => .error .keyError
  | (k2, vs) :: rest =>
    if k2 = k then
      if v ∈ vs then .ok ((k2, vs.erase v) :: rest)
      else .error .keyError
    else do
      let r ← removeMapping rest k v
      .ok ((k2, vs) :: r)

/-- The keys of an `ExprMappings` map. -/
def exprKeys (m : ExprMappings) : List ArrayExpression := m.map (·.1)

/-- dtl/mappings.py `_merge_mappings` initial index build: the dict
mapping each source (respectively target) to the set of mappings with
that source (target). -/
def buildBy (key : Mapping → ArrayExpression) (mappings : List Mapping) :
    ExprMappings :=
  mappings.foldl (fun m mp => setdefaultAdd m (key mp) mp) []

/-- The body of `_merge_mappings`'s product loop for one pair: merge,
check the two asserts, and index the merged mapping under its source and
target (plain dict indexing: KeyError when a key is gone). -/
def mergeOnePair (srcMapping tgtMapping : Mapping)
    (state : ExprMappings × ExprMappings) :
    Except PyErr (ExprMappings × ExprMappings) := do
  let merged ← mergeMappingPair srcMapping tgtMapping
  if merged.src ≠ srcMapping.src then
    .error (.assertionError "mapping.src == src_mapping.src")
  else if merged.tgt ≠ tgtMapping.tgt then
    .error (.assertionError "mapping.tgt == tgt_mapping.tgt")
  else do
    let bySrc ← lookupAdd state.1 merged.src merged
    let byTgt ← lookupAdd state.2 merged.tgt merged
    .ok (bySrc, byTgt)

/-- The product loop of `_merge_mappings` (src_mappings outer,
tgt_mappings inner, as itertools.product iterates). -/
def mergeProducts (srcMappings tgtMappings : List Mapping)
    (state : ExprMappings × ExprMappings) :
    Except PyErr (ExprMappings × ExprMappings) :=
  match srcMappings with
  | [] => .ok state
  | sm :: rest => do
    let state2 ← (tgtMappings.foldlM (fun st tm => mergeOnePair sm tm st)
      state)
    mergeProducts rest tgtMappings state2

/-- The two removal loops of `_merge_mappings`. -/
def removeAll (key : Mapping → ArrayExpression)
    (mappings : List Mapping) (m : ExprMappings) :
    Except PyErr ExprMappings :=
  match mappings with
  | [] => .ok m
  | mp :: rest => do
    let m2 ← removeMapping m (key mp) mp
    removeAll key rest m2

/-- One iteration of `_merge_mappings`'s elimination loop: pop the
mappings into and out of the nonroot, merge every pair, then drop the
popped mappings from the other index. -/
def eliminateNonroot (state : ExprMappings × ExprMappings)
    (nonroot : ArrayExpression) :
    Except PyErr (ExprMappings × ExprMappings) := do
  let pSrc := popEntry state.2 nonroot
  let srcMappings := pSrc.1
  let byTgt1 := pSrc.2
  let pTgt := popEntry state.1 nonroot
  let tgtMappings := pTgt.1
  let bySrc1 := pTgt.2
  let state2 ← mergeProducts srcMappings tgtMappings (bySrc1, byTgt1)
  let bySrc2 ← removeAll Mapping.src srcMappings state2.1
  let byTgt2 ← removeAll Mapping.tgt tgtMappings state2.2
  .ok (bySrc2, byTgt2)

/-- dtl/mappings.py `_merge_mappings`: index the candidate mappings by
source and by target, eliminate every expression that is not a root by
composing through it, and yield what remains grouped by source.  The
Python nonroot set iterates in unspecified order; first-encounter order
of the dict keys is used here (the result sets are the same for any
order that the function completes on). -/
def mergeMappings (mappings : List Mapping) (roots : List Expression) :
    Except PyErr (List Mapping) := do
  let bySrc := buildBy Mapping.src mappings
  let byTgt := buildBy Mapping.tgt mappings
  let nonroots := ((exprKeys bySrc ++ exprKeys byTgt).dedup).filter
    (fun k => decide (Expression.array k ∉ roots))
  let final ← nonroots.foldlM eliminateNonroot (bySrc, byTgt)
  .ok (final.1.flatMap (·.2))

/-- dtl/mappings.py `generate_mappings`. -/
def generate_mappings (fuel : Nat) (roots : List Expression) :
    Except PyErr (List Mapping) := do
  let mappings ← generateCandidateMappings fuel roots
  mergeMappings mappings roots

/-- The spec's row-matching join for composing two ManyToMany mappings,
written from the words of spec section 4.4 (refinement target for the
source's `_merge_mapping_pair`): with `full = JoinShape(|tB|, |sB|)`,
`left = JoinLeft(|tB|,|sB|)`, `right = JoinRight(|tB|,|sB|)`,
`mask = EqualTo(Pick(tB,left), Pick(sB,right))` and
`shape = WhereShape(mask)`, the composite of `A→B` and `B→C` is the
ManyToMany mapping from `A` to `C` with
`src_index = Pick(sA, Where(left,mask))` and
`tgt_index = Pick(tC, Where(right,mask))`. -/
def specComposeManyToMany (A C sA tB sB tC : ArrayExpression) : Mapping :=
  let full := ShapeExpression.joinShapeExpression tB.shape sB.shape
  let left := ArrayExpression.joinLeftExpression .INDEX full
    tB.shape sB.shape
  let right := ArrayExpression.joinRightExpression .INDEX full
    tB.shape sB.shape
  let mask := ArrayExpression.equalToExpression .BOOL full
    (ArrayExpression.pickExpression tB.dtype full tB left)
    (ArrayExpression.pickExpression sB.dtype full sB right)
  let shape := ShapeExpression.whereShapeExpression mask
  let src_index := ArrayExpression.pickExpression sA.dtype shape sA
    (ArrayExpression.whereExpression .INDEX shape left mask)
  let tgt_index := ArrayExpression.pickExpression tC.dtype shape tC
    (ArrayExpression.whereExpression .INDEX shape right mask)
  .manyToManyMapping A C src_index tgt_index

/-- C4: composing two ManyToMany mappings `A→B` (indexes sA, tB) and
`B→C` (indexes sB, tC) with `_merge_mapping_pair` returns exactly the
ManyToMany mapping from `A` to `C` built by the spec's row-matching
join: src_index `Pick(sA, Where(JoinLeft(|tB|,|sB|), mask))` and
tgt_index `Pick(tC, Where(JoinRight(|tB|,|sB|), mask))` with
`mask = EqualTo(Pick(tB, JoinLeft), Pick(sB, JoinRight))` over
`JoinShape(|tB|,|sB|)`, filtered by `WhereShape(mask)`. -/
theorem C4_merge_mapping_pair_many_to_many
    (A B B2 C sA tB sB tC : ArrayExpression) (h : B = B2) :
    mergeMappingPair (.manyToManyMapping A B sA tB)
        (.manyToManyMapping B2 C sB tC)
      = .ok (specComposeManyToMany A C sA tB sB tC) := by
  subst h
  simp [mergeMappingPair, Mapping.src, Mapping.tgt, specComposeManyToMany]

/-- C4 witness: the composition theorem applied at concrete mappings
(all arrays are Import columns of a table "t"), with the middle array
shared so the assert hypothesis holds by rfl. -/
theorem C4_merge_mapping_pair_witness :
    mergeMappingPair
        (.manyToManyMapping
          (.importExpression .INT64 (.importShapeExpression "t") "t" "a")
          (.importExpression .INT64 (.importShapeExpression "t") "t" "b")
          (.importExpression .INDEX (.importShapeExpression "t") "t" "sa")
          (.importExpression .INDEX (.importShapeExpression "t") "t" "tb"))
        (.manyToManyMapping
          (.importExpression .INT64 (.importShapeExpression "t") "t" "b")
          (.importExpression .INT64 (.importShapeExpression "t") "t" "c")
          (.importExpression .INDEX (.importShapeExpression "t") "t" "sb")
          (.importExpression .INDEX (.importShapeExpression "t") "t" "tc"))
      = .ok (specComposeManyToMany
          (.importExpression .INT64 (.importShapeExpression "t") "t" "a")
          (.importExpression .INT64 (.importShapeExpression "t") "t" "c")
          (.importExpression .INDEX (.importShapeExpression "t") "t" "sa")
          (.importExpression .INDEX (.importShapeExpression "t") "t" "tb")
          (.importExpression .INDEX (.importShapeExpression "t") "t" "sb")
          (.importExpression .INDEX (.importShapeExpression "t") "t" "tc")) :=
  C4_merge_mapping_pair_many_to_many _ _ _ _ _ _ _ _ rfl

/-- A cell value of the columnar array runtime.  Modelled from the spec
(section 4.2, the array runtime is an external collaborator): booleans,
64-bit integers (overflow is not modelled; no verified claim computes
near the 64-bit range), doubles carried as their uninterpreted literal
text, text and bytes.  INDEX values are carried as integers, as the
evaluator materialises them with pa.int64. -/
inductive Val where
  | b (v : Bool)
  | i (v : Int)
  | f (raw : String)
  | s (v : String)
  | bys (v : String)
  deriving DecidableEq, Repr

/-- A columnar array: a list of cell values. -/
abbrev PArray : Type := List Val

/-- The pyarrow column types that `_arrow_type_to_ir_type` knows about
(plus a catch-all for the dict lookup KeyError). -/
inductive ArrowType where
  | bool_ | int32 | int64 | float32 | float64 | string | binary
  | unknown (name : String)
  deriving DecidableEq, Repr

/-- dtl/ast_to_ir.py `_arrow_type_to_ir_type`: dict from pyarrow types to
IR dtypes; an unlisted type raises KeyError. -/
def arrowTypeToIrType : ArrowType → Except PyErr DType
  | .bool_ => .ok .BOOL
  | .int32 => .ok .INT32
  | .int64 => .ok .INT64
  | .float32 => .ok .DOUBLE
  | .float64 => .ok .DOUBLE
  | .string => .ok .TEXT
  | .binary => .ok .BYTES
  | .unknown _ => .error .keyError

/-- An in-memory pyarrow table: named, typed columns.  Modelled from the
spec (section 4.2: the importer yields columnar tables given a location
string). -/
structure PyTable where
  columns : List (String × ArrowType × PArray)
  deriving DecidableEq, Repr

/-- Python `len(table)`: the number of rows (the length of the first
column; zero for a table with no columns). -/
def PyTable.numRows (t : PyTable) : Nat :=
  match t.columns with
  | [] => 0
  | (_, _, vs) :: _ => vs.length

/-- Python `table[name]`: column lookup by name, KeyError when absent. -/
def PyTable.col (t : PyTable) (name : String) : Except PyErr PArray :=
  match t.columns.find? (fun c => c.1 = name) with
  | some c => .ok c.2.2
  | none => .error .keyError

/-- Modelled from the spec (section 4.2): `filter(array, bool_mask)` of
the array runtime keeps the elements whose mask entry is true; the mask
must be all booleans of the same length. -/
def pacFilter : PArray → PArray → Except PyErr PArray
  | [], [] => .ok []
  | v :: vs, Val.b m :: ms => do
    let rest ← pacFilter vs ms
    .ok (if m then v :: rest else rest)
  | _ :: _, _ :: _ => .error (.runtimeError "filter mask must be boolean")
  | _, _ => .error (.runtimeError "filter length mismatch")

/-- Modelled from the spec (section 4.2): `take(array, index_array)`
gathers `source[index]` for each index; an index that is not an integer
in range fails. -/
def pacTake (source : PArray) : PArray → Except PyErr PArray
  | [] => .ok []
  | Val.i n :: rest => do
    let tail ← pacTake source rest
    if h : 0 ≤ n ∧ n.toNat < source.length then
      .ok (source.get ⟨n.toNat, h.2⟩ :: tail)
    else
      .error (.runtimeError "take index out of bounds")
  | _ :: _ => .error (.runtimeError "take index must be integer")

/-- Modelled from the spec (section 4.2): elementwise arithmetic on two
arrays of equal length.  Only integer arithmetic is interpreted; IEEE
doubles are outside the model (no verified claim computes with them). -/
def pacArith (op : Int → Int → Except PyErr Int) :
    PArray → PArray → Except PyErr PArray
  | [], [] => .ok []
  | Val.i a :: as_, Val.i b :: bs => do
    let c ← op a b
    let rest ← pacArith op as_ bs
    .ok (Val.i c :: rest)
  | _ :: _, _ :: _ => .error (.runtimeError "arithmetic on unsupported dtype")
  | _, _ => .error (.runtimeError "arithmetic length mismatch")

/-- Modelled from the spec (section 4.2): `equal(array, array)` yields a
boolean array of elementwise comparisons over equal-length arrays. -/
def pacEqual : PArray → PArray → Except PyErr PArray
  | [], [] => .ok []
  | a :: as_, b :: bs => do
    let rest ← pacEqual as_ bs
    .ok (Val.b (decide (a = b)) :: rest)
  | _, _ => .error (.runtimeError "equal length mismatch")

/-- Modelled from the spec (section 4.2): `sum(bool_array)` counts the
true entries (the popcount the evaluator uses for WhereShape). -/
def pacSum : PArray → Except PyErr Nat
  | [] => .ok 0
  | Val.b m :: rest => do
    let n ← pacSum rest
    .ok (if m then n + 1 else n)
  | _ :: _ => .error (.runtimeError "sum expects booleans")

/-- dtl/eval.py Context: the two evaluation caches plus the in-memory
importer (a name to table map) and the accumulated in-memory exporter
results.  The tracer is always None in the verified runs, so it carries
no state here. -/
structure EvalContext where
  arrays : List (ArrayExpression × PArray)
  shapes : List (ShapeExpression × Nat)
  importer : List (String × PyTable)
  exported : List (String × List (String × PArray))
  deriving Repr, DecidableEq

/-- Python dict assignment `d[k] = v`: replace in place, or append. -/
def setAssoc {κ ν : Type} [DecidableEq κ] (m : List (κ × ν)) (k : κ)
    (v : ν) : List (κ × ν) :=
  match m with
  | [] => [(k, v)]
  | (k2, v2) :: rest =>
    if k2 = k then (k2, v) :: rest else (k2, v2) :: setAssoc rest k v

/-- Python dict read `d[k]`: KeyError when absent. -/
def getAssoc {κ ν : Type} [DecidableEq κ] (m : List (κ × ν)) (k : κ) :
    Except PyErr ν :=
  match m.find? (fun p => p.1 = k) with
  | some p => .ok p.2
  | none => .error .keyError

/-- dtl/eval.py `eval_expression`: one singledispatch registration per
node kind, each a direct translation to an array runtime call, caching
its result in the context.  IndexExpression has no registration and
raises NotImplementedError.  The RangeExpression arm is modelled from
the spec (section 4.6: `Range(shape)` evaluates to `[0 .. shape)`),
matching the visible eval.py registration that materialises
`pa.array(range(shape))`. -/
def evalExpression (e : Expression) (ctx : EvalContext) :
    Except PyErr EvalContext :=
  match e with
  | .shape (.importShapeExpression location) => do
    let table ← getAssoc ctx.importer location
    let shapes2 := setAssoc ctx.shapes (.importShapeExpression location)
      table.numRows
    .ok { ctx with shapes := shapes2 }
  | .shape (.whereShapeExpression mask) => do
    let maskArr ← getAssoc ctx.arrays mask
    let result ← pacSum maskArr
    let shapes2 := setAssoc ctx.shapes (.whereShapeExpression mask) result
    .ok { ctx with shapes := shapes2 }
  | .shape (.joinShapeExpression a b) => do
    let sa ← getAssoc ctx.shapes a
    let sb ← getAssoc ctx.shapes b
    let shapes2 := setAssoc ctx.shapes (.joinShapeExpression a b) (sa * sb)
    .ok { ctx with shapes := shapes2 }
  | .array (.booleanLiteralExpression d s v) => do
    let n ← getAssoc ctx.shapes s
    let arrays2 := setAssoc ctx.arrays (.booleanLiteralExpression d s v)
      (List.replicate n (Val.b v))
    .ok { ctx with arrays := arrays2 }
  | .array (.integerLiteralExpression d s v) => do
    let n ← getAssoc ctx.shapes s
    let arrays2 := setAssoc ctx.arrays (.integerLiteralExpression d s v)
      (List.replicate n (Val.i v))
    .ok { ctx with arrays := arrays2 }
  | .array (.floatLiteralExpression d s v) => do
    let n ← getAssoc ctx.shapes s
    let arrays2 := setAssoc ctx.arrays (.floatLiteralExpression d s v)
      (List.replicate n (Val.f v))
    .ok { ctx with arrays := arrays2 }
  | .array (.textLiteralExpression d s v) => do
    let n ← getAssoc ctx.shapes s
    let arrays2 := setAssoc ctx.arrays (.textLiteralExpression d s v)
      (List.replicate n (Val.s v))
    .ok { ctx with arrays := arrays2 }
  | .array (.bytesLiteralExpression d s v) => do
    let n ← getAssoc ctx.shapes s
    let arrays2 := setAssoc ctx.arrays (.bytesLiteralExpression d s v)
      (List.replicate n (Val.bys v))
    .ok { ctx with arrays := arrays2 }
  | .array (.importExpression d s location name) => do
    let table ← getAssoc ctx.importer location
    let result ← table.col name
    let arrays2 := setAssoc ctx.arrays (.importExpression d s location name)
      result
    .ok { ctx with arrays := arrays2 }
  | .array (.whereExpression d s source mask) => do
    let sourceArr ← getAssoc ctx.arrays source
    let maskArr ← getAssoc ctx.arrays mask
    let result ← pacFilter sourceArr maskArr
    let arrays2 := setAssoc ctx.arrays (.whereExpression d s source mask)
      result
    .ok { ctx with arrays := arrays2 }
  | .array (.pickExpression d s source indexes) => do
    let sourceArr ← getAssoc ctx.arrays source
    let indexArr ← getAssoc ctx.arrays indexes
    let result ← pacTake sourceArr indexArr
    let arrays2 := setAssoc ctx.arrays (.pickExpression d s source indexes)
      result
    .ok { ctx with arrays := arrays2 }
  | .array (.indexExpression _ _ _) =>
    .error (.notImplemented
      "eval_expression not implemented for IndexExpression")
  | .array (.rangeExpression d s) => do
    let n ← getAssoc ctx.shapes s
    let arrays2 := setAssoc ctx.arrays (.rangeExpression d s)
      ((List.range n).map (fun k => Val.i (Int.ofNat k)))
    .ok { ctx with arrays := arrays2 }
  | .array (.joinLeftExpression d s a b) => do
    let la ← getAssoc ctx.shapes a
    let lb ← getAssoc ctx.shapes b
    let arrays2 := setAssoc ctx.arrays (.joinLeftExpression d s a b)
      ((List.range la).flatMap
        (fun x => List.replicate lb (Val.i (Int.ofNat x))))
    .ok { ctx with arrays := arrays2 }
  | .array (.joinRightExpression d s a b) => do
    let la ← getAssoc ctx.shapes a
    let lb ← getAssoc ctx.shapes b
    let arrays2 := setAssoc ctx.arrays (.joinRightExpression d s a b)
      ((List.range la).flatMap
        (fun _ => (List.range lb).map (fun x => Val.i (Int.ofNat x))))
    .ok { ctx with arrays := arrays2 }
  | .array (.addExpression d s a b) => do
    let aArr ← getAssoc ctx.arrays a
    let bArr ← getAssoc ctx.arrays b
    let result ← pacArith (fun x y => .ok (x + y)) aArr bArr
    let arrays2 := setAssoc ctx.arrays (.addExpression d s a b) result
    .ok { ctx with arrays := arrays2 }
  | .array (.subtractExpression d s a b) => do
    let aArr ← getAssoc ctx.arrays a
    let bArr ← getAssoc ctx.arrays b
    let result ← pacArith (fun x y => .ok (x - y)) aArr bArr
    let arrays2 := setAssoc ctx.arrays (.subtractExpression d s a b) result
    .ok { ctx with arrays := arrays2 }
  | .array (.multiplyExpression d s a b) => do
    let aArr ← getAssoc ctx.arrays a
    let bArr ← getAssoc ctx.arrays b
    let result ← pacArith (fun x y => .ok (x * y)) aArr bArr
    let arrays2 := setAssoc ctx.arrays (.multiplyExpression d s a b) result
    .ok { ctx with arrays := arrays2 }
  | .array (.divideExpression d s a b) => do
    let aArr ← getAssoc ctx.arrays a
    let bArr ← getAssoc ctx.arrays b
    let result ← pacArith
      (fun x y => if y = 0 then .error (.runtimeError "division by zero")
        else .ok (Int.tdiv x y)) aArr bArr
    let arrays2 := setAssoc ctx.arrays (.divideExpression d s a b) result
    .ok { ctx with arrays := arrays2 }
  | .array (.equalToExpression d s a b) => do
    let aArr ← getAssoc ctx.arrays a
    let bArr ← getAssoc ctx.arrays b
    let result ← pacEqual aArr bArr
    let arrays2 := setAssoc ctx.arrays (.equalToExpression d s a b) result
    .ok { ctx with arrays := arrays2 }

/-- dtl/cmd.py Command and its subclasses.  TraceArrayCommand's uuid is
dropped (it only names trace outputs, and the verified runs pass
tracer=None, so no trace command is ever emitted). -/
inductive Command where
  | evaluateArrayCommand (expression : ArrayExpression)
  | evaluateShapeCommand (expression : ShapeExpression)
  | collectArrayCommand (expression : ArrayExpression)
  | traceArrayCommand (expression : ArrayExpression)
  | exportTableCommand (name : String)
      (columns : List (String × ArrayExpression))
  deriving Repr

/-- Python `d.pop(k)` (no default): KeyError when absent. -/
def popAssoc {κ ν : Type} [DecidableEq κ] (m : List (κ × ν)) (k : κ) :
    Except PyErr (List (κ × ν)) :=
  match m with
  | [] => .error .keyError
  | (k2, v2) :: rest =>
    if k2 = k then .ok rest
    else do
      let r ← popAssoc rest k
      .ok ((k2, v2) :: r)

/-- dtl/eval.py `eval_command`: evaluate commands against the context.
TraceArray asserts the tracer is not None, which fails in the verified
runs (tracer=None); ExportTable reads each column from the cache, builds
the output table and hands it to the in-memory exporter, which asserts
the export name is unused. -/
def evalCommand (c : Command) (ctx : EvalContext) :
    Except PyErr EvalContext :=
  match c with
  | .evaluateArrayCommand e => evalExpression (.array e) ctx
  | .evaluateShapeCommand e => evalExpression (.shape e) ctx
  | .collectArrayCommand e => do
    let arrays ← popAssoc ctx.arrays e
    .ok { ctx with arrays := arrays }
  | .traceArrayCommand _ =>
    .error (.assertionError "tracer is not None")
  | .exportTableCommand name columns => do
    let table ← columns.foldrM
      (fun col acc => do
        let arr ← getAssoc ctx.arrays col.2
        pure ((col.1, arr) :: acc)) []
    if (ctx.exported.find? (fun p => p.1 = name)).isSome then
      .error (.assertionError "name not in self.__tables")
    else
      .ok { ctx with exported := ctx.exported ++ [(name, table)] }

/-- dtl/ir_to_cmd.py `compile_ir_to_cmd`: one EvaluateShape or
EvaluateArray command per traversed expression, in traversal order.  The
fuel feeds the traversal (modelling device). -/
def compile_ir_to_cmd (fuel : Nat) (roots : List Expression) :
    Except PyErr (List Command) :=
  match traverse_depth_first dependencies fuel roots with
  | none => .error (.runtimeError "traversal incomplete")
  | some order => .ok (order.map (fun e =>
      match e with
      | .shape s => Command.evaluateShapeCommand s
      | .array a => Command.evaluateArrayCommand a))

/-- Run a command list in order (the evaluator's main loop in `run`). -/
def evalCommands (cmds : List Command) (ctx : EvalContext) :
    Except PyErr EvalContext :=
  match cmds with
  | [] => .ok ctx
  | c :: rest => do
    let ctx2 ← evalCommand c ctx
    evalCommands rest ctx2

theorem getAssoc_setAssoc_self {κ ν : Type} [DecidableEq κ]
    (m : List (κ × ν)) (k : κ) (v : ν) :
    getAssoc (setAssoc m k v) k = .ok v := by
  induction m with
  | nil => simp [setAssoc, getAssoc]
  | cons p rest ih =>
    rcases p with ⟨k2, v2⟩
    by_cases hk : k2 = k
    · subst hk
      simp [setAssoc, getAssoc]
    · simp only [setAssoc, if_neg hk]
      simp only [getAssoc, List.find?]
      rw [show (decide (k2 = k)) = false by simpa using hk]
      simpa [getAssoc] using ih

theorem getAssoc_setAssoc_ne {κ ν : Type} [DecidableEq κ]
    (m : List (κ × ν)) (k k2 : κ) (v : ν) (h : k2 ≠ k) :
    getAssoc (setAssoc m k v) k2 = getAssoc m k2 := by
  induction m with
  | nil =>
    simp only [setAssoc, getAssoc, List.find?]
    rw [show (decide (k = k2)) = false by simp [Ne.symm h]]
  | cons p rest ih =>
    rcases p with ⟨k3, v3⟩
    by_cases hk : k3 = k
    · subst hk
      simp only [setAssoc, if_pos rfl, getAssoc, List.find?]
      rw [show (decide (k3 = k2)) = false by simp [Ne.symm h]]
    · simp only [setAssoc, if_neg hk]
      by_cases hk2 : k3 = k2
      · subst hk2
        simp [getAssoc, List.find?]
      · simp only [getAssoc, List.find?]
        rw [show (decide (k3 = k2)) = false by simpa using hk2]
        simpa [getAssoc] using ih

theorem ArrayExpression.ne_of_sizeOf_lt {x y : ArrayExpression}
    (h : sizeOf x < sizeOf y) : x ≠ y := by
  intro he
  subst he
  omega

theorem pacTake_length {source idx out : PArray}
    (h : pacTake source idx = .ok out) : out.length = idx.length := by
  induction idx generalizing out with
  | nil =>
    simp [pacTake] at h
    simp [← h]
  | cons v rest ih =>
    cases v with
    | i n =>
      simp only [pacTake] at h
      cases htail : pacTake source rest with
      | error e => rw [htail, Except_error_bind] at h; cases h
      | ok tail =>
        rw [htail, Except_ok_bind] at h
        by_cases hb : 0 ≤ n ∧ n.toNat < source.length
        · rw [dif_pos hb] at h
          cases h
          simp [ih htail]
        · rw [dif_neg hb] at h
          cases h
    | b v => simp [pacTake] at h
    | f v => simp [pacTake] at h
    | s v => simp [pacTake] at h
    | bys v => simp [pacTake] at h

theorem pacArith_length {op : Int → Int → Except PyErr Int}
    {a b out : PArray} (h : pacArith op a b = .ok out) :
    out.length = a.length ∧ out.length = b.length := by
  induction a generalizing b out with
  | nil =>
    cases b with
    | nil =>
      simp [pacArith] at h
      simp [← h]
    | cons y ys => simp [pacArith] at h
  | cons x xs ih =>
    cases b with
    | nil =>
      cases x <;> simp [pacArith] at h
    | cons y ys =>
      cases x with
      | i xv =>
        cases y with
        | i yv =>
          simp only [pacArith] at h
          cases hc : op xv yv with
          | error e => rw [hc, Except_error_bind] at h; cases h
          | ok c =>
            rw [hc, Except_ok_bind] at h
            cases hrest : pacArith op xs ys with
            | error e => rw [hrest, Except_error_bind] at h; cases h
            | ok rest =>
              rw [hrest, Except_ok_bind] at h
              cases h
              have := ih hrest
              constructor
              · simp [this.1]
              · simp [this.2]
        | b v => simp [pacArith] at h
        | f v => simp [pacArith] at h
        | s v => simp [pacArith] at h
        | bys v => simp [pacArith] at h
      | b xv => simp [pacArith] at h
      | f xv => simp [pacArith] at h
      | s xv => simp [pacArith] at h
      | bys xv => simp [pacArith] at h

theorem pacEqual_length {a b out : PArray}
    (h : pacEqual a b = .ok out) :
    out.length = a.length ∧ out.length = b.length := by
  induction a generalizing b out with
  | nil =>
    cases b with
    | nil =>
      simp [pacEqual] at h
      simp [← h]
    | cons y ys => simp [pacEqual] at h
  | cons x xs ih =>
    cases b with
    | nil => simp [pacEqual] at h
    | cons y ys =>
      simp only [pacEqual] at h
      cases hrest : pacEqual xs ys with
      | error e => rw [hrest, Except_error_bind] at h; cases h
      | ok rest =>
        rw [hrest, Except_ok_bind] at h
        cases h
        have := ih hrest
        constructor
        · simp [this.1]
        · simp [this.2]

/-- C3 (amended): the Identity mappings the per-node generator emits
relate arrays of the same evaluated length, not of equal contents: for
every node whose evaluation succeeds, each Identity mapping emitted for
it by `_mappings_for_expression` (from each operand of
Add/Subtract/Multiply/Divide/EqualTo to the node's output, and from a
Pick node's index array to the Pick output) has its src and tgt arrays
both present in the evaluation cache with equal lengths. -/
theorem C3_identity_amended (a : ArrayExpression) (ctx ctx' : EvalContext)
    (ms : List Mapping) (src tgt : ArrayExpression)
    (heval : evalExpression (.array a) ctx = .ok ctx')
    (hms : mappingsForExpression (.array a) = .ok ms)
    (hmem : Mapping.identityMapping src tgt ∈ ms) :
    ∃ va vt, getAssoc ctx'.arrays src = .ok va
      ∧ getAssoc ctx'.arrays tgt = .ok vt
      ∧ va.length = vt.length := by
  cases a with
  | booleanLiteralExpression d s v =>
    rw [mappingsForExpression] at hms
    cases hms
    simp at hmem
  | integerLiteralExpression d s v =>
    rw [mappingsForExpression] at hms
    cases hms
    simp at hmem
  | floatLiteralExpression d s v =>
    rw [mappingsForExpression] at hms
    cases hms
    simp at hmem
  | textLiteralExpression d s v =>
    rw [mappingsForExpression] at hms
    cases hms
    simp at hmem
  | bytesLiteralExpression d s v =>
    rw [mappingsForExpression] at hms
    cases hms
    simp at hmem
  | importExpression d s loc nm =>
    rw [mappingsForExpression] at hms
    cases hms
    simp at hmem
  | whereExpression d s source mask =>
    rw [mappingsForExpression] at hms
    cases hms
    simp at hmem
  | pickExpression d s source indexes =>
    rw [mappingsForExpression] at hms
    cases hms
    simp only [List.mem_cons] at hmem
    rcases hmem with hmem | hmem | hmem
    · simp only [evalExpression] at heval
      cases hsrc : getAssoc ctx.arrays source with
      | error e => rw [hsrc, Except_error_bind] at heval; cases heval
      | ok sourceArr =>
        rw [hsrc, Except_ok_bind] at heval
        cases hidx : getAssoc ctx.arrays indexes with
        | error e => rw [hidx, Except_error_bind] at heval; cases heval
        | ok indexArr =>
          rw [hidx, Except_ok_bind] at heval
          cases hres : pacTake sourceArr indexArr with
          | error e => rw [hres, Except_error_bind] at heval; cases heval
          | ok result =>
            rw [hres, Except_ok_bind] at heval
            cases heval
            injection hmem with h1 h2
            have hlen := pacTake_length hres
            have hne : indexes ≠ ArrayExpression.pickExpression d s source
                indexes :=
              ArrayExpression.ne_of_sizeOf_lt (by simp <;> omega)
            refine ⟨indexArr, result, ?_, ?_, ?_⟩
            · dsimp only
              rw [h1, getAssoc_setAssoc_ne _ _ _ _ hne]
              exact hidx
            · dsimp only
              rw [h2]
              exact getAssoc_setAssoc_self _ _ _
            · omega
    · cases hmem
    · cases hmem
  | indexExpression d s source =>
    simp [evalExpression] at heval
  | rangeExpression d s =>
    simp [mappingsForExpression] at hms
  | joinLeftExpression d s a2 b2 =>
    rw [mappingsForExpression] at hms
    cases hms
    simp at hmem
  | joinRightExpression d s a2 b2 =>
    rw [mappingsForExpression] at hms
    cases hms
    simp at hmem
  | addExpression d s u v =>
    rw [mappingsForExpression] at hms
    cases hms
    simp only [List.mem_cons] at hmem
    simp only [evalExpression] at heval
    cases hu : getAssoc ctx.arrays u with
    | error e => rw [hu, Except_error_bind] at heval; cases heval
    | ok uArr =>
      rw [hu, Except_ok_bind] at heval
      cases hv : getAssoc ctx.arrays v with
      | error e => rw [hv, Except_error_bind] at heval; cases heval
      | ok vArr =>
        rw [hv, Except_ok_bind] at heval
        cases hres : pacArith (fun x y => .ok (x + y)) uArr vArr with
        | error e => rw [hres, Except_error_bind] at heval; cases heval
        | ok result =>
          rw [hres, Except_ok_bind] at heval
          cases heval
          have hlen := pacArith_length hres
          have hneu : u ≠ ArrayExpression.addExpression d s u v :=
            ArrayExpression.ne_of_sizeOf_lt (by simp <;> omega)
          have hnev : v ≠ ArrayExpression.addExpression d s u v :=
            ArrayExpression.ne_of_sizeOf_lt (by simp <;> omega)
          rcases hmem with hmem | hmem | hmem
          · injection hmem with h1 h2
            refine ⟨uArr, result, ?_, ?_, ?_⟩
            · dsimp only
              rw [h1, getAssoc_setAssoc_ne _ _ _ _ hneu]
              exact hu
            · dsimp only
              rw [h2]
              exact getAssoc_setAssoc_self _ _ _
            · omega
          · injection hmem with h1 h2
            refine ⟨vArr, result, ?_, ?_, ?_⟩
            · dsimp only
              rw [h1, getAssoc_setAssoc_ne _ _ _ _ hnev]
              exact hv
            · dsimp only
              rw [h2]
              exact getAssoc_setAssoc_self _ _ _
            · omega
          · cases hmem
  | subtractExpression d s u v =>
    rw [mappingsForExpression] at hms
    cases hms
    simp only [List.mem_cons] at hmem
    simp only [evalExpression] at heval
    cases hu : getAssoc ctx.arrays u with
    | error e => rw [hu, Except_error_bind] at heval; cases heval
    | ok uArr =>
      rw [hu, Except_ok_bind] at heval
      cases hv : getAssoc ctx.arrays v with
      | error e => rw [hv, Except_error_bind] at heval; cases heval
      | ok vArr =>
        rw [hv, Except_ok_bind] at heval
        cases hres : pacArith (fun x y => .ok (x - y)) uArr vArr with
        | error e => rw [hres, Except_error_bind] at heval; cases heval
        | ok result =>
          rw [hres, Except_ok_bind] at heval
          cases heval
          have hlen := pacArith_length hres
          have hneu : u ≠ ArrayExpression.subtractExpression d s u v :=
            ArrayExpression.ne_of_sizeOf_lt (by simp <;> omega)
          have hnev : v ≠ ArrayExpression.subtractExpression d s u v :=
            ArrayExpression.ne_of_sizeOf_lt (by simp <;> omega)
          rcases hmem with hmem | hmem | hmem
          · injection hmem with h1 h2
            refine ⟨uArr, result, ?_, ?_, ?_⟩
            · dsimp only
              rw [h1, getAssoc_setAssoc_ne _ _ _ _ hneu]
              exact hu
            · dsimp only
              rw [h2]
              exact getAssoc_setAssoc_self _ _ _
            · omega
          · injection hmem with h1 h2
            refine ⟨vArr, result, ?_, ?_, ?_⟩
            · dsimp only
              rw [h1, getAssoc_setAssoc_ne _ _ _ _ hnev]
              exact hv
            · dsimp only
              rw [h2]
              exact getAssoc_setAssoc_self _ _ _
            · omega
          · cases hmem
  | multiplyExpression d s u v =>
    rw [mappingsForExpression] at hms
    cases hms
    simp only [List.mem_cons] at hmem
    simp only [evalExpression] at heval
    cases hu : getAssoc ctx.arrays u with
    | error e => rw [hu, Except_error_bind] at heval; cases heval
    | ok uArr =>
      rw [hu, Except_ok_bind] at heval
      cases hv : getAssoc ctx.arrays v with
      | error e => rw [hv, Except_error_bind] at heval; cases heval
      | ok vArr =>
        rw [hv, Except_ok_bind] at heval
        cases hres : pacArith (fun x y => .ok (x * y)) uArr vArr with
        | error e => rw [hres, Except_error_bind] at heval; cases heval
        | ok result =>
          rw [hres, Except_ok_bind] at heval
          cases heval
          have hlen := pacArith_length hres
          have hneu : u ≠ ArrayExpression.multiplyExpression d s u v :=
            ArrayExpression.ne_of_sizeOf_lt (by simp <;> omega)
          have hnev : v ≠ ArrayExpression.multiplyExpression d s u v :=
            ArrayExpression.ne_of_sizeOf_lt (by simp <;> omega)
          rcases hmem with hmem | hmem | hmem
          · injection hmem with h1 h2
            refine ⟨uArr, result, ?_, ?_, ?_⟩
            · dsimp only
              rw [h1, getAssoc_setAssoc_ne _ _ _ _ hneu]
              exact hu
            · dsimp only
              rw [h2]
              exact getAssoc_setAssoc_self _ _ _
            · omega
          · injection hmem with h1 h2
            refine ⟨vArr, result, ?_, ?_, ?_⟩
            · dsimp only
              rw [h1, getAssoc_setAssoc_ne _ _ _ _ hnev]
              exact hv
            · dsimp only
              rw [h2]
              exact getAssoc_setAssoc_self _ _ _
            · omega
          · cases hmem
  | divideExpression d s u v =>
    rw [mappingsForExpression] at hms
    cases hms
    simp only [List.mem_cons] at hmem
    simp only [evalExpression] at heval
    cases hu : getAssoc ctx.arrays u with
    | error e => rw [hu, Except_error_bind] at heval; cases heval
    | ok uArr =>
      rw [hu, Except_ok_bind] at heval
      cases hv : getAssoc ctx.arrays v with
      | error e => rw [hv, Except_error_bind] at heval; cases heval
      | ok vArr =>
        rw [hv, Except_ok_bind] at heval
        cases hres : pacArith
          (fun x y => if y = 0 then .error (.runtimeError "division by zero")
            else .ok (Int.tdiv x y)) uArr vArr with
        | error e => rw [hres, Except_error_bind] at heval; cases heval
        | ok result =>
          rw [hres, Except_ok_bind] at heval
          cases heval
          have hlen := pacArith_length hres
          have hneu : u ≠ ArrayExpression.divideExpression d s u v :=
            ArrayExpression.ne_of_sizeOf_lt (by simp <;> omega)
          have hnev : v ≠ ArrayExpression.divideExpression d s u v :=
            ArrayExpression.ne_of_sizeOf_lt (by simp <;> omega)
          rcases hmem with hmem | hmem | hmem
          · injection hmem with h1 h2
            refine ⟨uArr, result, ?_, ?_, ?_⟩
            · dsimp only
              rw [h1, getAssoc_setAssoc_ne _ _ _ _ hneu]
              exact hu
            · dsimp only
              rw [h2]
              exact getAssoc_setAssoc_self _ _ _
            · omega
          · injection hmem with h1 h2
            refine ⟨vArr, result, ?_, ?_, ?_⟩
            · dsimp only
              rw [h1, getAssoc_setAssoc_ne _ _ _ _ hnev]
              exact hv
            · dsimp only
              rw [h2]
              exact getAssoc_setAssoc_self _ _ _
            · omega
          · cases hmem
  | equalToExpression d s u v =>
    rw [mappingsForExpression] at hms
    cases hms
    simp only [List.mem_cons] at hmem
    simp only [evalExpression] at heval
    cases hu : getAssoc ctx.arrays u with
    | error e => rw [hu, Except_error_bind] at heval; cases heval
    | ok uArr =>
      rw [hu, Except_ok_bind] at heval
      cases hv : getAssoc ctx.arrays v with
      | error e => rw [hv, Except_error_bind] at heval; cases heval
      | ok vArr =>
        rw [hv, Except_ok_bind] at heval
        cases hres : pacEqual uArr vArr with
        | error e => rw [hres, Except_error_bind] at heval; cases heval
        | ok result =>
          rw [hres, Except_ok_bind] at heval
          cases heval
          have hlen := pacEqual_length hres
          have hneu : u ≠ ArrayExpression.equalToExpression d s u v :=
            ArrayExpression.ne_of_sizeOf_lt (by simp <;> omega)
          have hnev : v ≠ ArrayExpression.equalToExpression d s u v :=
            ArrayExpression.ne_of_sizeOf_lt (by simp <;> omega)
          rcases hmem with hmem | hmem | hmem
          · injection hmem with h1 h2
            refine ⟨uArr, result, ?_, ?_, ?_⟩
            · dsimp only
              rw [h1, getAssoc_setAssoc_ne _ _ _ _ hneu]
              exact hu
            · dsimp only
              rw [h2]
              exact getAssoc_setAssoc_self _ _ _
            · omega
          · injection hmem with h1 h2
            refine ⟨vArr, result, ?_, ?_, ?_⟩
            · dsimp only
              rw [h1, getAssoc_setAssoc_ne _ _ _ _ hnev]
              exact hv
            · dsimp only
              rw [h2]
              exact getAssoc_setAssoc_self _ _ _
            · omega
          · cases hmem

/-- The concrete graph for the C3 counterexample: two integer literals
over an imported shape and their sum, with both the first literal and
the sum requested as roots (the literal playing the role of a selected
column that is also exported). -/
def exShape : ShapeExpression := .importShapeExpression "t"

def exLit1 : ArrayExpression := .integerLiteralExpression .INT64 exShape 1

def exLit2 : ArrayExpression := .integerLiteralExpression .INT64 exShape 2

def exAdd : ArrayExpression := .addExpression .INT64 exShape exLit1 exLit2

def exRoots : List Expression := [.array exLit1, .array exAdd]

/-- A one-row input table for location "t". -/
def exCtx0 : EvalContext :=
  { arrays := [], shapes := [],
    importer := [("t", ⟨[("c", ArrowType.int64, [Val.i 0])]⟩)],
    exported := [] }

/-- C3 counterexample: on the graph with roots `lit 1` and
`add (lit 1) (lit 2)`, `generate_mappings` emits the Identity mapping
from the literal to the Add node and it reaches the manifest (it is the
entire merged result), yet evaluating the scheduled commands on a
one-row input gives `[1]` for the literal and `[3]` for the Add node:
the two arrays are not elementwise equal (they differ at row 0).
The spec only guarantees, and the code only ensures, that the two
arrays have equal length (`C3_identity_amended`). -/
theorem C3_identity_counterexample :
    generate_mappings 100 exRoots
        = .ok [Mapping.identityMapping exLit1 exAdd]
    ∧ ((compile_ir_to_cmd 100 exRoots >>= fun cmds =>
          evalCommands cmds exCtx0) >>= fun ctx2 =>
        (getAssoc ctx2.arrays exLit1 >>= fun va =>
          getAssoc ctx2.arrays exAdd >>= fun vt =>
          pure (va, vt)))
        = .ok ([Val.i 1], [Val.i 3])
    ∧ ([Val.i 1] : PArray) ≠ [Val.i 3] := by
  refine ⟨rfl, rfl, by decide⟩

/-- Witness for `C3_identity_amended`: the Add node of the concrete
graph, evaluated in a cache holding `[1]` and `[2]` for its operands;
the emitted Identity mapping from the first literal relates arrays of
length one each. -/
theorem C3_identity_amended_witness :
    ∃ va vt,
      getAssoc
          (EvalContext.mk
            [(exLit1, [Val.i 1]), (exLit2, [Val.i 2]),
              (exAdd, [Val.i 3])] [(exShape, 1)] [] []).arrays exLit1
          = .ok va
      ∧ getAssoc
          (EvalContext.mk
            [(exLit1, [Val.i 1]), (exLit2, [Val.i 2]),
              (exAdd, [Val.i 3])] [(exShape, 1)] [] []).arrays exAdd
          = .ok vt
      ∧ va.length = vt.length :=
  C3_identity_amended exAdd
    (EvalContext.mk [(exLit1, [Val.i 1]), (exLit2, [Val.i 2])]
      [(exShape, 1)] [] [])
    (EvalContext.mk
      [(exLit1, [Val.i 1]), (exLit2, [Val.i 2]), (exAdd, [Val.i 3])]
      [(exShape, 1)] [] [])
    [Mapping.identityMapping exLit1 exAdd,
      Mapping.identityMapping exLit2 exAdd]
    exLit1 exAdd rfl rfl (by decide)

/-- The multiset of all mappings stored in an index (every entry's set,
with multiplicity: the Python sets hold identity-distinct objects that
the structural model may conflate, so counts are tracked). -/
def valsM : ExprMappings → Multiset Mapping
  | [] => 0
  | p :: rest => (p.2 : Multiset Mapping) + valsM rest

/-- An index is well keyed when every stored mapping sits under its own
key (its src for by_src, its tgt for by_tgt). -/
def WellKeyed (key : Mapping → ArrayExpression) (m : ExprMappings) :
    Prop :=
  ∀ p ∈ m, ∀ mp ∈ p.2, key mp = p.1

theorem valsM_mem {m : ExprMappings} {mp : Mapping} :
    mp ∈ valsM m ↔ ∃ p ∈ m, mp ∈ p.2 := by
  induction m with
  | nil => simp [valsM]
  | cons p rest ih => simp [valsM, ih]

theorem valsM_setdefaultAdd (m : ExprMappings) (k : ArrayExpression)
    (v : Mapping) : valsM (setdefaultAdd m k v) = v ::ₘ valsM m := by
  induction m with
  | nil => simp [setdefaultAdd, valsM]
  | cons p rest ih =>
    by_cases h : p.1 = k
    · simp only [setdefaultAdd, if_pos h, valsM]
      have : ((p.2 ++ [v] : List Mapping) : Multiset Mapping)
          = v ::ₘ (p.2 : Multiset Mapping) := by
        simp [Multiset.cons_swap]
      rw [this, Multiset.cons_add]
    · simp only [setdefaultAdd, if_neg h, valsM, ih]
      simp [Multiset.cons_swap, Multiset.add_cons]

theorem WellKeyed_setdefaultAdd {key : Mapping → ArrayExpression}
    {m : ExprMappings} {k : ArrayExpression} {v : Mapping}
    (hm : WellKeyed key m) (hv : key v = k) :
    WellKeyed key (setdefaultAdd m k v) := by
  induction m with
  | nil =>
    intro p hp mp hmp
    simp only [setdefaultAdd, List.mem_singleton] at hp
    subst hp
    simp only [List.mem_singleton] at hmp
    subst hmp
    exact hv
  | cons q rest ih =>
    intro p hp mp hmp
    by_cases h : q.1 = k
    · simp only [setdefaultAdd, if_pos h, List.mem_cons] at hp
      rcases hp with hp | hp
      · subst hp
        simp only [List.mem_append, List.mem_singleton] at hmp
        rcases hmp with hmp | hmp
        · exact hm q (List.mem_cons_self _ _) mp hmp
        · subst hmp
          rw [hv, h]
      · exact hm p (List.mem_cons_of_mem _ hp) mp hmp
    · simp only [setdefaultAdd, if_neg h, List.mem_cons] at hp
      rcases hp with hp | hp
      · subst hp
        exact hm q (List.mem_cons_self _ _) mp hmp
      · exact ih (fun r hr => hm r (List.mem_cons_of_mem _ hr)) p hp mp hmp

theorem mem_exprKeys_setdefaultAdd {m : ExprMappings}
    {k x : ArrayExpression} {v : Mapping} :
    x ∈ exprKeys (setdefaultAdd m k v) ↔ x ∈ exprKeys m ∨ x = k := by
  induction m with
  | nil => simp [setdefaultAdd, exprKeys]
  | cons p rest ih =>
    by_cases h : p.1 = k
    · simp only [setdefaultAdd, if_pos h, exprKeys, List.map_cons,
        List.mem_cons]
      constructor
      · intro hx
        exact Or.inl hx
      · intro hx
        rcases hx with hx | hx
        · exact hx
        · rw [hx, ← h]
          exact Or.inl rfl
    · simp only [setdefaultAdd, if_neg h, exprKeys, List.map_cons,
        List.mem_cons] at ih ⊢
      rw [ih]
      tauto

theorem exprKeys_setdefaultAdd_nodup {m : ExprMappings}
    {k : ArrayExpression} {v : Mapping} (h : (exprKeys m).Nodup) :
    (exprKeys (setdefaultAdd m k v)).Nodup := by
  induction m with
  | nil => simp [setdefaultAdd, exprKeys]
  | cons p rest ih =>
    simp only [exprKeys, List.map_cons, List.nodup_cons] at h
    by_cases hpk : p.1 = k
    · simp only [setdefaultAdd, if_pos hpk, exprKeys, List.map_cons,
        List.nodup_cons]
      exact ⟨h.1, h.2⟩
    · simp only [setdefaultAdd, if_neg hpk, exprKeys, List.map_cons,
        List.nodup_cons]
      refine ⟨?_, ih h.2⟩
      intro hc
      rcases (mem_exprKeys_setdefaultAdd).mp hc with hc | hc
      · exact h.1 hc
      · exact hpk hc

theorem popEntry_snd_sublist (m : ExprMappings) (k : ArrayExpression) :
    (popEntry m k).2.Sublist m := by
  induction m with
  | nil => simp [popEntry]
  | cons p rest ih =>
    by_cases h : p.1 = k
    · simp only [popEntry, if_pos h]
      exact List.sublist_cons_self _ _
    · simp only [popEntry, if_neg h]
      exact List.Sublist.cons₂ _ ih

theorem valsM_popEntry (m : ExprMappings) (k : ArrayExpression) :
    valsM m = ((popEntry m k).1 : Multiset Mapping)
      + valsM (popEntry m k).2 := by
  induction m with
  | nil => simp [popEntry, valsM]
  | cons p rest ih =>
    by_cases h : p.1 = k
    · simp [popEntry, if_pos h, valsM]
    · simp only [popEntry, if_neg h, valsM]
      rw [ih]
      exact add_left_comm _ _ _

theorem WellKeyed_popEntry {key : Mapping → ArrayExpression}
    {m : ExprMappings} {k : ArrayExpression} (hm : WellKeyed key m) :
    WellKeyed key (popEntry m k).2 :=
  fun p hp => hm p ((popEntry_snd_sublist m k).subset hp)

theorem popEntry_fst_key {key : Mapping → ArrayExpression}
    {m : ExprMappings} {k : ArrayExpression} (hm : WellKeyed key m) :
    ∀ mp ∈ (popEntry m k).1, key mp = k := by
  induction m with
  | nil => simp [popEntry]
  | cons p rest ih =>
    by_cases h : p.1 = k
    · simp only [popEntry, if_pos h]
      intro mp hmp
      rw [hm p (List.mem_cons_self _ _) mp hmp, h]
    · simp only [popEntry, if_neg h]
      exact ih (fun q hq => hm q (List.mem_cons_of_mem _ hq))

theorem exprKeys_popEntry_nodup {m : ExprMappings} {k : ArrayExpression}
    (h : (exprKeys m).Nodup) : (exprKeys (popEntry m k).2).Nodup := by
  have hs : ((popEntry m k).2.map (·.1)).Sublist (m.map (·.1)) :=
    (popEntry_snd_sublist m k).map _
  simp only [exprKeys] at h ⊢
  exact hs.nodup h

theorem exprKeys_popEntry_sub {m : ExprMappings} {k : ArrayExpression} :
    ∀ x ∈ exprKeys (popEntry m k).2, x ∈ exprKeys m := by
  intro x hx
  have hs : ((popEntry m k).2.map (·.1)).Sublist (m.map (·.1)) :=
    (popEntry_snd_sublist m k).map _
  simp only [exprKeys] at hx ⊢
  exact hs.subset hx

theorem not_mem_exprKeys_popEntry {m : ExprMappings}
    {k : ArrayExpression} (h : (exprKeys m).Nodup) :
    k ∉ exprKeys (popEntry m k).2 := by
  induction m with
  | nil => simp [popEntry, exprKeys]
  | cons p rest ih =>
    simp only [exprKeys, List.map_cons, List.nodup_cons] at h
    by_cases hk : p.1 = k
    · simp only [popEntry, if_pos hk, exprKeys]
      rw [← hk]
      exact h.1
    · simp only [popEntry, if_neg hk, exprKeys, List.map_cons]
      intro hmem
      rcases List.mem_cons.mp hmem with hmem | hmem
      · exact hk hmem.symm
      · exact ih h.2 hmem

theorem lookupAdd_ok_valsM {m m2 : ExprMappings} {k : ArrayExpression}
    {v : Mapping} (h : lookupAdd m k v = .ok m2) :
    valsM m2 = v ::ₘ valsM m := by
  induction m generalizing m2 with
  | nil => simp [lookupAdd] at h
  | cons p rest ih =>
    by_cases hk : p.1 = k
    · simp only [lookupAdd, if_pos hk] at h
      cases h
      simp only [valsM]
      have : ((p.2 ++ [v] : List Mapping) : Multiset Mapping)
          = v ::ₘ (p.2 : Multiset Mapping) := by
        simp [Multiset.cons_swap]
      rw [this, Multiset.cons_add]
    · simp only [lookupAdd, if_neg hk] at h
      cases hrec : lookupAdd rest k v with
      | error e => rw [hrec, Except_error_bind] at h; cases h
      | ok r =>
        rw [hrec, Except_ok_bind] at h
        cases h
        simp only [valsM, ih hrec]
        exact Multiset.add_cons _ _ _

theorem lookupAdd_ok_keys {m m2 : ExprMappings} {k : ArrayExpression}
    {v : Mapping} (h : lookupAdd m k v = .ok m2) :
    exprKeys m2 = exprKeys m := by
  induction m generalizing m2 with
  | nil => simp [lookupAdd] at h
  | cons p rest ih =>
    by_cases hk : p.1 = k
    · simp only [lookupAdd, if_pos hk] at h
      cases h
      simp [exprKeys]
    · simp only [lookupAdd, if_neg hk] at h
      cases hrec : lookupAdd rest k v with
      | error e => rw [hrec, Except_error_bind] at h; cases h
      | ok r =>
        rw [hrec, Except_ok_bind] at h
        cases h
        have h2 := ih hrec
        simp only [exprKeys, List.map_cons] at h2 ⊢
        rw [h2]

theorem lookupAdd_ok_WK {key : Mapping → ArrayExpression}
    {m m2 : ExprMappings} {k : ArrayExpression} {v : Mapping}
    (hm : WellKeyed key m) (hv : key v = k)
    (h : lookupAdd m k v = .ok m2) : WellKeyed key m2 := by
  induction m generalizing m2 with
  | nil => simp [lookupAdd] at h
  | cons p rest ih =>
    by_cases hk : p.1 = k
    · simp only [lookupAdd, if_pos hk] at h
      cases h
      intro q hq mp hmp
      rcases List.mem_cons.mp hq with hq | hq
      · subst hq
        simp only [List.mem_append, List.mem_singleton] at hmp
        rcases hmp with hmp | hmp
        · exact hm p (List.mem_cons_self _ _) mp hmp
        · subst hmp
          rw [hv, hk]
      · exact hm q (List.mem_cons_of_mem _ hq) mp hmp
    · simp only [lookupAdd, if_neg hk] at h
      cases hrec : lookupAdd rest k v with
      | error e => rw [hrec, Except_error_bind] at h; cases h
      | ok r =>
        rw [hrec, Except_ok_bind] at h
        cases h
        intro q hq mp hmp
        rcases List.mem_cons.mp hq with hq | hq
        · subst hq
          exact hm p (List.mem_cons_self _ _) mp hmp
        · exact ih (fun r2 hr2 => hm r2 (List.mem_cons_of_mem _ hr2))
            hrec q hq mp hmp

theorem removeMapping_ok_valsM {m m2 : ExprMappings}
    {k : ArrayExpression} {v : Mapping}
    (h : removeMapping m k v = .ok m2) : valsM m = v ::ₘ valsM m2 := by
  induction m generalizing m2 with
  | nil => simp [removeMapping] at h
  | cons p rest ih =>
    by_cases hk : p.1 = k
    · simp only [removeMapping, if_pos hk] at h
      by_cases hv : v ∈ p.2
      · rw [if_pos hv] at h
        cases h
        simp only [valsM]
        have : (p.2 : Multiset Mapping)
            = v ::ₘ ((p.2.erase v : List Mapping) : Multiset Mapping) := by
          exact_mod_cast Multiset.coe_eq_coe.mpr (List.perm_cons_erase hv)
        rw [this, Multiset.cons_add]
      · rw [if_neg hv] at h
        cases h
    · simp only [removeMapping, if_neg hk] at h
      cases hrec : removeMapping rest k v with
      | error e => rw [hrec, Except_error_bind] at h; cases h
      | ok r =>
        rw [hrec, Except_ok_bind] at h
        cases h
        simp only [valsM, ih hrec]
        exact Multiset.add_cons _ _ _

theorem removeMapping_ok_keys {m m2 : ExprMappings}
    {k : ArrayExpression} {v : Mapping}
    (h : removeMapping m k v = .ok m2) : exprKeys m2 = exprKeys m := by
  induction m generalizing m2 with
  | nil => simp [removeMapping] at h
  | cons p rest ih =>
    by_cases hk : p.1 = k
    · simp only [removeMapping, if_pos hk] at h
      by_cases hv : v ∈ p.2
      · rw [if_pos hv] at h
        cases h
        simp [exprKeys]
      · rw [if_neg hv] at h
        cases h
    · simp only [removeMapping, if_neg hk] at h
      cases hrec : removeMapping rest k v with
      | error e => rw [hrec, Except_error_bind] at h; cases h
      | ok r =>
        rw [hrec, Except_ok_bind] at h
        cases h
        have h2 := ih hrec
        simp only [exprKeys, List.map_cons] at h2 ⊢
        rw [h2]

theorem removeMapping_ok_WK {key : Mapping → ArrayExpression}
    {m m2 : ExprMappings} {k : ArrayExpression} {v : Mapping}
    (hm : WellKeyed key m) (h : removeMapping m k v = .ok m2) :
    WellKeyed key m2 := by
  induction m generalizing m2 with
  | nil => simp [removeMapping] at h
  | cons p rest ih =>
    by_cases hk : p.1 = k
    · simp only [removeMapping, if_pos hk] at h
      by_cases hv : v ∈ p.2
      · rw [if_pos hv] at h
        cases h
        intro q hq mp hmp
        rcases List.mem_cons.mp hq with hq | hq
        · subst hq
          exact hm p (List.mem_cons_self _ _) mp (List.mem_of_mem_erase hmp)
        · exact hm q (List.mem_cons_of_mem _ hq) mp hmp
      · rw [if_neg hv] at h
        cases h
    · simp only [removeMapping, if_neg hk] at h
      cases hrec : removeMapping rest k v with
      | error e => rw [hrec, Except_error_bind] at h; cases h
      | ok r =>
        rw [hrec, Except_ok_bind] at h
        cases h
        intro q hq mp hmp
        rcases List.mem_cons.mp hq with hq | hq
        · subst hq
          exact hm p (List.mem_cons_self _ _) mp hmp
        · exact ih (fun r2 hr2 => hm r2 (List.mem_cons_of_mem _ hr2))
            hrec q hq mp hmp

theorem buildBy_valsM (key : Mapping → ArrayExpression)
    (mappings : List Mapping) :
    valsM (buildBy key mappings) = (mappings : Multiset Mapping) := by
  have main : ∀ (l : List Mapping) (acc : ExprMappings),
      valsM (l.foldl (fun m mp => setdefaultAdd m (key mp) mp) acc)
        = (l : Multiset Mapping) + valsM acc := by
    intro l
    induction l with
    | nil => intro acc; simp
    | cons x xs ih =>
      intro acc
      simp only [List.foldl_cons, ih, valsM_setdefaultAdd]
      rw [← Multiset.cons_coe, Multiset.cons_add]
      exact Multiset.add_cons _ _ _
  have h := main mappings []
  simp only [valsM] at h
  simpa using h

theorem buildBy_WK (key : Mapping → ArrayExpression)
    (mappings : List Mapping) : WellKeyed key (buildBy key mappings) := by
  have main : ∀ (l : List Mapping) (acc : ExprMappings),
      WellKeyed key acc →
      WellKeyed key (l.foldl (fun m mp => setdefaultAdd m (key mp) mp) acc)
      := by
    intro l
    induction l with
    | nil => intro acc h; exact h
    | cons x xs ih =>
      intro acc h
      exact ih _ (WellKeyed_setdefaultAdd h rfl)
  exact main mappings [] (fun p hp => absurd hp (List.not_mem_nil _))

theorem buildBy_nodup (key : Mapping → ArrayExpression)
    (mappings : List Mapping) :
    (exprKeys (buildBy key mappings)).Nodup := by
  have main : ∀ (l : List Mapping) (acc : ExprMappings),
      (exprKeys acc).Nodup →
      (exprKeys
        (l.foldl (fun m mp => setdefaultAdd m (key mp) mp) acc)).Nodup := by
    intro l
    induction l with
    | nil => intro acc h; exact h
    | cons x xs ih =>
      intro acc h
      exact ih _ (exprKeys_setdefaultAdd_nodup h)
  exact main mappings [] (by simp [exprKeys])

/-- What one merge step (or a run of them) does to the pair of indices:
it adds the same multiset of merged mappings to both sides, keeps the
key lists unchanged, and preserves well-keyedness. -/
def StepOK (st st2 : ExprMappings × ExprMappings) : Prop :=
  ∃ added : Multiset Mapping,
    valsM st2.1 = added + valsM st.1
    ∧ valsM st2.2 = added + valsM st.2
    ∧ exprKeys st2.1 = exprKeys st.1
    ∧ exprKeys st2.2 = exprKeys st.2
    ∧ (WellKeyed Mapping.src st.1 → WellKeyed Mapping.src st2.1)
    ∧ (WellKeyed Mapping.tgt st.2 → WellKeyed Mapping.tgt st2.2)

theorem StepOK_refl (st : ExprMappings × ExprMappings) : StepOK st st :=
  ⟨0, by simp, by simp, rfl, rfl, id, id⟩

theorem StepOK_trans {a b c : ExprMappings × ExprMappings}
    (h1 : StepOK a b) (h2 : StepOK b c) : StepOK a c := by
  obtain ⟨m1, hv1, hw1, hk1, hk2, hp1, hp2⟩ := h1
  obtain ⟨m2, hv1b, hw1b, hk1b, hk2b, hp1b, hp2b⟩ := h2
  exact ⟨m2 + m1, by rw [hv1b, hv1, add_assoc], by rw [hw1b, hw1, add_assoc],
    hk1b.trans hk1, hk2b.trans hk2, fun h => hp1b (hp1 h),
    fun h => hp2b (hp2 h)⟩

theorem mergeOnePair_stepOK {sm tm : Mapping}
    {st st2 : ExprMappings × ExprMappings}
    (h : mergeOnePair sm tm st = .ok st2) : StepOK st st2 := by
  simp only [mergeOnePair] at h
  cases hmm : mergeMappingPair sm tm with
  | error e => rw [hmm, Except_error_bind] at h; cases h
  | ok merged =>
    rw [hmm, Except_ok_bind] at h
    by_cases h1 : merged.src ≠ sm.src
    · rw [if_pos h1] at h; cases h
    · rw [if_neg h1] at h
      by_cases h2 : merged.tgt ≠ tm.tgt
      · rw [if_pos h2] at h; cases h
      · rw [if_neg h2] at h
        cases hl1 : lookupAdd st.1 merged.src merged with
        | error e => rw [hl1, Except_error_bind] at h; cases h
        | ok bs =>
          rw [hl1, Except_ok_bind] at h
          cases hl2 : lookupAdd st.2 merged.tgt merged with
          | error e => rw [hl2, Except_error_bind] at h; cases h
          | ok bt =>
            rw [hl2, Except_ok_bind] at h
            cases h
            refine ⟨{merged}, ?_, ?_, ?_, ?_, ?_, ?_⟩
            · show valsM bs = {merged} + valsM st.1
              rw [lookupAdd_ok_valsM hl1, Multiset.singleton_add]
            · show valsM bt = {merged} + valsM st.2
              rw [lookupAdd_ok_valsM hl2, Multiset.singleton_add]
            · exact lookupAdd_ok_keys hl1
            · exact lookupAdd_ok_keys hl2
            · intro hw
              exact lookupAdd_ok_WK hw rfl hl1
            · intro hw
              exact lookupAdd_ok_WK hw rfl hl2

theorem foldlM_mergeOnePair_stepOK {sm : Mapping} (T : List Mapping) :
    ∀ {st st2 : ExprMappings × ExprMappings},
      T.foldlM (fun st tm => mergeOnePair sm tm st) st = .ok st2 →
      StepOK st st2 := by
  induction T with
  | nil =>
    intro st st2 h
    rw [List.foldlM_nil] at h
    cases h
    exact StepOK_refl _
  | cons tm rest ih =>
    intro st st2 h
    rw [List.foldlM_cons] at h
    cases hstep : mergeOnePair sm tm st with
    | error e => rw [hstep, Except_error_bind] at h; cases h
    | ok stm =>
      rw [hstep, Except_ok_bind] at h
      exact StepOK_trans (mergeOnePair_stepOK hstep) (ih h)

theorem mergeProducts_stepOK {T : List Mapping} (S : List Mapping) :
    ∀ {st st2 : ExprMappings × ExprMappings},
      mergeProducts S T st = .ok st2 → StepOK st st2 := by
  induction S with
  | nil =>
    intro st st2 h
    simp only [mergeProducts] at h
    cases h
    exact StepOK_refl _
  | cons sm rest ih =>
    intro st st2 h
    simp only [mergeProducts] at h
    cases hstep : T.foldlM (fun st tm => mergeOnePair sm tm st) st with
    | error e => rw [hstep, Except_error_bind] at h; cases h
    | ok stm =>
      rw [hstep, Except_ok_bind] at h
      exact StepOK_trans (foldlM_mergeOnePair_stepOK T hstep) (ih h)

theorem removeAll_ok {key : Mapping → ArrayExpression}
    (key2 : Mapping → ArrayExpression) (l : List Mapping) :
    ∀ {m m2 : ExprMappings}, removeAll key l m = .ok m2 →
      valsM m = (l : Multiset Mapping) + valsM m2
      ∧ exprKeys m2 = exprKeys m
      ∧ (WellKeyed key2 m → WellKeyed key2 m2) := by
  induction l with
  | nil =>
    intro m m2 h
    simp only [removeAll] at h
    cases h
    exact ⟨by simp, rfl, id⟩
  | cons mp rest ih =>
    intro m m2 h
    simp only [removeAll] at h
    cases hrm : removeMapping m (key mp) mp with
    | error e => rw [hrm, Except_error_bind] at h; cases h
    | ok mm =>
      rw [hrm, Except_ok_bind] at h
      obtain ⟨hv, hk, hw⟩ := ih h
      refine ⟨?_, hk.trans (removeMapping_ok_keys hrm),
        fun hwk => hw (removeMapping_ok_WK hwk hrm)⟩
      rw [removeMapping_ok_valsM hrm, hv, ← Multiset.cons_coe,
        Multiset.cons_add]

/-- The elimination loop's invariant over (by_src, by_tgt): both indices
are well keyed with duplicate-free key lists, they store the same
multiset of mappings, and every key is a root or still awaits
elimination. -/
def MergeInv (roots : List Expression) (remaining : List ArrayExpression)
    (st : ExprMappings × ExprMappings) : Prop :=
  WellKeyed Mapping.src st.1 ∧ WellKeyed Mapping.tgt st.2
  ∧ valsM st.1 = valsM st.2
  ∧ (∀ k, k ∈ exprKeys st.1 ∨ k ∈ exprKeys st.2 →
      Expression.array k ∈ roots ∨ k ∈ remaining)
  ∧ (exprKeys st.1).Nodup ∧ (exprKeys st.2).Nodup

theorem eliminateNonroot_inv {roots : List Expression}
    {n : ArrayExpression} {rest : List ArrayExpression}
    {st st2 : ExprMappings × ExprMappings}
    (hinv : MergeInv roots (n :: rest) st)
    (h : eliminateNonroot st n = .ok st2) : MergeInv roots rest st2 := by
  obtain ⟨hwk1, hwk2, hsync, hkeys, hnd1, hnd2⟩ := hinv
  simp only [eliminateNonroot] at h
  cases hmp : mergeProducts (popEntry st.2 n).1 (popEntry st.1 n).1
      ((popEntry st.1 n).2, (popEntry st.2 n).2) with
  | error e => rw [hmp, Except_error_bind] at h; cases h
  | ok stM =>
    rw [hmp, Except_ok_bind] at h
    cases hra1 : removeAll Mapping.src (popEntry st.2 n).1 stM.1 with
    | error e => rw [hra1, Except_error_bind] at h; cases h
    | ok bySrc2 =>
      rw [hra1, Except_ok_bind] at h
      cases hra2 : removeAll Mapping.tgt (popEntry st.1 n).1 stM.2 with
      | error e => rw [hra2, Except_error_bind] at h; cases h
      | ok byTgt2 =>
        rw [hra2, Except_ok_bind] at h
        cases h
        obtain ⟨added, hv1, hv2, hk1, hk2, hp1, hp2⟩ :=
          mergeProducts_stepOK _ hmp
        dsimp only at hv1 hv2 hk1 hk2 hp1 hp2
        obtain ⟨rv1, rk1, rw1⟩ := removeAll_ok Mapping.src _ hra1
        obtain ⟨rv2, rk2, rw2⟩ := removeAll_ok Mapping.tgt _ hra2
        have hS := valsM_popEntry st.2 n
        have hT := valsM_popEntry st.1 n
        have hkeysS1 : exprKeys bySrc2 = exprKeys (popEntry st.1 n).2 :=
          rk1.trans hk1
        have hkeysT1 : exprKeys byTgt2 = exprKeys (popEntry st.2 n).2 :=
          rk2.trans hk2
        refine ⟨?_, ?_, ?_, ?_, ?_, ?_⟩
        · exact rw1 (hp1 (WellKeyed_popEntry hwk1))
        · exact rw2 (hp2 (WellKeyed_popEntry hwk2))
        · show valsM bySrc2 = valsM byTgt2
          refine Multiset.ext.mpr (fun a => ?_)
          have c1 := congrArg (Multiset.count a) hsync
          have c2 := congrArg (Multiset.count a) hS
          have c3 := congrArg (Multiset.count a) hT
          have c4 := congrArg (Multiset.count a) hv1
          have c5 := congrArg (Multiset.count a) hv2
          have c6 := congrArg (Multiset.count a) rv1
          have c7 := congrArg (Multiset.count a) rv2
          simp only [Multiset.count_add] at c1 c2 c3 c4 c5 c6 c7
          omega
        · intro k hk
          have hk3 : k ∈ exprKeys st.1 ∨ k ∈ exprKeys st.2 := by
            rcases hk with hk | hk
            · rw [hkeysS1] at hk
              exact Or.inl (exprKeys_popEntry_sub k hk)
            · rw [hkeysT1] at hk
              exact Or.inr (exprKeys_popEntry_sub k hk)
          have hkn : k ≠ n := by
            intro he
            subst he
            rcases hk with hk | hk
            · rw [hkeysS1] at hk
              exact not_mem_exprKeys_popEntry hnd1 hk
            · rw [hkeysT1] at hk
              exact not_mem_exprKeys_popEntry hnd2 hk
          rcases hkeys k hk3 with hr | hr
          · exact Or.inl hr
          · rcases List.mem_cons.mp hr with hr | hr
            · exact absurd hr hkn
            · exact Or.inr hr
        · rw [hkeysS1]
          exact exprKeys_popEntry_nodup hnd1
        · rw [hkeysT1]
          exact exprKeys_popEntry_nodup hnd2

theorem foldlM_eliminate_inv {roots : List Expression}
    (nonroots : List ArrayExpression) :
    ∀ {st st2 : ExprMappings × ExprMappings},
      MergeInv roots nonroots st →
      nonroots.foldlM eliminateNonroot st = .ok st2 →
      MergeInv roots [] st2 := by
  induction nonroots with
  | nil =>
    intro st st2 hinv h
    rw [List.foldlM_nil] at h
    cases h
    exact hinv
  | cons n rest ih =>
    intro st st2 hinv h
    rw [List.foldlM_cons] at h
    cases hstep : eliminateNonroot st n with
    | error e => rw [hstep, Except_error_bind] at h; cases h
    | ok stn =>
      rw [hstep, Except_ok_bind] at h
      exact ih (eliminateNonroot_inv hinv hstep) h

theorem mergeMappings_roots {mappings : List Mapping}
    {roots : List Expression} {out : List Mapping} {m : Mapping}
    (h : mergeMappings mappings roots = .ok out) (hm : m ∈ out) :
    Expression.array m.src ∈ roots ∧ Expression.array m.tgt ∈ roots := by
  simp only [mergeMappings] at h
  cases hf : (((exprKeys (buildBy Mapping.src mappings)
      ++ exprKeys (buildBy Mapping.tgt mappings)).dedup).filter
      (fun k => decide (Expression.array k ∉ roots))).foldlM
      eliminateNonroot
      (buildBy Mapping.src mappings, buildBy Mapping.tgt mappings) with
  | error e => rw [hf, Except_error_bind] at h; cases h
  | ok final =>
    rw [hf, Except_ok_bind] at h
    cases h
    have hinit : MergeInv roots
        (((exprKeys (buildBy Mapping.src mappings)
          ++ exprKeys (buildBy Mapping.tgt mappings)).dedup).filter
          (fun k => decide (Expression.array k ∉ roots)))
        (buildBy Mapping.src mappings, buildBy Mapping.tgt mappings) := by
      refine ⟨buildBy_WK _ _, buildBy_WK _ _, ?_, ?_,
        buildBy_nodup _ _, buildBy_nodup _ _⟩
      · show valsM (buildBy Mapping.src mappings)
            = valsM (buildBy Mapping.tgt mappings)
        rw [buildBy_valsM, buildBy_valsM]
      · intro k hk
        by_cases hr : Expression.array k ∈ roots
        · exact Or.inl hr
        · refine Or.inr (List.mem_filter.mpr ⟨List.mem_dedup.mpr ?_,
            by simpa using hr⟩)
          rcases hk with hk | hk
          · exact List.mem_append.mpr (Or.inl hk)
          · exact List.mem_append.mpr (Or.inr hk)
    have hfin := foldlM_eliminate_inv _ hinit hf
    obtain ⟨fwk1, fwk2, fsync, fkeys, fnd1, fnd2⟩ := hfin
    obtain ⟨p, hp, hmp⟩ := List.mem_flatMap.mp hm
    have hsrc : m.src = p.1 := fwk1 p hp m hmp
    have hmem1 : m ∈ valsM final.1 := valsM_mem.mpr ⟨p, hp, hmp⟩
    have hmem2 : m ∈ valsM final.2 := fsync ▸ hmem1
    obtain ⟨q, hq, hmq⟩ := valsM_mem.mp hmem2
    have htgt : m.tgt = q.1 := fwk2 q hq m hmq
    constructor
    · rw [hsrc]
      rcases fkeys p.1 (Or.inl (List.mem_map_of_mem (fun r => r.1) hp))
          with hr | hr
      · exact hr
      · exact absurd hr (List.not_mem_nil _)
    · rw [htgt]
      rcases fkeys q.1 (Or.inr (List.mem_map_of_mem (fun r => r.1) hq))
          with hr | hr
      · exact hr
      · exact absurd hr (List.not_mem_nil _)

/-- C5: every mapping that generate_mappings returns relates two root
expressions: no mapping whose source or target is a non-root
intermediate expression survives the elimination pass. -/
theorem C5_generate_mappings_roots (fuel : Nat) (roots : List Expression)
    (out : List Mapping) (m : Mapping)
    (h : generate_mappings fuel roots = .ok out) (hm : m ∈ out) :
    Expression.array m.src ∈ roots ∧ Expression.array m.tgt ∈ roots := by
  simp only [generate_mappings] at h
  cases hc : generateCandidateMappings fuel roots with
  | error e => rw [hc, Except_error_bind] at h; cases h
  | ok mappings =>
    rw [hc, Except_ok_bind] at h
    exact mergeMappings_roots h hm

/-- Witness for `C5_generate_mappings_roots`: on the concrete two-root
graph, the surviving Identity mapping relates the two roots. -/
theorem C5_generate_mappings_roots_witness :
    Expression.array (Mapping.identityMapping exLit1 exAdd).src ∈ exRoots
    ∧ Expression.array (Mapping.identityMapping exLit1 exAdd).tgt
        ∈ exRoots :=
  C5_generate_mappings_roots 100 exRoots
    [Mapping.identityMapping exLit1 exAdd]
    (Mapping.identityMapping exLit1 exAdd) rfl
    (List.mem_singleton.mpr rfl)

/- ===== AST (dtl/nodes.py) and lowering (dtl/ast_to_ir.py) =====
Source location spans are dropped (see the file header); Python floats
and bytes payloads are carried as uninterpreted strings, matching the IR
embedding. -/

namespace nodes

/-- dtl/nodes.py Literal and its subclasses. -/
inductive Literal where
  | boolean (value : Bool)
  | integer (value : Int)
  | float (value : String)
  | string (value : String)
  | bytes (value : String)
  deriving DecidableEq, Repr

/-- dtl/nodes.py ColumnName: unqualified or table-qualified. -/
inductive ColumnName where
  | unqualifiedColumnName (column_name : String)
  | qualifiedColumnName (table_name column_name : String)
  deriving DecidableEq, Repr

/-- dtl/nodes.py Expression: column-level AST expressions. -/
inductive Expression where
  | columnReferenceExpression (name : ColumnName)
  | literalExpression (literal : Literal)
  | functionCallExpression (name : String) (arguments : List Expression)
  | equalToExpression (left right : Expression)
  | lessThanExpression (left right : Expression)
  | lessThanEqualExpression (left right : Expression)
  | greaterThanExpression (left right : Expression)
  | greaterThanEqualExpression (left right : Expression)
  | addExpression (left right : Expression)
  | subtractExpression (left right : Expression)
  | multiplyExpression (left right : Expression)
  | divideExpression (left right : Expression)

/-- dtl/nodes.py DistinctClause. -/
inductive DistinctClause where
  | mk (consecutive : Bool)
  deriving DecidableEq, Repr

/-- dtl/nodes.py ColumnBinding and its subclasses. -/
inductive ColumnBinding where
  | wildcardColumnBinding
  | implicitColumnBinding (expression : Expression)
  /-- The alias carries an UnqualifiedColumnName; only its column_name
  string is used. -/
  | aliasedColumnBinding (expression : Expression) (aliasName : String)


/-- dtl/nodes.py JoinConstraint: ON predicate or USING columns. -/
inductive JoinConstraint where
  | joinOnConstraint (predicate : Expression)
  | joinUsingConstraint (columns : List String)

/-- dtl/nodes.py WhereClause. -/
inductive WhereClause where
  | mk (predicate : Expression)

/-- dtl/nodes.py GroupByClause. -/
inductive GroupByClause where
  | mk (consecutive : Bool) (pattern : List Expression)

mutual

/-- dtl/nodes.py TableBinding: a table expression with an optional alias
(the TableName's string). -/
inductive TableBinding where
  | mk (expression : TableExpression) (aliasName : Option String)

/-- dtl/nodes.py FromClause. -/
inductive FromClause where
  | mk (source : TableBinding)

/-- dtl/nodes.py JoinClause. -/
inductive JoinClause where
  | mk (table : TableBinding) (constraint : JoinConstraint)

/-- dtl/nodes.py TableExpression and its subclasses. -/
inductive TableExpression where
  | selectExpression (distinct : Option DistinctClause)
      (columns : List ColumnBinding) (source : FromClause)
      (join : List JoinClause) (whereClause : Option WhereClause)
      (group_by : Option GroupByClause)
  | importExpression (location : String)
  | tableReferenceExpression (name : String)

end

/-- dtl/nodes.py Statement and its subclasses. -/
inductive Statement where
  | assignmentStatement (target : String) (expression : TableExpression)
  | updateStatement
  | deleteStatement
  | insertStatement
  | exportStatement (expression : TableExpression) (location : String)
  | beginStatement (text : String)

end nodes

/-- dtl/ast_to_ir.py ScopeColumn: a named column of the logical scope,
with the set of namespaces it may be referenced through (a Python set,
modelled as the list of inserted elements; all reads are membership
tests, so duplicates are harmless). -/
structure ScopeColumn where
  name : String
  namespaces : List (Option String)
  expression : ArrayExpression
  deriving DecidableEq, Repr

/-- dtl/ast_to_ir.py Scope. -/
structure Scope where
  columns : List ScopeColumn
  deriving DecidableEq, Repr

/-- dtl/ast_to_ir.py `_qualified_column_name`: the plain name when the
column is reachable unqualified, else the alphabetically first namespace
as prefix (IndexError on a column with no namespaces at all). -/
def _qualified_column_name (column : ScopeColumn) :
    Except PyErr String :=
  if none ∈ column.namespaces then .ok column.name
  else
    match (column.namespaces.filterMap id).mergeSort
        (fun a b => decide (a ≤ b)) with
    | [] => .error .indexError
    | ns :: _ => .ok (ns ++ "." ++ column.name)

/-- dtl/ast_to_ir.py `_strip_namespaces`: rebuild every column with
namespaces {None}, raising the user-facing "compilation error" on any
column not reachable unqualified. -/
def _strip_namespaces : List ScopeColumn → Except PyErr (List ScopeColumn)
  | [] => .ok []
  | c :: rest =>
    if none ∈ c.namespaces then do
      let r ← _strip_namespaces rest
      .ok (⟨c.name, [none], c.expression⟩ :: r)
    else .error (.compileError "compilation error")

/-- dtl/ir.py Level (trace table levels). -/
inductive Level where
  | EXPORT | STATEMENT | TABLE_EXPRESSION | COLUMN_EXPRESSION
  | INTERNAL | ASSERTION
  deriving DecidableEq, Repr

/-- dtl/ir.py Column: a named array expression of a program table. -/
structure Column where
  name : String
  expression : ArrayExpression
  deriving DecidableEq, Repr

/-- dtl/ir.py Table and its two subclasses (the TraceTable ast_node span
is dropped with all locations). -/
inductive Table where
  | traceTable (level : Level) (columns : List Column)
  | exportTable (export_as : String) (columns : List Column)
  deriving DecidableEq, Repr

/-- dtl/ir.py Program: the frozen dataclass wrapping the ordered table
list.  It defines no `__iter__` or `__getitem__`, so iterating it (as
eval.py's filter_tables does) raises TypeError. -/
structure Program where
  tables : List Table
  deriving Repr

/-- dtl/ast_to_ir.py Context: importer plus the accumulated program
tables and WITH bindings; the mutable dataclass is modelled by passing
the updated context along. -/
structure AContext where
  importer : List (String × PyTable)
  tables : List Table
  bindings : List (String × Scope)
  deriving Repr

/-- Context.trace: append a TraceTable built from the scope. -/
def AContext.trace (ctx : AContext) (scope : Scope) (level : Level) :
    Except PyErr AContext := do
  let columns ← scope.columns.mapM (fun c => do
    let nm ← _qualified_column_name c
    pure (⟨nm, c.expression⟩ : Column))
  .ok { ctx with tables := ctx.tables ++ [.traceTable level columns] }

/-- Context.export: append an ExportTable built from the scope. -/
def AContext.exportScope (ctx : AContext) (scope : Scope)
    (name : String) : Except PyErr AContext := do
  let columns ← scope.columns.mapM (fun c => do
    let nm ← _qualified_column_name c
    pure (⟨nm, c.expression⟩ : Column))
  .ok { ctx with tables := ctx.tables ++ [.exportTable name columns] }

/-- dtl/ast_to_ir.py `expression_name`: the output name of an implicit
column binding; only unqualified column references have one (qualified
ones trip the assert, everything else raises the registered
Exception). -/
def expression_name : nodes.Expression → Except PyErr String
  | .columnReferenceExpression (.unqualifiedColumnName n2) => .ok n2
  | .columnReferenceExpression (.qualifiedColumnName _ _) =>
    .error (.assertionError "isinstance(expr.name, n.UnqualifiedColumnName)")
  | _ => .error (.compileError "no name could be derived for expression")

/-- dtl/ast_to_ir.py `compile_expression`: lower a column expression
against a scope.  The context parameter of the Python function is unused
by every registered arm and dropped here.  The fuel argument is a
modelling device standing for Python's recursion limit; every verified
statement is conditional on successful completion, and concrete runs
pick it large enough.  The comparison operators have no registration and
fall to the singledispatch base. -/
def compile_expression :
    Nat → nodes.Expression → Scope → Except PyErr ArrayExpression
  | 0, _, _ => .error (.runtimeError "recursion limit")
  | _ + 1, .columnReferenceExpression nm, scope =>
    let ns : Option String := match nm with
      | .unqualifiedColumnName _ => none
      | .qualifiedColumnName t _ => some t
    let base : String := match nm with
      | .unqualifiedColumnName n2 => n2
      | .qualifiedColumnName _ n2 => n2
    match scope.columns.find?
        (fun c => decide (ns ∈ c.namespaces) && decide (base = c.name)) with
    | some c => .ok c.expression
    | none => .error (.compileError ("could not find " ++ base))
  | _ + 1, .literalExpression lit, scope =>
    match scope.columns with
    | [] => .error .indexError
    | c0 :: _ =>
      let shape := c0.expression.shape
      match lit with
      | .boolean v => .ok (.booleanLiteralExpression .BOOL shape v)
      | .integer v => .ok (.integerLiteralExpression .INT64 shape v)
      | .float v => .ok (.floatLiteralExpression .DOUBLE shape v)
      | .string v => .ok (.textLiteralExpression .TEXT shape v)
      | .bytes v => .ok (.bytesLiteralExpression .BYTES shape v)
  | fuel + 1, .functionCallExpression nm args, scope =>
    if nm = "add" then
      match args with
      | [ea, eb] => do
        let source_a ← compile_expression fuel ea scope
        let source_b ← compile_expression fuel eb scope
        if source_a.dtype ≠ source_b.dtype then
          .error (.compileError "Type error")
        else if source_a.shape ≠ source_b.shape then
          .error (.assertionError "Shape mismatch error")
        else
          .ok (.addExpression source_a.dtype source_a.shape source_a
            source_b)
      | _ => .error (.assertionError "len(expr.arguments) == 2")
    else .error (.notImplemented "")
  | fuel + 1, .addExpression l r, scope => do
    let left ← compile_expression fuel l scope
    let right ← compile_expression fuel r scope
    if left.dtype ≠ right.dtype then
      .error (.compileError "Type error: cannot add")
    else if left.shape ≠ right.shape then
      .error (.assertionError "Shape mismatch error")
    else .ok (.addExpression left.dtype left.shape left right)
  | fuel + 1, .subtractExpression l r, scope => do
    let left ← compile_expression fuel l scope
    let right ← compile_expression fuel r scope
    if left.dtype ≠ right.dtype then
      .error (.compileError "Type error: cannot subtract")
    else if left.shape ≠ right.shape then
      .error (.assertionError "Shape mismatch error")
    else .ok (.subtractExpression left.dtype left.shape left right)
  | fuel + 1, .multiplyExpression l r, scope => do
    let left ← compile_expression fuel l scope
    let right ← compile_expression fuel r scope
    if left.dtype ≠ right.dtype then
      .error (.compileError "Type error: cannot multiply")
    else if left.shape ≠ right.shape then
      .error (.assertionError "Shape mismatch error")
    else .ok (.multiplyExpression left.dtype left.shape left right)
  | fuel + 1, .divideExpression l r, scope => do
    let left ← compile_expression fuel l scope
    let right ← compile_expression fuel r scope
    if left.dtype ≠ right.dtype then
      .error (.compileError "Type error: cannot divide")
    else if left.shape ≠ right.shape then
      .error (.assertionError "Shape mismatch error")
    else .ok (.divideExpression left.dtype left.shape left right)
  | fuel + 1, .equalToExpression l r, scope => do
    let left ← compile_expression fuel l scope
    let right ← compile_expression fuel r scope
    if left.dtype ≠ right.dtype then
      .error (.compileError "Type error: cannot compare")
    else if left.shape ≠ right.shape then
      .error (.assertionError "Shape mismatch error")
    else .ok (.equalToExpression .BOOL left.shape left right)
  | _ + 1, .lessThanExpression _ _, _ =>
    .error (.notImplemented
      "compile_expression not implemented for LessThanExpression")
  | _ + 1, .lessThanEqualExpression _ _, _ =>
    .error (.notImplemented
      "compile_expression not implemented for LessThanEqualExpression")
  | _ + 1, .greaterThanExpression _ _, _ =>
    .error (.notImplemented
      "compile_expression not implemented for GreaterThanExpression")
  | _ + 1, .greaterThanEqualExpression _ _, _ =>
    .error (.notImplemented
      "compile_expression not implemented for GreaterThanEqualExpression")

/-- dtl/ast_to_ir.py `table_expression_name`: the default registration
returns the empty string; table references return their name. -/
def table_expression_name : nodes.TableExpression → String
  | .tableReferenceExpression nm => nm
  | _ => ""

/-- dtl/ast_to_ir.py `compile_column_binding`: the columns a select-list
entry contributes (a wildcard re-exports the whole scope; implicit and
aliased bindings contribute one compiled column), each with namespaces
{None}. -/
def compile_column_binding (fuel : Nat) (binding : nodes.ColumnBinding)
    (scope : Scope) : Except PyErr (List ScopeColumn) :=
  match binding with
  | .wildcardColumnBinding =>
    .ok (scope.columns.map (fun c => ⟨c.name, [none], c.expression⟩))
  | .implicitColumnBinding e => do
    let column_expr ← compile_expression fuel e scope
    let nm ← expression_name e
    .ok [⟨nm, [none], column_expr⟩]
  | .aliasedColumnBinding e aliasName => do
    let column_expr ← compile_expression fuel e scope
    .ok [⟨aliasName, [none], column_expr⟩]

mutual

/-- dtl/ast_to_ir.py `compile_table_expression` (singledispatch over
Import, table reference and Select); returns the scope and the context
with the appended trace tables.  Fuel as in `compile_expression`. -/
def compile_table_expression :
    Nat → nodes.TableExpression → AContext →
      Except PyErr (Scope × AContext)
  | 0, _, _ => .error (.runtimeError "recursion limit")
  | _ + 1, .tableReferenceExpression nm, ctx => do
    let src_scope ← getAssoc ctx.bindings nm
    let result : Scope :=
      ⟨src_scope.columns.map (fun c => ⟨c.name, [none], c.expression⟩)⟩
    let ctx2 ← ctx.trace result .TABLE_EXPRESSION
    .ok (result, ctx2)
  | _ + 1, .importExpression location, ctx => do
    let table ← getAssoc ctx.importer location
    let columns ← table.columns.mapM (fun c => do
      let dt ← arrowTypeToIrType c.2.1
      pure (⟨c.1, [none],
        ArrayExpression.importExpression dt
          (.importShapeExpression location) location c.1⟩ : ScopeColumn))
    let new_scope : Scope := ⟨columns⟩
    let ctx2 ← ctx.trace new_scope .TABLE_EXPRESSION
    .ok (new_scope, ctx2)
  | fuel + 1, .selectExpression _ cols source joins whereClause group_by,
      ctx => do
    match source with
    | .mk (.mk srcExpr srcAlias) =>
      let p ← compile_table_expression fuel srcExpr ctx
      let src_name := match srcAlias with
        | some a => a
        | none => table_expression_name srcExpr
      let src_scope : Scope :=
        ⟨p.1.columns.map
          (fun c => ⟨c.name, none :: some src_name :: c.namespaces,
            c.expression⟩)⟩
      let q ← joins.foldlM
        (fun acc jc => compile_join_clause fuel acc jc) (src_scope, p.2)
      let r ← match whereClause with
        | none => .ok q
        | some (.mk pred) => do
          let condition_expr ← compile_expression fuel pred q.1
          let shape := ShapeExpression.whereShapeExpression condition_expr
          .ok ((⟨q.1.columns.map
            (fun c => ⟨c.name, c.namespaces,
              ArrayExpression.whereExpression c.expression.dtype shape
                c.expression condition_expr⟩)⟩ : Scope), q.2)
      if group_by.isSome then
        .error (.notImplemented "")
      else do
        let bound ← flatMapExcept
          (fun b => compile_column_binding fuel b r.1) cols
        let columns :=
          (bound.foldl (fun d c => setAssoc d c.name c) []).map (·.2)
        let scope : Scope := ⟨columns⟩
        let ctx2 ← r.2.trace scope .STATEMENT
        .ok (scope, ctx2)

/-- The body of the select lowering's join loop (lines 470-590 of
dtl/ast_to_ir.py), one join clause at a time. -/
def compile_join_clause :
    Nat → Scope × AContext → nodes.JoinClause →
      Except PyErr (Scope × AContext)
  | 0, _, _ => .error (.runtimeError "recursion limit")
  | fuel + 1, (src_scope, ctx), .mk (.mk joinExpr joinAlias) constraint
      => do
    let p ← compile_table_expression fuel joinExpr ctx
    let join_scope := p.1
    let join_name := match joinAlias with
      | some a => a
      | none => table_expression_name joinExpr
    match src_scope.columns with
    | [] => .error .indexError
    | sc0 :: _ =>
      match join_scope.columns with
      | [] => .error .indexError
      | jc0 :: _ =>
        let shape_a := sc0.expression.shape
        let shape_b := jc0.expression.shape
        let shape_full := ShapeExpression.joinShapeExpression shape_a
          shape_b
        let left_index_full := ArrayExpression.joinLeftExpression .INDEX
          shape_full shape_a shape_b
        let right_index_full := ArrayExpression.joinRightExpression
          .INDEX shape_full shape_a shape_b
        let join_scope_full : Scope :=
          ⟨src_scope.columns.map (fun c =>
            ⟨c.name, c.namespaces,
              ArrayExpression.pickExpression c.expression.dtype
                shape_full c.expression left_index_full⟩)
          ++ join_scope.columns.map (fun c =>
            ⟨c.name, some join_name :: c.namespaces,
              ArrayExpression.pickExpression c.expression.dtype
                shape_full c.expression right_index_full⟩)⟩
        match constraint with
        | .joinUsingConstraint _ => .error (.notImplemented "")
        | .joinOnConstraint predicate => do
          let mask_expression ← compile_expression fuel predicate
            join_scope_full
          let shape := ShapeExpression.whereShapeExpression
            mask_expression
          let left_index := ArrayExpression.whereExpression .INDEX shape
            left_index_full mask_expression
          let right_index := ArrayExpression.whereExpression .INDEX
            shape right_index_full mask_expression
          let out_scope : Scope :=
            ⟨src_scope.columns.map (fun c =>
              ⟨c.name, c.namespaces,
                ArrayExpression.pickExpression c.expression.dtype shape
                  c.expression left_index⟩)
            ++ join_scope.columns.map (fun c =>
              ⟨c.name, some join_name :: c.namespaces,
                ArrayExpression.pickExpression c.expression.dtype shape
                  c.expression right_index⟩)⟩
          let ctx2 ← p.2.trace out_scope .INTERNAL
          .ok (out_scope, ctx2)

end

/-- dtl/ast_to_ir.py `compile_statement`: WITH assignment and EXPORT;
the unused statement kinds fall to the singledispatch base. -/
def compile_statement (fuel : Nat) (stmt : nodes.Statement)
    (ctx : AContext) : Except PyErr AContext :=
  match stmt with
  | .assignmentStatement target expr => do
    let p ← compile_table_expression fuel expr ctx
    let cols ← _strip_namespaces p.1.columns
    let stmt_scope : Scope := ⟨cols⟩
    let ctx2 ← p.2.trace stmt_scope .STATEMENT
    .ok { ctx2 with bindings := setAssoc ctx2.bindings target stmt_scope }
  | .exportStatement expr location => do
    let p ← compile_table_expression fuel expr ctx
    let cols ← _strip_namespaces p.1.columns
    let stmt_scope : Scope := ⟨cols⟩
    let ctx2 ← p.2.trace stmt_scope .EXPORT
    ctx2.exportScope stmt_scope location
  | _ => .error (.notImplemented "")

/-- dtl/ast_to_ir.py `compile_ast_to_ir`: run the statements in order
against a fresh context and wrap the accumulated table list in an
ir.Program. -/
def compile_ast_to_ir (fuel : Nat) (statements : List nodes.Statement)
    (importer : List (String × PyTable)) :
    Except PyErr Program := do
  let ctx ← statements.foldlM (fun c st => compile_statement fuel st c)
    (⟨importer, [], []⟩ : AContext)
  .ok ⟨ctx.tables⟩

/-- First-occurrence deduplication: the key order of a Python dict
populated by repeated assignment. -/
def firstDedup {α : Type} [DecidableEq α] : List α → List α
  | [] => []
  | x :: xs => x :: (firstDedup xs).filter (fun y => decide (y ≠ x))

theorem firstDedup_sublist {α : Type} [DecidableEq α] (l : List α) :
    (firstDedup l).Sublist l := by
  induction l with
  | nil => simp [firstDedup]
  | cons x xs ih =>
    simp only [firstDedup]
    exact List.Sublist.cons₂ _ ((List.filter_sublist _).trans ih)

theorem mem_firstDedup {α : Type} [DecidableEq α] {a : α} {l : List α} :
    a ∈ firstDedup l ↔ a ∈ l := by
  induction l with
  | nil => simp [firstDedup]
  | cons x xs ih =>
    simp only [firstDedup, List.mem_cons, List.mem_filter]
    by_cases hax : a = x
    · simp [hax]
    · simp [hax, ih]

theorem firstDedup_nodup {α : Type} [DecidableEq α] (l : List α) :
    (firstDedup l).Nodup := by
  induction l with
  | nil => simp [firstDedup]
  | cons x xs ih =>
    simp only [firstDedup, List.nodup_cons]
    constructor
    · intro hc
      rcases List.mem_filter.mp hc with ⟨_, hne⟩
      simp at hne
    · exact ih.filter _

theorem firstDedup_append_singleton {α : Type} [DecidableEq α]
    (l : List α) (n : α) :
    firstDedup (l ++ [n])
      = if n ∈ l then firstDedup l else firstDedup l ++ [n] := by
  induction l with
  | nil => simp [firstDedup]
  | cons x xs ih =>
    simp only [List.cons_append, firstDedup]
    have ih2 : firstDedup (xs.append [n])
        = if n ∈ xs then firstDedup xs else firstDedup xs ++ [n] := ih
    rw [ih2]
    by_cases hn : n ∈ xs
    · rw [if_pos hn, if_pos (List.mem_cons_of_mem _ hn)]
    · rw [if_neg hn]
      by_cases hnx : n = x
      · subst hnx
        rw [if_pos (List.mem_cons_self _ _), List.filter_append]
        simp [firstDedup]
      · rw [if_neg (fun hc => by
          rcases List.mem_cons.mp hc with hc | hc
          · exact hnx hc
          · exact hn hc), List.filter_append]
        simp only [firstDedup, List.filter_cons, List.filter_nil]
        simp [hnx]

theorem keys_setAssoc {κ ν : Type} [DecidableEq κ]
    (m : List (κ × ν)) (k : κ) (v : ν) :
    (setAssoc m k v).map (·.1)
      = if k ∈ m.map (·.1) then m.map (·.1) else m.map (·.1) ++ [k] := by
  induction m with
  | nil => simp [setAssoc]
  | cons p rest ih =>
    by_cases h : p.1 = k
    · simp [setAssoc, if_pos h, h]
    · have hne : k ≠ p.1 := fun hh => h hh.symm
      simp only [setAssoc, if_neg h, List.map_cons, List.mem_cons, ih]
      by_cases hk : k ∈ rest.map (·.1)
      · simp [hk, hne]
      · simp [hk, hne]

theorem mem_setAssoc {κ ν : Type} [DecidableEq κ]
    {m : List (κ × ν)} (hnd : (m.map (·.1)).Nodup) (k2 : κ) (v2 : ν)
    (k : κ) (v : ν) :
    (k, v) ∈ setAssoc m k2 v2
      ↔ ((k = k2 ∧ v = v2) ∨ (k ≠ k2 ∧ (k, v) ∈ m)) := by
  induction m with
  | nil =>
    simp only [setAssoc, List.mem_singleton, Prod.mk.injEq,
      List.not_mem_nil, and_false, or_false]
  | cons p rest ih =>
    simp only [List.map_cons, List.nodup_cons] at hnd
    by_cases h : p.1 = k2
    · simp only [setAssoc, if_pos h, List.mem_cons, Prod.mk.injEq]
      constructor
      · intro hc
        rcases hc with ⟨hk, hv⟩ | hc
        · exact Or.inl ⟨hk.trans h, hv⟩
        · have hkk : k ≠ k2 := by
            intro he
            apply hnd.1
            rw [h, ← he]
            exact List.mem_map_of_mem (fun q => q.1) hc
          exact Or.inr ⟨hkk, Or.inr hc⟩
      · intro hc
        rcases hc with ⟨hk, hv⟩ | ⟨hkk, hc⟩
        · exact Or.inl ⟨hk.trans h.symm, hv⟩
        · rcases hc with hc | hc
          · exfalso
            have hfst : k = p.1 := congrArg Prod.fst hc
            exact hkk (hfst.trans h)
          · exact Or.inr hc
    · simp only [setAssoc, if_neg h, List.mem_cons, ih hnd.2]
      constructor
      · intro hc
        rcases hc with hc | hc
        · have hfst : k = p.1 := congrArg Prod.fst hc
          have hkk : k ≠ k2 := fun he => h (hfst.symm.trans he)
          exact Or.inr ⟨hkk, Or.inl hc⟩
        · rcases hc with hc | ⟨hkk, hc⟩
          · exact Or.inl hc
          · exact Or.inr ⟨hkk, Or.inr hc⟩
      · intro hc
        rcases hc with hc | ⟨hkk, hc⟩
        · exact Or.inr (Or.inl hc)
        · rcases hc with hc | hc
          · exact Or.inl hc
          · exact Or.inr (Or.inr ⟨hkk, hc⟩)

theorem Except_bind_ok_inv {ε : Type} {α β : Type}
    {x : Except ε α} {g : α → Except ε β} {b : β}
    (h : x >>= g = .ok b) : ∃ a, x = .ok a ∧ g a = .ok b := by
  cases x with
  | error e => rw [Except_error_bind] at h; cases h
  | ok a =>
    rw [Except_ok_bind] at h
    exact ⟨a, rfl, h⟩

/-- The name-indexed ordered map the select lowering populates from the
compiled column bindings (`columns_by_name`). -/
def dictCollect (bound : List ScopeColumn) :
    List (String × ScopeColumn) :=
  bound.foldl (fun d c => setAssoc d c.name c) []

theorem dictCollect_spec (bound : List ScopeColumn) :
    (∀ p ∈ dictCollect bound, p.2.name = p.1)
    ∧ ((dictCollect bound).map (·.1)).Nodup
    ∧ (dictCollect bound).map (·.1) = firstDedup (bound.map (·.name))
    ∧ ∀ (k : String) (v : ScopeColumn),
        (k, v) ∈ dictCollect bound
          ↔ bound.reverse.find? (fun c => decide (c.name = k))
              = some v := by
  induction bound using List.reverseRecOn with
  | nil =>
    refine ⟨by simp [dictCollect], by simp [dictCollect], ?_, ?_⟩
    · simp [dictCollect, firstDedup]
    · intro k v
      simp [dictCollect]
  | append_singleton l c ih =>
    obtain ⟨inamed, inodup, ikeys, imem⟩ := ih
    have hfold : dictCollect (l ++ [c])
        = setAssoc (dictCollect l) c.name c := by
      simp [dictCollect, List.foldl_append]
    have hrev : (l ++ [c]).reverse = c :: l.reverse := by
      simp
    refine ⟨?_, ?_, ?_, ?_⟩
    · intro p hp
      rw [hfold] at hp
      obtain ⟨k, v⟩ := p
      rcases (mem_setAssoc inodup c.name c k v).mp hp with
          ⟨hk, hv⟩ | ⟨_, hp2⟩
      · rw [hv, hk]
      · exact inamed (k, v) hp2
    · rw [hfold, keys_setAssoc]
      by_cases hc : c.name ∈ (dictCollect l).map (·.1)
      · rw [if_pos hc]
        exact inodup
      · rw [if_neg hc]
        simp only [List.nodup_append, List.nodup_cons, List.nodup_nil]
        refine ⟨inodup, by simp, ?_⟩
        intro a ha
        simp only [List.mem_singleton]
        intro he
        rw [he] at ha
        exact hc ha
    · rw [hfold, keys_setAssoc, List.map_append, List.map_singleton,
        firstDedup_append_singleton, ikeys]
      by_cases hc : c.name ∈ l.map (·.name)
      · rw [if_pos (mem_firstDedup.mpr hc), if_pos hc]
      · rw [if_neg (fun h2 => hc (mem_firstDedup.mp h2)), if_neg hc]
    · intro k v
      rw [hfold, hrev, mem_setAssoc inodup]
      by_cases hk : c.name = k
      · rw [List.find?_cons_of_pos _ (by simp [hk])]
        constructor
        · intro hc
          rcases hc with ⟨_, hv⟩ | ⟨hne, _⟩
          · rw [hv]
          · exact absurd hk.symm hne
        · intro hc
          have hv : c = v := by
            injection hc
          exact Or.inl ⟨hk.symm, hv.symm⟩
      · rw [List.find?_cons_of_neg _ (by simp [hk])]
        rw [← imem k v]
        constructor
        · intro hc
          rcases hc with ⟨hke, _⟩ | ⟨_, hm⟩
          · exact absurd hke.symm hk
          · exact hm
        · intro hc
          exact Or.inr ⟨fun he => hk he.symm, hc⟩

theorem strip_ok_names : ∀ {cs out : List ScopeColumn},
    _strip_namespaces cs = .ok out →
    out.map (·.name) = cs.map (·.name)
    ∧ ∀ c ∈ out, c.namespaces = [none] := by
  intro cs
  induction cs with
  | nil =>
    intro out h
    cases h
    simp
  | cons c rest ih =>
    intro out h
    simp only [_strip_namespaces] at h
    by_cases hc : none ∈ c.namespaces
    · rw [if_pos hc] at h
      obtain ⟨r, hr, h2⟩ := Except_bind_ok_inv h
      cases h2
      obtain ⟨hnames, hns⟩ := ih hr
      refine ⟨by simp [hnames], ?_⟩
      intro c2 hc2
      rcases List.mem_cons.mp hc2 with hc2 | hc2
      · rw [hc2]
      · exact hns c2 hc2
    · rw [if_neg hc] at h
      cases h

theorem strip_all_none : ∀ {cs : List ScopeColumn},
    (∀ c ∈ cs, none ∈ c.namespaces) →
    ∃ out, _strip_namespaces cs = .ok out := by
  intro cs
  induction cs with
  | nil =>
    intro _
    exact ⟨[], rfl⟩
  | cons c rest ih =>
    intro h
    obtain ⟨out, hout⟩ := ih (fun c2 hc2 => h c2 (List.mem_cons_of_mem _ hc2))
    refine ⟨⟨c.name, [none], c.expression⟩ :: out, ?_⟩
    simp only [_strip_namespaces, if_pos (h c (List.mem_cons_self _ _)),
      hout, Except_ok_bind]

theorem mapM_qualified_all_none {cs : List ScopeColumn}
    (h : ∀ c ∈ cs, none ∈ c.namespaces) :
    cs.mapM (fun c => do
        let nm ← _qualified_column_name c
        pure (⟨nm, c.expression⟩ : Column))
      = .ok (cs.map (fun c => ⟨c.name, c.expression⟩)) := by
  induction cs with
  | nil => rfl
  | cons c rest ih =>
    have h1 : _qualified_column_name c = .ok c.name := by
      simp [_qualified_column_name, h c (List.mem_cons_self _ _)]
    rw [List.mapM_cons]
    simp only [h1, Except_ok_bind,
      ih (fun c2 hc2 => h c2 (List.mem_cons_of_mem _ hc2))]
    rfl

theorem exportScope_all_none (ctx : AContext) {cs : List ScopeColumn}
    (h : ∀ c ∈ cs, none ∈ c.namespaces) (name : String) :
    AContext.exportScope ctx ⟨cs⟩ name
      = .ok { ctx with tables := ctx.tables
          ++ [.exportTable name
            (cs.map (fun c => ⟨c.name, c.expression⟩))] } := by
  simp only [AContext.exportScope, mapM_qualified_all_none h,
    Except_ok_bind]

/-- C7: (1) the STATEMENT-level scope a lowered SELECT returns is the
name-indexed ordered map over the compiled select-list columns: at most
one column per output name, a repeated name keeps the last binding's
column (the last write wins), and the column order is the select list's
first-occurrence order (in particular a subsequence of the select
list's name sequence); (2) the ExportTable an EXPORT statement appends
carries exactly the statement scope's column names in order. -/
theorem C7_select_dict_and_export :
    (∀ (fuel : Nat) (dis : Option nodes.DistinctClause)
      (cols : List nodes.ColumnBinding) (source : nodes.FromClause)
      (joins : List nodes.JoinClause) (wc : Option nodes.WhereClause)
      (gb : Option nodes.GroupByClause) (ctx : AContext) (scope : Scope)
      (ctx2 : AContext),
      compile_table_expression fuel
          (.selectExpression dis cols source joins wc gb) ctx
        = .ok (scope, ctx2) →
      ∃ (pre : Scope) (bound : List ScopeColumn),
        flatMapExcept (fun b => compile_column_binding (fuel - 1) b pre)
            cols = .ok bound
        ∧ scope.columns = (dictCollect bound).map (·.2)
        ∧ (scope.columns.map (·.name)).Nodup
        ∧ scope.columns.map (·.name) = firstDedup (bound.map (·.name))
        ∧ (scope.columns.map (·.name)).Sublist (bound.map (·.name))
        ∧ ∀ col ∈ scope.columns,
            bound.reverse.find? (fun c => decide (c.name = col.name))
              = some col)
    ∧ (∀ (fuel : Nat) (expr : nodes.TableExpression) (loc : String)
        (ctx ctx2 : AContext),
        compile_statement fuel (.exportStatement expr loc) ctx
          = .ok ctx2 →
        ∃ (scope : Scope) (ctxMid ctxTr : AContext)
          (ecols : List Column),
          compile_table_expression fuel expr ctx = .ok (scope, ctxMid)
          ∧ ctx2.tables = ctxTr.tables ++ [.exportTable loc ecols]
          ∧ ecols.map (·.name) = scope.columns.map (·.name)) := by
  constructor
  · intro fuel dis cols source joins wc gb ctx scope ctx2 h
    cases fuel with
    | zero => simp [compile_table_expression] at h
    | succ f =>
      obtain ⟨⟨srcExpr, srcAlias⟩⟩ := source
      simp only [compile_table_expression] at h
      obtain ⟨p, hp, h⟩ := Except_bind_ok_inv h
      obtain ⟨q, hq, h⟩ := Except_bind_ok_inv h
      cases wc with
      | none =>
        rw [Except_ok_bind] at h
        cases gb with
        | some g2 => simp at h
        | none =>
          simp only [Option.isSome_none, Bool.false_eq_true,
            if_false] at h
          obtain ⟨bound, hbound, h⟩ := Except_bind_ok_inv h
          obtain ⟨tctx, htctx, h⟩ := Except_bind_ok_inv h
          cases h
          obtain ⟨hnamed, hnodup, hkeys, hmem⟩ := dictCollect_spec bound
          have hnames : ((dictCollect bound).map (·.2)).map (·.name)
              = (dictCollect bound).map (·.1) := by
            rw [List.map_map]
            exact List.map_congr_left (fun p2 hp2 => hnamed p2 hp2)
          refine ⟨_, bound, hbound, rfl, ?_, ?_, ?_, ?_⟩
          · show ((((dictCollect bound).map (·.2)).map (·.name))).Nodup
            rw [hnames]
            exact hnodup
          · show (((dictCollect bound).map (·.2)).map (·.name))
              = firstDedup (bound.map (·.name))
            rw [hnames]
            exact hkeys
          · show (((dictCollect bound).map (·.2)).map (·.name)).Sublist
              (bound.map (·.name))
            rw [hnames, hkeys]
            exact firstDedup_sublist _
          · intro col hcol
            obtain ⟨p2, hp2, hpe⟩ := List.mem_map.mp hcol
            have hname : p2.2.name = p2.1 := hnamed p2 hp2
            have hmm := (hmem p2.1 p2.2).mp (by
                rw [Prod.mk.eta]
                exact hp2)
            rw [← hpe, hname]
            exact hmm
      | some w =>
        obtain ⟨pred⟩ := w
        obtain ⟨ce, hce, h⟩ := Except_bind_ok_inv h
        rw [Except_ok_bind] at h
        cases gb with
        | some g2 => simp at h
        | none =>
          simp only [Option.isSome_none, Bool.false_eq_true,
            if_false] at h
          obtain ⟨bound, hbound, h⟩ := Except_bind_ok_inv h
          obtain ⟨tctx, htctx, h⟩ := Except_bind_ok_inv h
          cases h
          obtain ⟨hnamed, hnodup, hkeys, hmem⟩ := dictCollect_spec bound
          have hnames : ((dictCollect bound).map (·.2)).map (·.name)
              = (dictCollect bound).map (·.1) := by
            rw [List.map_map]
            exact List.map_congr_left (fun p2 hp2 => hnamed p2 hp2)
          refine ⟨_, bound, hbound, rfl, ?_, ?_, ?_, ?_⟩
          · show ((((dictCollect bound).map (·.2)).map (·.name))).Nodup
            rw [hnames]
            exact hnodup
          · show (((dictCollect bound).map (·.2)).map (·.name))
              = firstDedup (bound.map (·.name))
            rw [hnames]
            exact hkeys
          · show (((dictCollect bound).map (·.2)).map (·.name)).Sublist
              (bound.map (·.name))
            rw [hnames, hkeys]
            exact firstDedup_sublist _
          · intro col hcol
            obtain ⟨p2, hp2, hpe⟩ := List.mem_map.mp hcol
            have hname : p2.2.name = p2.1 := hnamed p2 hp2
            have hmm := (hmem p2.1 p2.2).mp (by
                rw [Prod.mk.eta]
                exact hp2)
            rw [← hpe, hname]
            exact hmm
  · intro fuel expr loc ctx ctx2 h
    simp only [compile_statement] at h
    obtain ⟨p, hp, h⟩ := Except_bind_ok_inv h
    obtain ⟨cols, hcols, h⟩ := Except_bind_ok_inv h
    obtain ⟨tctx, htctx, h⟩ := Except_bind_ok_inv h
    obtain ⟨hnames, hns⟩ := strip_ok_names hcols
    have hall : ∀ c ∈ cols, none ∈ c.namespaces := by
      intro c hc
      rw [hns c hc]
      exact List.mem_singleton.mpr rfl
    rw [exportScope_all_none tctx hall loc] at h
    cases h
    refine ⟨p.1, p.2, tctx, cols.map (fun c => ⟨c.name, c.expression⟩),
      ?_, rfl, ?_⟩
    · rw [Prod.mk.eta]
      exact hp
    · rw [List.map_map]
      exact hnames

/-- C8: lowering a literal broadcasts it to the shape of the scope's
first column (first conjunct, over every literal kind and nonempty
scope); but against a scope with zero columns the lowering raises a
bare IndexError from `scope.columns[0]`, not the user-facing
compile error the spec requires (second conjunct; the
`TODO handle tables with no columns` comment in the source marks the
gap). -/
theorem C8_literal_empty_scope :
    (∀ (fuel : Nat) (lit : nodes.Literal) (c0 : ScopeColumn)
      (rest : List ScopeColumn) (out : ArrayExpression),
      compile_expression (fuel + 1) (.literalExpression lit)
          ⟨c0 :: rest⟩ = .ok out →
      out.shape = c0.expression.shape)
    ∧ (∀ (fuel : Nat) (lit : nodes.Literal),
      compile_expression (fuel + 1) (.literalExpression lit) ⟨[]⟩
        = .error .indexError) := by
  constructor
  · intro fuel lit c0 rest out h
    cases lit with
    | boolean v =>
      simp only [compile_expression] at h
      cases h
      rfl
    | integer v =>
      simp only [compile_expression] at h
      cases h
      rfl
    | float v =>
      simp only [compile_expression] at h
      cases h
      rfl
    | string v =>
      simp only [compile_expression] at h
      cases h
      rfl
    | bytes v =>
      simp only [compile_expression] at h
      cases h
      rfl
  · intro fuel lit
    cases lit <;> rfl

theorem mapM_ok_mem {α β : Type} {f : α → Except PyErr β} :
    ∀ {l : List α} {out : List β}, l.mapM f = .ok out →
      ∀ y ∈ out, ∃ x ∈ l, f x = .ok y := by
  intro l
  induction l with
  | nil =>
    intro out h y hy
    rw [List.mapM_nil] at h
    cases h
    cases hy
  | cons x xs ih =>
    intro out h y hy
    rw [List.mapM_cons] at h
    obtain ⟨b, hb, h⟩ := Except_bind_ok_inv h
    obtain ⟨bs, hbs, h⟩ := Except_bind_ok_inv h
    cases h
    rcases List.mem_cons.mp hy with hy | hy
    · exact ⟨x, List.mem_cons_self _ _, hy ▸ hb⟩
    · obtain ⟨x2, hx2, hfx2⟩ := ih hbs y hy
      exact ⟨x2, List.mem_cons_of_mem _ hx2, hfx2⟩

theorem flatMapExcept_ok_mem {α β : Type}
    {f : α → Except PyErr (List β)} :
    ∀ {l : List α} {out : List β}, flatMapExcept f l = .ok out →
      ∀ y ∈ out, ∃ x ∈ l, ∃ ys, f x = .ok ys ∧ y ∈ ys := by
  intro l
  induction l with
  | nil =>
    intro out h y hy
    cases h
    cases hy
  | cons x xs ih =>
    intro out h y hy
    simp only [flatMapExcept] at h
    obtain ⟨ys, hys, h⟩ := Except_bind_ok_inv h
    obtain ⟨rest, hrest, h⟩ := Except_bind_ok_inv h
    cases h
    rcases List.mem_append.mp hy with hy | hy
    · exact ⟨x, List.mem_cons_self _ _, ys, hys, hy⟩
    · obtain ⟨x2, hx2, ys2, hys2, hy2⟩ := ih hrest y hy
      exact ⟨x2, List.mem_cons_of_mem _ hx2, ys2, hys2, hy2⟩

theorem compile_column_binding_namespaces {fuel : Nat}
    {b : nodes.ColumnBinding} {scope : Scope} {out : List ScopeColumn}
    (h : compile_column_binding fuel b scope = .ok out) :
    ∀ c ∈ out, c.namespaces = [none] := by
  cases b with
  | wildcardColumnBinding =>
    simp only [compile_column_binding] at h
    cases h
    intro c hc
    obtain ⟨c2, _, hc2⟩ := List.mem_map.mp hc
    rw [← hc2]
  | implicitColumnBinding e =>
    simp only [compile_column_binding] at h
    obtain ⟨ce, hce, h⟩ := Except_bind_ok_inv h
    obtain ⟨nm, hnm, h⟩ := Except_bind_ok_inv h
    cases h
    intro c hc
    rw [List.mem_singleton.mp hc]
  | aliasedColumnBinding e a =>
    simp only [compile_column_binding] at h
    obtain ⟨ce, hce, h⟩ := Except_bind_ok_inv h
    cases h
    intro c hc
    rw [List.mem_singleton.mp hc]

/-- C10: every Scope returned by `compile_table_expression` (IMPORT,
table reference or SELECT) has namespaces {None} on every column, and
consequently `_strip_namespaces` succeeds on it (it never raises its
"compilation error" on a scope produced by table-expression
lowering). -/
theorem C10_table_expression_namespaces (fuel : Nat)
    (expr : nodes.TableExpression) (ctx : AContext) (scope : Scope)
    (ctx2 : AContext)
    (h : compile_table_expression fuel expr ctx = .ok (scope, ctx2)) :
    (∀ c ∈ scope.columns, c.namespaces = [none])
    ∧ ∃ out, _strip_namespaces scope.columns = .ok out := by
  have hmain : ∀ c ∈ scope.columns, c.namespaces = [none] := by
    cases fuel with
    | zero => simp [compile_table_expression] at h
    | succ f =>
      cases expr with
      | tableReferenceExpression nm =>
        simp only [compile_table_expression] at h
        obtain ⟨src, hsrc, h⟩ := Except_bind_ok_inv h
        obtain ⟨tctx, htctx, h⟩ := Except_bind_ok_inv h
        cases h
        intro c hc
        obtain ⟨c2, _, hc2⟩ := List.mem_map.mp hc
        rw [← hc2]
      | importExpression location =>
        simp only [compile_table_expression] at h
        obtain ⟨table, htable, h⟩ := Except_bind_ok_inv h
        obtain ⟨columns, hcolumns, h⟩ := Except_bind_ok_inv h
        obtain ⟨tctx, htctx, h⟩ := Except_bind_ok_inv h
        cases h
        intro c hc
        obtain ⟨x, _, hfx⟩ := mapM_ok_mem hcolumns c hc
        obtain ⟨dt, hdt, hfx⟩ := Except_bind_ok_inv hfx
        cases hfx
        rfl
      | selectExpression dis cols source joins wc gb =>
        obtain ⟨⟨srcExpr, srcAlias⟩⟩ := source
        simp only [compile_table_expression] at h
        obtain ⟨p, hp, h⟩ := Except_bind_ok_inv h
        obtain ⟨q, hq, h⟩ := Except_bind_ok_inv h
        have tail : ∀ (y : Scope × AContext),
            (if gb.isSome = true then
              (Except.error (PyErr.notImplemented "") :
                Except PyErr (Scope × AContext))
            else do
              let bound ← flatMapExcept
                (fun b => compile_column_binding f b y.1) cols
              let ctx3 ← y.2.trace
                ⟨(List.foldl (fun d c => setAssoc d c.name c) []
                  bound).map (·.2)⟩ Level.STATEMENT
              Except.ok
                ((⟨(List.foldl (fun d c => setAssoc d c.name c) []
                  bound).map (·.2)⟩ : Scope), ctx3)) = .ok (scope, ctx2)
            → ∀ c ∈ scope.columns, c.namespaces = [none] := by
          intro y hy
          cases gb with
          | some g2 => simp at hy
          | none =>
            simp only [Option.isSome_none, Bool.false_eq_true,
              if_false] at hy
            obtain ⟨bound, hbound, hy⟩ := Except_bind_ok_inv hy
            obtain ⟨tctx, htctx, hy⟩ := Except_bind_ok_inv hy
            cases hy
            intro c hc
            obtain ⟨p2, hp2, hpe⟩ := List.mem_map.mp hc
            obtain ⟨_, _, hkeys2, hmem2⟩ := dictCollect_spec bound
            have hpm : (p2.1, p2.2) ∈ dictCollect bound := by
              rw [Prod.mk.eta]
              exact hp2
            have hfind := (hmem2 p2.1 p2.2).mp hpm
            have hcb : p2.2 ∈ bound := by
              have := List.mem_of_find?_eq_some hfind
              exact List.mem_reverse.mp this
            obtain ⟨b2, _, ys2, hys2, hy2⟩ :=
              flatMapExcept_ok_mem hbound p2.2 hcb
            rw [← hpe]
            exact compile_column_binding_namespaces hys2 p2.2 hy2
        cases wc with
        | none =>
          rw [Except_ok_bind] at h
          exact tail q h
        | some w =>
          obtain ⟨pred⟩ := w
          obtain ⟨ce, hce, h⟩ := Except_bind_ok_inv h
          rw [Except_ok_bind] at h
          exact tail _ h
  refine ⟨hmain, strip_all_none ?_⟩
  intro c hc
  rw [hmain c hc]
  exact List.mem_singleton.mpr rfl

/-- Witness for `C10_table_expression_namespaces`: lowering
`IMPORT 't'` against a one-column importer yields a scope whose single
column has namespaces {None}, and stripping succeeds. -/
theorem C10_table_expression_namespaces_witness :
    (∀ c ∈ (Scope.mk [⟨"c", [none],
        ArrayExpression.importExpression .INT64
          (.importShapeExpression "t") "t" "c"⟩]).columns,
      c.namespaces = [none])
    ∧ ∃ out, _strip_namespaces (Scope.mk [⟨"c", [none],
        ArrayExpression.importExpression .INT64
          (.importShapeExpression "t") "t" "c"⟩]).columns = .ok out :=
  C10_table_expression_namespaces 1 (.importExpression "t")
    ⟨[("t", ⟨[("c", ArrowType.int64, [Val.i 0])]⟩)], [], []⟩
    (Scope.mk [⟨"c", [none],
      ArrayExpression.importExpression .INT64
        (.importShapeExpression "t") "t" "c"⟩])
    ⟨[("t", ⟨[("c", ArrowType.int64, [Val.i 0])]⟩)],
      [Table.traceTable .TABLE_EXPRESSION
        [⟨"c", ArrayExpression.importExpression .INT64
          (.importShapeExpression "t") "t" "c"⟩]], []⟩
    rfl

/- ===== Lexer (dtl/lexer.py, dtl/tokens.py) ===== -/

/-- dtl/tokens.py: the token classes the lexer can emit (literal Char,
Byte, raw-string and Group/By/Using classes exist in tokens.py but no
lexer branch produces them; they are omitted).  Location spans are
dropped with all locations. -/
inductive TokKind where
  | integer | float | string | whitespace | lineComment | blockComment
  | slash | quotedName
  | begin_ | update | select | distinct | consecutive | as_ | from_
  | join | on_ | where_ | with_ | import_ | export_ | to_ | true_
  | false_ | type_ | name
  | semicolon | comma | dot | openParen | closeParen | openBrace
  | closeBrace | openBracket | closeBracket | at_ | pound | tilde
  | question | colon | dollar | eq | notEqual | not_ | lessThanEqual
  | lessThan | greaterThanEqual | greaterThan | minusEqual | minus
  | and_ | or_ | plusEqual | plus | starEqual | star | slashEqual
  | caret | percent | unknown
  deriving DecidableEq, Repr

/-- A lexed token: its class and its source text. -/
structure Token where
  kind : TokKind
  text : String
  deriving DecidableEq, Repr

/-- lexer.py `_is_whitespace` (None, i.e. end of input, is not). -/
def isWhitespaceChar (c : Char) : Bool :=
  c = ' ' || c = '\n' || c = '\t'

/-- lexer.py `_is_id_start`. -/
def isIdStart (c : Char) : Bool :=
  ('a' ≤ c && c ≤ 'z') || ('A' ≤ c && c ≤ 'Z') || c = '_'

/-- lexer.py `_is_id_continue`. -/
def isIdContinue (c : Char) : Bool :=
  ('a' ≤ c && c ≤ 'z') || ('A' ≤ c && c ≤ 'Z')
    || ('0' ≤ c && c ≤ '9') || c = '_' || c = '-'

/-- A decimal digit ("0" <= c <= "9" in the source). -/
def isDigitChar (c : Char) : Bool :=
  '0' ≤ c && c ≤ '9'

/-- lexer.py `_KEYWORD_TOKEN_CLASSES`. -/
def keywordKind (s : String) : Option TokKind :=
  (([("BEGIN", TokKind.begin_), ("UPDATE", TokKind.update),
    ("SELECT", TokKind.select), ("DISTINCT", TokKind.distinct),
    ("CONSECUTIVE", TokKind.consecutive), ("AS", TokKind.as_),
    ("FROM", TokKind.from_), ("JOIN", TokKind.join),
    ("ON", TokKind.on_), ("WHERE", TokKind.where_),
    ("WITH", TokKind.with_), ("IMPORT", TokKind.import_),
    ("EXPORT", TokKind.export_), ("TO", TokKind.to_),
    ("TRUE", TokKind.true_), ("FALSE", TokKind.false_)]
    : List (String × TokKind)).find? (fun p => p.1 = s)).map (·.2)

/-- The block-comment loop of `_next_class`: consume until `*/`; the
`_bump` past the end of input trips its assert (AssertionError, reported
as a lexer failure). -/
def blockCommentLoop : List Char → Except PyErr (List Char)
  | [] => .error .lexError
  | c :: r =>
    if c = '*' then
      match r with
      | '/' :: r2 => .ok r2
      | _ => blockCommentLoop r
    else blockCommentLoop r

/-- The quoted-literal loop of `_next_class` (shared by `"` names and
`'` strings): consume until the unescaped terminator, skipping the
character after each backslash; `_bump` past the end trips its
assert. -/
def quotedLoop (terminator : Char) : List Char → Except PyErr (List Char)
  | [] => .error .lexError
  | c :: r =>
    if c = '\\' then
      match r with
      | [] => .error .lexError
      | _ :: r2 => quotedLoop terminator r2
    else if c = terminator then .ok r
    else quotedLoop terminator r

/-- lexer.py `_Tokenizer._next_class`, given the first bumped character
and the rest of the input: the token class and the remaining input. -/
def nextClass (c : Char) (rest : List Char) :
    Except PyErr (TokKind × List Char) :=
  if isWhitespaceChar c then
    .ok (.whitespace, (rest.span isWhitespaceChar).2)
  else if c = '/' then
    match rest with
    | '/' :: r2 => .ok (.lineComment, (r2.span (fun ch => ch ≠ '\n')).2)
    | '*' :: r2 => do
      let r3 ← blockCommentLoop r2
      .ok (.blockComment, r3)
    | _ => .ok (.slash, rest)
  else if c = '"' then do
    let r2 ← quotedLoop '"' rest
    .ok (.quotedName, r2)
  else if c = '\'' then do
    let r2 ← quotedLoop '\'' rest
    .ok (.string, r2)
  else if isDigitChar c then
    let p := rest.span isDigitChar
    match p.2 with
    | '.' :: r2 => .ok (.float, (r2.span isDigitChar).2)
    | _ => .ok (.integer, p.2)
  else if isIdStart c then
    let p := rest.span isIdContinue
    let token := String.mk (c :: p.1)
    match keywordKind token with
    | some k => .ok (k, p.2)
    | none =>
      if c.isUpper then .ok (.type_, p.2)
      else .ok (.name, p.2)
  else if c = ';' then .ok (.semicolon, rest)
  else if c = ',' then .ok (.comma, rest)
  else if c = '.' then .ok (.dot, rest)
  else if c = '(' then .ok (.openParen, rest)
  else if c = ')' then .ok (.closeParen, rest)
  else if c = '\x7b' then .ok (.openBrace, rest)
  else if c = '\x7d' then .ok (.closeBrace, rest)
  else if c = '[' then .ok (.openBracket, rest)
  else if c = ']' then .ok (.closeBracket, rest)
  else if c = '@' then .ok (.at_, rest)
  else if c = '#' then .ok (.pound, rest)
  else if c = '~' then .ok (.tilde, rest)
  else if c = '?' then .ok (.question, rest)
  else if c = ':' then .ok (.colon, rest)
  else if c = '$' then .ok (.dollar, rest)
  else if c = '=' then .ok (.eq, rest)
  else if c = '!' then
    match rest with
    | '=' :: r2 => .ok (.notEqual, r2)
    | _ => .ok (.not_, rest)
  else if c = '<' then
    match rest with
    | '=' :: r2 => .ok (.lessThanEqual, r2)
    | _ => .ok (.lessThan, rest)
  else if c = '>' then
    match rest with
    | '=' :: r2 => .ok (.greaterThanEqual, r2)
    | _ => .ok (.greaterThan, rest)
  else if c = '-' then
    match rest with
    | '=' :: r2 => .ok (.minusEqual, r2)
    | _ => .ok (.minus, rest)
  else if c = '&' then .ok (.and_, rest)
  else if c = '|' then .ok (.or_, rest)
  else if c = '+' then
    match rest with
    | '+' :: r2 => .ok (.plusEqual, r2)
    | _ => .ok (.plus, rest)
  else if c = '*' then
    match rest with
    | '=' :: r2 => .ok (.starEqual, r2)
    | _ => .ok (.star, rest)
  else if c = '^' then .ok (.caret, rest)
  else if c = '%' then .ok (.percent, rest)
  else .ok (.unknown, rest)

/-- lexer.py `tokenize` main loop; the fuel is a modelling device (each
token consumes at least one character, so the input length bounds the
loop). -/
def tokenizeGo : Nat → List Char → Except PyErr (List Token)
  | 0, _ => .error .lexError
  | _ + 1, [] => .ok []
  | fuel + 1, c :: rest => do
    let p ← nextClass c rest
    let consumed := (c :: rest).take ((c :: rest).length - p.2.length)
    let tok : Token := ⟨p.1, String.mk consumed⟩
    let toks ← tokenizeGo fuel p.2
    .ok (tok :: toks)

/-- lexer.py `tokenize`. -/
def tokenize (s : String) : Except PyErr (List Token) :=
  tokenizeGo (s.length + 1) s.data

/-- parser.py `_filter_tokens`: drop whitespace and comments. -/
def filter_tokens (toks : List Token) : List Token :=
  toks.filter (fun tok =>
    tok.kind ≠ .lineComment && tok.kind ≠ .blockComment
      && tok.kind ≠ .whitespace)

/- ===== Parser =====
The grammar and actions are read off the rule registrations in
dtl/parser.py; the LALR engine itself comes from the external pypi
`lalr` package, which is not part of the repository, so the parsing
strategy is modelled from the spec (section 6: an LALR(1) grammar with
left-associative binary operators, comparisons binding loosest, then
additive, then multiplicative). -/

/-- parser.py `_parse_string`: strip the quotes and process backslash
escapes (the seven C escapes are mapped, anything else is kept
verbatim). -/
def parse_string_lit (raw : String) : String :=
  let rec unescape : List Char → List Char
    | [] => []
    | '\\' :: [] => []
    | '\\' :: c :: r =>
      (if c = 'a' then '\x07'
        else if c = 'b' then '\x08'
        else if c = 'f' then '\x0C'
        else if c = 'n' then '\n'
        else if c = 'r' then '\r'
        else if c = 't' then '\t'
        else if c = 'v' then '\x0B'
        else c) :: unescape r
    | c :: r => c :: unescape r
  String.mk (unescape ((raw.data.drop 1).dropLast))

mutual

/-- Modelled from the spec: atoms of the column-expression grammar
(literals, column references, function calls), per the parser.py rule
registrations; the fuel stands for the engine's input-bounded work. -/
def parseAtom :
    Nat → List Token → Except PyErr (nodes.Expression × List Token)
  | 0, _ => .error (.parseError "recursion limit")
  | fuel + 1, toks =>
    match toks with
    | ⟨.true_, _⟩ :: r => .ok (.literalExpression (.boolean true), r)
    | ⟨.false_, _⟩ :: r => .ok (.literalExpression (.boolean false), r)
    | ⟨.float, txt⟩ :: r => .ok (.literalExpression (.float txt), r)
    | ⟨.integer, txt⟩ :: r =>
      .ok (.literalExpression (.integer ((txt.toInt?).getD 0)), r)
    | ⟨.string, txt⟩ :: r =>
      .ok (.literalExpression (.string (parse_string_lit txt)), r)
    | ⟨.name, nm⟩ :: ⟨.openParen, _⟩ :: r =>
      (match r with
      | ⟨.closeParen, _⟩ :: r2 =>
        .ok (.functionCallExpression nm [], r2)
      | _ => do
        let p ← parseExprList fuel r
        match p.2 with
        | ⟨.closeParen, _⟩ :: r2 =>
          .ok (.functionCallExpression nm p.1, r2)
        | _ => .error (.parseError "expected close paren"))
    | ⟨.name, t1⟩ :: ⟨.dot, _⟩ :: ⟨.name, c1⟩ :: r =>
      .ok (.columnReferenceExpression (.qualifiedColumnName t1 c1), r)
    | ⟨.name, nm⟩ :: r =>
      .ok (.columnReferenceExpression (.unqualifiedColumnName nm), r)
    | _ => .error (.parseError "expected expression")

/-- Modelled from the spec: comma-delimited expression list (function
call arguments and similar Delimiter(Comma) rules). -/
def parseExprList :
    Nat → List Token →
      Except PyErr (List nodes.Expression × List Token)
  | 0, _ => .error (.parseError "recursion limit")
  | fuel + 1, toks => do
    let p ← parseExpression fuel toks
    match p.2 with
    | ⟨.comma, _⟩ :: r => do
      let q ← parseExprList fuel r
      .ok (p.1 :: q.1, q.2)
    | _ => .ok ([p.1], p.2)

/-- Modelled from the spec: the multiplicative level (`*`, `/`,
left-associative, binding tightest). -/
def parseMul :
    Nat → List Token → Except PyErr (nodes.Expression × List Token)
  | 0, _ => .error (.parseError "recursion limit")
  | fuel + 1, toks => do
    let p ← parseAtom fuel toks
    parseMulRest fuel p.1 p.2

/-- Modelled from the spec: the left-recursive tail of the
multiplicative level. -/
def parseMulRest :
    Nat → nodes.Expression → List Token →
      Except PyErr (nodes.Expression × List Token)
  | 0, _, _ => .error (.parseError "recursion limit")
  | fuel + 1, acc, toks =>
    match toks with
    | ⟨.star, _⟩ :: r => do
      let p ← parseAtom fuel r
      parseMulRest fuel (.multiplyExpression acc p.1) p.2
    | ⟨.slash, _⟩ :: r => do
      let p ← parseAtom fuel r
      parseMulRest fuel (.divideExpression acc p.1) p.2
    | _ => .ok (acc, toks)

/-- Modelled from the spec: the additive level (`+`, `-`,
left-associative). -/
def parseAdd :
    Nat → List Token → Except PyErr (nodes.Expression × List Token)
  | 0, _ => .error (.parseError "recursion limit")
  | fuel + 1, toks => do
    let p ← parseMul fuel toks
    parseAddRest fuel p.1 p.2

/-- Modelled from the spec: the left-recursive tail of the additive
level. -/
def parseAddRest :
    Nat → nodes.Expression → List Token →
      Except PyErr (nodes.Expression × List Token)
  | 0, _, _ => .error (.parseError "recursion limit")
  | fuel + 1, acc, toks =>
    match toks with
    | ⟨.plus, _⟩ :: r => do
      let p ← parseMul fuel r
      parseAddRest fuel (.addExpression acc p.1) p.2
    | ⟨.minus, _⟩ :: r => do
      let p ← parseMul fuel r
      parseAddRest fuel (.subtractExpression acc p.1) p.2
    | _ => .ok (acc, toks)

/-- Modelled from the spec: the comparison level (`=`, `<`, `<=`, `>`,
`>=`, left-associative, binding loosest), the entry point of the
column-expression grammar. -/
def parseExpression :
    Nat → List Token → Except PyErr (nodes.Expression × List Token)
  | 0, _ => .error (.parseError "recursion limit")
  | fuel + 1, toks => do
    let p ← parseAdd fuel toks
    parseCmpRest fuel p.1 p.2

/-- Modelled from the spec: the left-recursive tail of the comparison
level. -/
def parseCmpRest :
    Nat → nodes.Expression → List Token →
      Except PyErr (nodes.Expression × List Token)
  | 0, _, _ => .error (.parseError "recursion limit")
  | fuel + 1, acc, toks =>
    match toks with
    | ⟨.eq, _⟩ :: r => do
      let p ← parseAdd fuel r
      parseCmpRest fuel (.equalToExpression acc p.1) p.2
    | ⟨.lessThan, _⟩ :: r => do
      let p ← parseAdd fuel r
      parseCmpRest fuel (.lessThanExpression acc p.1) p.2
    | ⟨.lessThanEqual, _⟩ :: r => do
      let p ← parseAdd fuel r
      parseCmpRest fuel (.lessThanEqualExpression acc p.1) p.2
    | ⟨.greaterThan, _⟩ :: r => do
      let p ← parseAdd fuel r
      parseCmpRest fuel (.greaterThanExpression acc p.1) p.2
    | ⟨.greaterThanEqual, _⟩ :: r => do
      let p ← parseAdd fuel r
      parseCmpRest fuel (.greaterThanEqualExpression acc p.1) p.2
    | _ => .ok (acc, toks)

end

/-- Modelled from the spec: one select-list column binding (`*`,
expression, or expression AS name). -/
def parseColumnBinding :
    Nat → List Token →
      Except PyErr (nodes.ColumnBinding × List Token)
  | 0, _ => .error (.parseError "recursion limit")
  | fuel + 1, toks =>
    match toks with
    | ⟨.star, _⟩ :: r => .ok (.wildcardColumnBinding, r)
    | _ => do
      let p ← parseExpression fuel toks
      match p.2 with
      | ⟨.as_, _⟩ :: ⟨.name, al⟩ :: r =>
        .ok (.aliasedColumnBinding p.1 al, r)
      | _ => .ok (.implicitColumnBinding p.1, p.2)

/-- Modelled from the spec: the comma-delimited select list (one or
more bindings). -/
def parseColumnBindings :
    Nat → List Token →
      Except PyErr (List nodes.ColumnBinding × List Token)
  | 0, _ => .error (.parseError "recursion limit")
  | fuel + 1, toks => do
    let p ← parseColumnBinding fuel toks
    match p.2 with
    | ⟨.comma, _⟩ :: r => do
      let q ← parseColumnBindings fuel r
      .ok (p.1 :: q.1, q.2)
    | _ => .ok ([p.1], p.2)

set_option maxHeartbeats 1000000 in
mutual

/-- Modelled from the spec: a table binding (a parenthesised table
expression or a table reference, optionally aliased with AS). -/
def parseTableBinding :
    Nat → List Token →
      Except PyErr (nodes.TableBinding × List Token)
  | 0, _ => .error (.parseError "recursion limit")
  | fuel + 1, toks =>
    match toks with
    | ⟨.openParen, _⟩ :: r => do
      let p ← parseTableExpression fuel r
      match p.2 with
      | ⟨.closeParen, _⟩ :: ⟨.as_, _⟩ :: ⟨.name, al⟩ :: r2 =>
        .ok (.mk p.1 (some al), r2)
      | ⟨.closeParen, _⟩ :: r2 => .ok (.mk p.1 none, r2)
      | _ => .error (.parseError "expected close paren")
    | ⟨.name, nm⟩ :: ⟨.as_, _⟩ :: ⟨.name, al⟩ :: r =>
      .ok (.mk (.tableReferenceExpression nm) (some al), r)
    | ⟨.name, nm⟩ :: r =>
      .ok (.mk (.tableReferenceExpression nm) none, r)
    | _ => .error (.parseError "expected table binding")

/-- Modelled from the spec: the comma-delimited join clause list
(possibly empty; the USING constraint is unreachable because the lexer
has no USING keyword). -/
def parseJoinClauses :
    Nat → List Token →
      Except PyErr (List nodes.JoinClause × List Token)
  | 0, _ => .error (.parseError "recursion limit")
  | fuel + 1, toks =>
    match toks with
    | ⟨.join, _⟩ :: r => do
      let tb ← parseTableBinding fuel r
      match tb.2 with
      | ⟨.on_, _⟩ :: r2 => do
        let pred ← parseExpression fuel r2
        let jc : nodes.JoinClause := .mk tb.1 (.joinOnConstraint pred.1)
        match pred.2 with
        | ⟨.comma, _⟩ :: ⟨.join, jt⟩ :: r3 => do
          let rest ← parseJoinClauses fuel (⟨.join, jt⟩ :: r3)
          .ok (jc :: rest.1, rest.2)
        | _ => .ok ([jc], pred.2)
      | _ => .error (.parseError "expected ON")
    | _ => .ok ([], toks)

/-- Modelled from the spec: a SELECT table expression (the GROUP BY
clause is unreachable because the lexer has no GROUP or BY keyword, so
group_by is always None). -/
def parseSelect :
    Nat → List Token →
      Except PyErr (nodes.TableExpression × List Token)
  | 0, _ => .error (.parseError "recursion limit")
  | fuel + 1, toks => do
    let dp : Option nodes.DistinctClause × List Token :=
      match toks with
      | ⟨.distinct, _⟩ :: ⟨.consecutive, _⟩ :: r => (some (.mk true), r)
      | ⟨.distinct, _⟩ :: r => (some (.mk false), r)
      | _ => (none, toks)
    let cols ← parseColumnBindings fuel dp.2
    match cols.2 with
    | ⟨.from_, _⟩ :: r => do
      let tb ← parseTableBinding fuel r
      let joins ← parseJoinClauses fuel tb.2
      match joins.2 with
      | ⟨.where_, _⟩ :: r2 => do
        let pred ← parseExpression fuel r2
        .ok (.selectExpression dp.1 cols.1 (.mk tb.1) joins.1
          (some (.mk pred.1)) none, pred.2)
      | _ =>
        .ok (.selectExpression dp.1 cols.1 (.mk tb.1) joins.1 none
          none, joins.2)
    | _ => .error (.parseError "expected FROM")

/-- Modelled from the spec: a table expression (SELECT, IMPORT of a
string literal, or a table reference). -/
def parseTableExpression :
    Nat → List Token →
      Except PyErr (nodes.TableExpression × List Token)
  | 0, _ => .error (.parseError "recursion limit")
  | fuel + 1, toks =>
    match toks with
    | ⟨.select, _⟩ :: r => parseSelect fuel r
    | ⟨.import_, _⟩ :: ⟨.string, txt⟩ :: r =>
      .ok (.importExpression (parse_string_lit txt), r)
    | ⟨.name, nm⟩ :: r => .ok (.tableReferenceExpression nm, r)
    | _ => .error (.parseError "expected table expression")

end

/-- Modelled from the spec: a statement (WITH name AS table-expression
or EXPORT table-expression TO string, each terminated by a
semicolon). -/
def parseStatement (fuel : Nat) (toks : List Token) :
    Except PyErr (nodes.Statement × List Token) :=
  match toks with
  | ⟨.with_, _⟩ :: ⟨.name, target⟩ :: ⟨.as_, _⟩ :: r => do
    let te ← parseTableExpression fuel r
    match te.2 with
    | ⟨.semicolon, _⟩ :: r2 =>
      .ok (.assignmentStatement target te.1, r2)
    | _ => .error (.parseError "expected semicolon")
  | ⟨.export_, _⟩ :: r => do
    let te ← parseTableExpression fuel r
    match te.2 with
    | ⟨.to_, _⟩ :: ⟨.string, txt⟩ :: ⟨.semicolon, _⟩ :: r2 =>
      .ok (.exportStatement te.1 (parse_string_lit txt), r2)
    | _ => .error (.parseError "expected TO string semicolon")
  | _ => .error (.parseError "expected statement")

/-- Modelled from the spec: the statement list (parse statements until
the token stream is exhausted). -/
def parseStatements :
    Nat → List Token → Except PyErr (List nodes.Statement)
  | 0, _ => .error (.parseError "recursion limit")
  | _ + 1, [] => .ok []
  | fuel + 1, toks => do
    let p ← parseStatement fuel toks
    let rest ← parseStatements fuel p.2
    .ok (p.1 :: rest)

/-- Modelled from the spec: parser.py `parse`, over the filtered token
stream. -/
def parse (fuel : Nat) (toks : List Token) :
    Except PyErr (List nodes.Statement) :=
  parseStatements fuel (filter_tokens toks)

/- ===== Driver (dtl/eval.py run, run_simple) ===== -/

/-- eval.py `filter_tables`: keeps a table unless it is a TraceTable
... `or True`, so in fact it keeps everything (the level comparison is
a TODO in the source). -/
def filter_tables (tables : List Table) : List Table :=
  tables.filter (fun t =>
    (match t with
      | .traceTable _ _ => false
      | _ => true)
    || true)

/-- eval.py `extract_trace_tables`. -/
def extract_trace_tables (tables : List Table) : List Table :=
  tables.filter (fun t =>
    match t with
    | .traceTable _ _ => true
    | _ => false)

/-- eval.py `extract_export_tables` (kept as the export_as/columns
pairs). -/
def extract_export_tables (tables : List Table) :
    List (String × List Column) :=
  tables.filterMap (fun t =>
    match t with
    | .exportTable nm cols => some (nm, cols)
    | _ => none)

/-- The `columns` field of the ir.py Table base class. -/
def Table.columnsOf : Table → List Column
  | .traceTable _ cols => cols
  | .exportTable _ cols => cols

/-- eval.py `get_table_roots`: the set of column expressions of the
given tables.  The Python set is by object identity with unspecified
iteration order; it is modelled as structural first-occurrence
deduplication (any order evaluates the same DAG). -/
def get_table_roots (tables : List Table) : List Expression :=
  firstDedup (tables.flatMap
    (fun t => Table.columnsOf t |>.map
      (fun c => Expression.array c.expression)))

/-- eval.py `get_mapping_roots`: the index arrays of the surviving
mappings (Identity contributes nothing), deduplicated as a set. -/
def get_mapping_roots (mappings : List Mapping) : List Expression :=
  firstDedup (mappings.flatMap (fun m =>
    match m with
    | .identityMapping _ _ => []
    | .manyToOneMapping _ _ tgt_index => [Expression.array tgt_index]
    | .oneToManyMapping _ _ src_index => [Expression.array src_index]
    | .manyToManyMapping _ _ src_index tgt_index =>
      [Expression.array src_index, Expression.array tgt_index]))

/-- eval.py `run` with tracer=None (as `run_simple` calls it): lex,
parse, and lower; `compile_ast_to_ir` returns an ir.Program, and run
hands that object straight to `filter_tables`, whose list
comprehension iterates its argument.  Program defines no `__iter__` or
`__getitem__`, so Python raises an uncaught TypeError here on every
script, before mapping generation, scheduling, evaluation or export.
The fuel feeds the embedded loops (a modelling device). -/
def run (fuel : Nat) (source : String)
    (importer : List (String × PyTable)) :
    Except PyErr (List (String × List (String × PArray))) := do
  let tokens ← tokenize source
  let ast ← parse fuel tokens
  let program ← compile_ast_to_ir fuel ast importer
  let _ := filter_tables
  let _ := program
  .error (.typeError "'Program' object is not iterable")

/-- eval.py `run_simple`: run with in-memory importer and exporter and
no tracer, returning the exported tables by name. -/
def run_simple (fuel : Nat) (source : String)
    (inputs : List (String × PyTable)) :
    Except PyErr (List (String × List (String × PArray))) :=
  run fuel source inputs

/-- The pipeline as the spec describes it (the refinement target used
to exhibit the divergence): identical to `run` except that the stage
after lowering operates on the program's table list, as eval.py's
remaining stages are written to do — filter the tables, generate
mappings over the trace-table roots, schedule the union of table and
mapping roots, append the export commands, and evaluate. -/
def specRun (fuel : Nat) (source : String)
    (importer : List (String × PyTable)) :
    Except PyErr (List (String × List (String × PArray))) := do
  let tokens ← tokenize source
  let ast ← parse fuel tokens
  let program ← compile_ast_to_ir fuel ast importer
  let tables := filter_tables program.tables
  let mappings ← generate_mappings fuel
    (get_table_roots (extract_trace_tables tables))
  let roots := firstDedup
    (get_table_roots tables ++ get_mapping_roots mappings)
  let commands ← compile_ir_to_cmd fuel roots
  let exportCommands := (extract_export_tables tables).map
    (fun t => Command.exportTableCommand t.1
      ((t.2.foldl (fun d c => setAssoc d c.name c.expression) [])))
  let ctx ← evalCommands (commands ++ exportCommands)
    ⟨[], [], importer, []⟩
  .ok ctx.exported

/-- C1: the S1 scenario does not complete: `compile_ast_to_ir` wraps
the lowered tables in an ir.Program and `run` hands that non-iterable
object to `filter_tables`, so `run_simple` raises TypeError on the S1
script (first conjunct).  The divergence is exactly that wrapper: the
same pipeline run over the program's table list, as the spec
describes and as eval.py's remaining stages are written to do,
exports exactly one table `output` with new=[1,2,3,4] (second
conjunct). -/
theorem C1_run_simple_s1 :
    run_simple 64
      "WITH input AS IMPORT 'input'; WITH output AS SELECT old AS new FROM input; EXPORT output TO 'output';"
      [("input", ⟨[("old", .int64,
        [Val.i 1, Val.i 2, Val.i 3, Val.i 4])]⟩)]
    = .error (.typeError "'Program' object is not iterable")
    ∧ specRun 64
      "WITH input AS IMPORT 'input'; WITH output AS SELECT old AS new FROM input; EXPORT output TO 'output';"
      [("input", ⟨[("old", .int64,
        [Val.i 1, Val.i 2, Val.i 3, Val.i 4])]⟩)]
    = .ok [("output",
        [("new", [Val.i 1, Val.i 2, Val.i 3, Val.i 4])])] := by
  exact ⟨rfl, rfl⟩

/-- C6 counterexample: the claim says every array expression node yields
its own shape expression among its dependencies, but for an Add node the
source's `dependencies` yields only the two array operands: the node's
own shape expression is not among them. -/
theorem C6_dependencies_counterexample :
    (dependencies (.array (.addExpression .INT64 (.importShapeExpression "t")
        (.integerLiteralExpression .INT64 (.importShapeExpression "t") 1)
        (.integerLiteralExpression .INT64 (.importShapeExpression "t") 2)))
      = [.array (.integerLiteralExpression .INT64 (.importShapeExpression "t") 1),
         .array (.integerLiteralExpression .INT64 (.importShapeExpression "t") 2)])
    ∧ Expression.shape (.importShapeExpression "t")
        ∉ dependencies (.array (.addExpression .INT64 (.importShapeExpression "t")
            (.integerLiteralExpression .INT64 (.importShapeExpression "t") 1)
            (.integerLiteralExpression .INT64 (.importShapeExpression "t") 2))) := by
  constructor
  · rfl
  · decide

/-- C6 (amended): dependency extraction, per variant, as the code actually
has it.  Shape expressions depend exactly on their inputs (ImportShape on
nothing, WhereShape on its mask, JoinShape on its two operand shapes) —
this half of the claim is as stated.  Array nodes however do not yield
their own shape expression: literals yield exactly their shape (and have
no array operands), Import yields nothing, Where yields its mask then its
source, Pick yields its indexes then its source, Index yields its source,
JoinLeft and JoinRight yield their two operand shapes, and the five
binary operations yield exactly their two array operands. -/
theorem C6_dependencies_amended :
    (∀ loc, dependencies (.shape (.importShapeExpression loc)) = [])
    ∧ (∀ mask, dependencies (.shape (.whereShapeExpression mask)) = [.array mask])
    ∧ (∀ a b, dependencies (.shape (.joinShapeExpression a b)) = [.shape a, .shape b])
    ∧ (∀ d s v, dependencies (.array (.booleanLiteralExpression d s v)) = [.shape s])
    ∧ (∀ d s v, dependencies (.array (.integerLiteralExpression d s v)) = [.shape s])
    ∧ (∀ d s v, dependencies (.array (.floatLiteralExpression d s v)) = [.shape s])
    ∧ (∀ d s v, dependencies (.array (.textLiteralExpression d s v)) = [.shape s])
    ∧ (∀ d s v, dependencies (.array (.bytesLiteralExpression d s v)) = [.shape s])
    ∧ (∀ d s loc nm, dependencies (.array (.importExpression d s loc nm)) = [])
    ∧ (∀ d s src mask, dependencies (.array (.whereExpression d s src mask))
        = [.array mask, .array src])
    ∧ (∀ d s src idx, dependencies (.array (.pickExpression d s src idx))
        = [.array idx, .array src])
    ∧ (∀ d s src, dependencies (.array (.indexExpression d s src)) = [.array src])
    ∧ (∀ d s a b, dependencies (.array (.joinLeftExpression d s a b))
        = [.shape a, .shape b])
    ∧ (∀ d s a b, dependencies (.array (.joinRightExpression d s a b))
        = [.shape a, .shape b])
    ∧ (∀ d s a b, dependencies (.array (.addExpression d s a b)) = [.array a, .array b])
    ∧ (∀ d s a b, dependencies (.array (.subtractExpression d s a b))
        = [.array a, .array b])
    ∧ (∀ d s a b, dependencies (.array (.multiplyExpression d s a b))
        = [.array a, .array b])
    ∧ (∀ d s a b, dependencies (.array (.divideExpression d s a b))
        = [.array a, .array b])
    ∧ (∀ d s a b, dependencies (.array (.equalToExpression d s a b))
        = [.array a, .array b]) := by
  refine ⟨?_, ?_, ?_, ?_, ?_, ?_, ?_, ?_, ?_, ?_, ?_, ?_, ?_, ?_, ?_, ?_, ?_, ?_, ?_⟩
  all_goals intros; rfl

end DTL
